import Mathlib

/-!
Verification development for the `personal-site` static-site generator
(`src/build.ts`, `src/process-photos.ts`).

The markdown converter (`SimpleMarkdownParser.parse`), the YAML-subset reader
(`SimpleYamlParser.parseSimple`), the blog-catalog date resolution
(`StaticSiteBuilder.getBlogPosts`), the RSS feed assembly
(`buildRSSFeed` / `loadExistingPubDates` / `generateRSSXML`), the orphan-file
sweep (`cleanupOrphanedFiles` / `removeOrphanedFilesRecursive`), the homepage
section assembly (`buildHomepage`) and the photo-import CLI
(`PhotoProcessor.processPhotos` / `main`) are embedded shallowly below.
Strings are modelled as `List Char`; every JavaScript regex in the source is a
concrete deterministic pattern (anchored per-line patterns, literal alternation,
or character-class / lazy quantifiers whose match extent is "up to the first
occurrence of the terminator"), and is translated to an explicit scanner.
File-system reads are modelled as a `List Char → Option (List Char)` lookup,
`Date.now()` / `Math.random()` placeholder generation as an explicit family of
token strings indexed by a per-kind counter, and `new Date(s)` symbolically
(the claims only concern which source string a date is built from, never
calendar arithmetic).
-/

set_option maxRecDepth 10000

abbrev Str := List Char

/-- Convert a Lean string literal to the `List Char` representation. -/
def chars (s : String) : Str := s.data

/-! ## Generic string (List Char) utilities mirroring JS string operations -/

/-- `pat` occurs as a contiguous substring of `s` (JS `String.prototype.includes`). -/
def occursB (pat : Str) (s : Str) : Bool :=
  match s with
  | [] => pat.isEmpty
  | _ :: cs => pat.isPrefixOf s || occursB pat cs

/-- Split on a character (JS `String.prototype.split` with a one-char separator):
`split '\n' "" = [""]`, separators delimit possibly-empty fields. -/
def splitCh (sep : Char) : Str → List Str
  | [] => [[]]
  | c :: cs =>
    let r := splitCh sep cs
    if c = sep then [] :: r
    else
      match r with
      | [] => [[c]]
      | h :: t => (c :: h) :: t

/-- Join with a one-char separator (JS `Array.prototype.join`). -/
def joinCh (sep : Char) : List Str → Str
  | [] => []
  | [l] => l
  | l :: ls => l ++ sep :: joinCh sep ls

/-- JS whitespace test for the characters that occur in this model
(`String.prototype.trim` trims these). -/
def isJsWS (c : Char) : Bool :=
  c = ' ' || c = '\t' || c = '\n' || c = '\r'

/-- JS `String.prototype.trim`. -/
def jsTrim (s : Str) : Str :=
  ((s.dropWhile isJsWS).reverse.dropWhile isJsWS).reverse

/-- Replace the first occurrence of `pat` (JS `String.prototype.replace` with a
string pattern): no occurrence leaves the string unchanged. -/
def replaceFirstL (pat repl : Str) : Str → Str
  | [] => if pat = [] then repl else []
  | c :: cs =>
    if pat.isPrefixOf (c :: cs) then repl ++ (c :: cs).drop pat.length
    else c :: replaceFirstL pat repl cs

/-- One step of a global left-to-right rewrite: `f rest = some (k, r)` means the
match at this position spans `k ≥ 1` characters and is replaced by `r`
(JS `String.prototype.replace` with a `/g` regex: scanning resumes after the
match, replacements are not rescanned).  Structural fuel keeps the definition
kernel-computable; `scanRw` supplies fuel = input length, which is enough since
every step consumes at least one character. -/
def scanRwF (f : Str → Option (Nat × Str)) : Nat → Str → Str
  | 0, s => s
  | _, [] => []
  | fuel + 1, c :: cs =>
    match f (c :: cs) with
    | some (k, r) => r ++ scanRwF f fuel (cs.drop (k - 1))
    | none => c :: scanRwF f fuel cs

/-- Global left-to-right rewrite driven by a matcher; see `scanRwF`. -/
def scanRw (f : Str → Option (Nat × Str)) (s : Str) : Str :=
  scanRwF f s.length s

/-- Matcher for a literal pattern (used to model `/lit/g` replacements). -/
def litTry (pat repl : Str) (s : Str) : Option (Nat × Str) :=
  if pat ≠ [] ∧ pat.isPrefixOf s then some (pat.length, repl) else none

/-- Replace every occurrence of a (nonempty) literal, leftmost, non-overlapping
(JS `.replace(/lit/g, repl)` and the `new RegExp(placeholder, 'g')` restore
calls: the placeholder strings contain no regex metacharacter). -/
def replaceAllL (pat repl : Str) (s : Str) : Str :=
  scanRw (litTry pat repl) s

/-- Content up to (excluding) the first occurrence of the character `stop`,
plus the remainder after `stop`; `none` when `stop` is absent.  This is the
match of a greedy `[^stop]*` followed by `stop`. -/
def takeUntil (stop : Char) : Str → Option (Str × Str)
  | [] => none
  | c :: cs =>
    if c = stop then some ([], cs)
    else (takeUntil stop cs).map (fun p => (c :: p.1, p.2))

/-- Content up to the first occurrence of the substring `term`, plus the
remainder after `term`; `none` when absent.  This is the match of a lazy
`[\s\S]*?` followed by the literal `term`. -/
def splitAtSub (term : Str) : Str → Option (Str × Str)
  | [] => none
  | c :: cs =>
    if term.isPrefixOf (c :: cs) then some ([], (c :: cs).drop term.length)
    else (splitAtSub term cs).map (fun p => (c :: p.1, p.2))

/-- Like `splitAtSub` but the content may not contain `'\n'` and must be
nonempty: the match of a lazy `(.+?)` followed by the literal `term`
(`.` does not match newline; laziness selects the first occurrence of `term`
at offset ≥ 1). -/
def splitAtSubNoNL (term : Str) : Str → Option (Str × Str)
  | [] => none
  | c :: cs =>
    if term.isPrefixOf (c :: cs) then some ([], (c :: cs).drop term.length)
    else if c = '\n' then none
    else (splitAtSubNoNL term cs).map (fun p => (c :: p.1, p.2))

/-- Lazy `(.+?)term` (content nonempty, newline-free): the first character is
forced into the content, then the first occurrence of `term` terminates it. -/
def splitAtSubNoNL1 (term : Str) : Str → Option (Str × Str)
  | [] => none
  | c :: cs =>
    if c = '\n' then none
    else (splitAtSubNoNL term cs).map (fun p => (c :: p.1, p.2))

/-- Apply a function to each '\n'-separated line (the `/gm` per-line regex
replacements and the `.split('\n').map(...).join('\n')` passes). -/
def lineMap (f : Str → Str) (s : Str) : Str :=
  joinCh '\n' ((splitCh '\n' s).map f)

/-! ## Path helpers (node `path` module, restricted to the shapes the build uses) -/

/-- `path.basename`: the part after the last '/'. -/
def basenameL (p : Str) : Str :=
  match splitCh '/' p with
  | [] => p
  | parts => parts.getLast!

/-- `path.extname`: from the last '.' of the basename; empty for no dot or a
leading dot (dotfiles). -/
def extnameL (p : Str) : Str :=
  let base := basenameL p
  let idxs := (List.range base.length).filter (fun i => base.get! i = '.')
  match idxs.getLast? with
  | none => []
  | some i => if i = 0 then [] else base.drop i

/-- `path.join` restricted to the simple relative segments the build joins
(no normalization of `..` or `.` is needed for those inputs). -/
def joinPath (a b : Str) : Str :=
  if a = [] then b else a ++ [ '/' ] ++ b

/-- `'../'.repeat n` (the build only ever calls it with a nonnegative count;
JS throws on a negative count, which the claims exclude by hypothesis). -/
def repeatStr (s : Str) (n : Nat) : Str :=
  (List.replicate n s).flatten

/-! ## The markdown converter: `SimpleMarkdownParser.parse` (src/build.ts:82-253)

The converter's per-call context: the source directory, the output path, the
file system (for `![..](./x.html)` embeds), and the three placeholder-token
families. In the source a token is
`ƒ¶ƒ¶ƒ¶KIND${Date.now()}X${random}ƒ¶ƒ¶ƒ¶`; here the successive draws of each
kind are a parameter `Nat → Str`.  The mutable instance state
(`imagesToCopy` and the three placeholder maps, which are cleared at the end
of every call) is threaded explicitly. -/

structure ImgCopy where
  source : Str
  dest : Str
  relativePath : Str
deriving DecidableEq, Repr

structure MdEnv where
  sourceDir : Str
  outputPath : Str
  fs : Str → Option Str
  codeTok : Nat → Str
  icodeTok : Nat → Str
  htmlTok : Nat → Str

structure PSt where
  imgs : List ImgCopy
  codeMap : List (Str × Str)
  icodeMap : List (Str × Str)
  htmlMap : List (Str × Str)
  nCode : Nat
  nICode : Nat
  nHtml : Nat
deriving Repr

def PSt.init : PSt := ⟨[], [], [], [], 0, 0, 0⟩

/-- Stateful variant of `scanRwF` for the three extraction passes. -/
def scanRwStF (f : PSt → Str → Option (Nat × Str × PSt)) :
    Nat → PSt → Str → Str × PSt
  | 0, st, s => (s, st)
  | _, st, [] => ([], st)
  | fuel + 1, st, c :: cs =>
    match f st (c :: cs) with
    | some (k, r, st') =>
      let p := scanRwStF f fuel st' (cs.drop (k - 1))
      (r ++ p.1, p.2)
    | none =>
      let p := scanRwStF f fuel st cs
      (c :: p.1, p.2)

def scanRwSt (f : PSt → Str → Option (Nat × Str × PSt)) (st : PSt) (s : Str) :
    Str × PSt :=
  scanRwStF f s.length st s

/-- `^#…# (.+)$` per-line heading rule (`n` hashes); the replacement tags are
passed in ready-made. -/
def headingLine (n : Nat) (openT closeT : Str) (line : Str) : Str :=
  let pre := List.replicate n '#' ++ [' ']
  if pre.isPrefixOf line ∧ line.drop (n + 1) ≠ [] then
    openT ++ line.drop (n + 1) ++ closeT
  else line

/-- The `![alt](src)` replacement callback (src/build.ts:88-138).
`existsSync` + `readFileSync` collapse to one `fs` lookup (a read failure on an
existing file is not modelled; the build only warns there too).
`relativeDepth` is `outputPath.split('/').length - 2` — natural-number
truncation; the JS value is negative (and `'../'.repeat` throws) only for
output paths with a single segment, which the builder never produces. -/
def imageTry (env : MdEnv) (st : PSt) (s : Str) : Option (Nat × Str × PSt) :=
  match s with
  | '!' :: '[' :: t =>
    match takeUntil ']' t with
    | some (alt, t1) =>
      match t1 with
      | '(' :: t2 =>
        match takeUntil ')' t2 with
        | some (src, rest) =>
          if src = [] then none
          else
            let consumed := s.length - rest.length
            let cleanSrc := src.filter (fun c => ¬ (c = '"' ∨ c = '\''))
            if (chars "./").isPrefixOf cleanSrc then
              let rel := cleanSrc.drop 2
              let sourcePath := joinPath env.sourceDir rel
              if (extnameL rel).map Char.toLower = chars ".html" then
                match env.fs sourcePath with
                | some htmlContent =>
                  let tok := env.htmlTok st.nHtml
                  some (consumed, tok,
                    { st with htmlMap := st.htmlMap ++ [(tok, htmlContent)],
                              nHtml := st.nHtml + 1 })
                | none =>
                  some (consumed,
                    chars "<!-- Error: HTML file not found: " ++ rel ++ chars " -->",
                    st)
              else
                let imageName := basenameL rel
                let relativeDepth := (splitCh '/' env.outputPath).length - 2
                let relativePath :=
                  repeatStr (chars "../") relativeDepth ++ chars "assets/" ++ imageName
                let destPath := chars "dist/assets/" ++ imageName
                some (consumed,
                  chars "<img src=\"" ++ relativePath ++ chars "\" alt=\"" ++ alt ++ chars "\">",
                  { st with imgs := st.imgs ++ [⟨sourcePath, destPath, relativePath⟩] })
            else
              some (consumed,
                chars "<img src=\"" ++ cleanSrc ++ chars "\" alt=\"" ++ alt ++ chars "\">",
                st)
        | none => none
      | _ => none
    | none => none
  | _ => none

/-- Fenced code extraction: ```` /```([\s\S]*?)```/g ```` (src/build.ts:139-144). -/
def fenceTry (env : MdEnv) (st : PSt) (s : Str) : Option (Nat × Str × PSt) :=
  if (chars "```").isPrefixOf s then
    match splitAtSub (chars "```") (s.drop 3) with
    | some (content, rest) =>
      let tok := env.codeTok st.nCode
      some (s.length - rest.length, tok,
        { st with
            codeMap := st.codeMap ++
              [(tok, chars "<pre><code>" ++ content ++ chars "</code></pre>")],
            nCode := st.nCode + 1 })
    | none => none
  else none

/-- Inline code extraction: `` /`([^`]+)`/g `` (src/build.ts:145-150). -/
def icodeTry (env : MdEnv) (st : PSt) (s : Str) : Option (Nat × Str × PSt) :=
  match s with
  | '`' :: t =>
    match takeUntil '`' t with
    | some (content, rest) =>
      if content = [] then none
      else
        let tok := env.icodeTok st.nICode
        some (s.length - rest.length, tok,
          { st with
              icodeMap := st.icodeMap ++
                [(tok, chars "<code>" ++ content ++ chars "</code>")],
              nICode := st.nICode + 1 })
    | none => none
  | _ => none

/-- Links: `/\[([^\]]+)\]\(([^)]+)\)/g` → `<a href="$2" target="_blank">$1</a>`. -/
def linkTry (s : Str) : Option (Nat × Str) :=
  match s with
  | '[' :: t =>
    match takeUntil ']' t with
    | some (txt, t1) =>
      if txt = [] then none
      else
        match t1 with
        | '(' :: t2 =>
          match takeUntil ')' t2 with
          | some (url, rest) =>
            if url = [] then none
            else
              some (s.length - rest.length,
                chars "<a href=\"" ++ url ++ chars "\" target=\"_blank\">" ++ txt ++ chars "</a>")
          | none => none
        | _ => none
    | none => none
  | _ => none

/-- Emphasis: `/delim(.+?)delim/g` for `**`, `__`, `*`, `_`. -/
def emphTry (delim openT closeT : Str) (s : Str) : Option (Nat × Str) :=
  if delim.isPrefixOf s then
    match splitAtSubNoNL1 delim (s.drop delim.length) with
    | some (content, rest) =>
      some (s.length - rest.length, openT ++ content ++ closeT)
    | none => none
  else none

/-- `^> (.+)$` per line. -/
def bqLine (line : Str) : Str :=
  if (chars "> ").isPrefixOf line ∧ line.drop 2 ≠ [] then
    chars "<blockquote-line>" ++ line.drop 2 ++ chars "</blockquote-line>"
  else line

/-- `^- (.+)$` per line. -/
def dashLine (line : Str) : Str :=
  if (chars "- ").isPrefixOf line ∧ line.drop 2 ≠ [] then
    chars "<li>" ++ line.drop 2 ++ chars "</li>"
  else line

/-- `^(\d+)\. (.+)$` per line (the number itself is discarded: `<li>$2</li>`). -/
def olLine (line : Str) : Str :=
  let digits := line.takeWhile (fun c => c.isDigit)
  if digits = [] then line
  else
    match line.drop digits.length with
    | '.' :: ' ' :: rest => if rest = [] then line else chars "<li>" ++ rest ++ chars "</li>"
    | _ => line

/-- Paragraph wrapping: `line.trim() ? `<p>${line}</p>` : ''` per line. -/
def wrapLine (line : Str) : Str :=
  if jsTrim line ≠ [] then chars "<p>" ++ line ++ chars "</p>" else []

/-- `/<p><h([1-6])>/g → <h$1>`. -/
def pOpenHTry (s : Str) : Option (Nat × Str) :=
  match s with
  | '<' :: 'p' :: '>' :: '<' :: 'h' :: d :: '>' :: _ =>
    if '1' ≤ d ∧ d ≤ '6' then some (7, ['<', 'h', d, '>']) else none
  | _ => none

/-- `/<\/h([1-6])><\/p>/g → </h$1>`. -/
def hClosePTry (s : Str) : Option (Nat × Str) :=
  match s with
  | '<' :: '/' :: 'h' :: d :: '>' :: '<' :: '/' :: 'p' :: '>' :: _ =>
    if '1' ≤ d ∧ d ≤ '6' then some (9, ['<', '/', 'h', d, '>']) else none
  | _ => none

/-- `/<\/?blockquote-line>/g → ''` (the optional `/` is greedy, so the closing
tag is tried first). -/
def stripBqTags (line : Str) : Str :=
  scanRw (fun s =>
    match litTry (chars "</blockquote-line>") [] s with
    | some r => some r
    | none => litTry (chars "<blockquote-line>") [] s) line

/-- The blockquote-merging `reduce` (src/build.ts:173-195). -/
def bqStep (acc : List Str) (line : Str) : List Str :=
  if occursB (chars "<blockquote-line>") line then
    let acc1 :=
      if acc ≠ [] ∧ ¬ occursB (chars "<blockquote>") acc.getLast! then
        acc ++ [chars "<blockquote>"]
      else if acc = [] then [chars "<blockquote>"]
      else acc
    let content := stripBqTags line
    if acc1.getLast! = chars "<blockquote>" then
      acc1.dropLast ++ [chars "<blockquote>" ++ content]
    else
      acc1.dropLast ++ [acc1.getLast! ++ chars "<br>" ++ content]
  else if acc ≠ [] ∧ (chars "<blockquote>").isPrefixOf acc.getLast! ∧
      ¬ (chars "</blockquote>").isSuffixOf acc.getLast! then
    (acc.dropLast ++ [acc.getLast! ++ chars "</blockquote>"]) ++ [line]
  else acc ++ [line]

/-- The list-merging `reduce` (src/build.ts:196-214); lists always open as
`<ul>` ("default to unordered list"). -/
def listStep (acc : List Str) (line : Str) : List Str :=
  if occursB (chars "<li>") line then
    if acc ≠ [] ∧ (occursB (chars "<ul>") acc.getLast! ∨ occursB (chars "<ol>") acc.getLast!) then
      acc.dropLast ++
        [replaceFirstL (chars "</ol>") (line ++ chars "</ol>")
          (replaceFirstL (chars "</ul>") (line ++ chars "</ul>") acc.getLast!)]
    else acc ++ [chars "<ul>" ++ line ++ chars "</ul>"]
  else if acc ≠ [] ∧ (occursB (chars "<ul>") acc.getLast! ∨ occursB (chars "<ol>") acc.getLast!) ∧
      jsTrim line = [] then
    acc ++ [line]
  else acc ++ [line]

/-- Auto-close an unterminated blockquote (src/build.ts:215-221). -/
def closeBqLine (line : Str) : Str :=
  if (chars "<blockquote>").isPrefixOf line ∧ ¬ (chars "</blockquote>").isSuffixOf line then
    line ++ chars "</blockquote>"
  else line

/-- JS replacement-string expansion (`String.prototype.replace` with a string
replacement): `$$` inserts `$`, `$&` the matched substring, `` $` `` the
portion of the subject before the match, `$'` the portion after it; a `$`
followed by anything else is literal (the restore regexes
`new RegExp(placeholder, 'g')` have no capture groups, so `$n` and `$<` are
literal too). -/
def jsExpandRepl (matched before after : Str) : Str → Str
  | [] => []
  | c :: rest =>
    if c = '$' then
      match rest with
      | [] => [c]
      | d :: rest2 =>
        if d = '$' then '$' :: jsExpandRepl matched before after rest2
        else if d = '&' then matched ++ jsExpandRepl matched before after rest2
        else if d = '`' then before ++ jsExpandRepl matched before after rest2
        else if d = '\'' then after ++ jsExpandRepl matched before after rest2
        else c :: jsExpandRepl matched before after (d :: rest2)
    else c :: jsExpandRepl matched before after rest

/-- Global replace of a literal pattern with a *string* replacement under JS
semantics: each match expands the replacement with `jsExpandRepl` against the
original subject (`before` accumulates the subject prefix already scanned).
Structural fuel as in `scanRwF`. -/
def replaceAllJsF (pat repl : Str) : Nat → Str → Str → Str
  | 0, _, s => s
  | _ + 1, _, [] => []
  | fuel + 1, before, c :: cs =>
    if pat ≠ [] ∧ pat.isPrefixOf (c :: cs) then
      jsExpandRepl pat before ((c :: cs).drop pat.length) repl ++
        replaceAllJsF pat repl fuel (before ++ pat) ((c :: cs).drop pat.length)
    else c :: replaceAllJsF pat repl fuel (before ++ [c]) cs

/-- `result.replace(new RegExp(placeholder, 'g'), content)` for one
placeholder (src/build.ts:226-247): the replacement `content` is a plain JS
string, so dollar sequences in it are interpreted. -/
def replaceAllJs (pat repl s : Str) : Str :=
  replaceAllJsF pat repl s.length [] s

/-- Restore a placeholder map in insertion order (src/build.ts:226-247). -/
def restoreMap (m : List (Str × Str)) (s : Str) : Str :=
  m.foldl (fun acc p => replaceAllJs p.1 p.2 acc) s

namespace Md

/-- `SimpleMarkdownParser.parse` (src/build.ts:82-253): the full pipeline, in
source order.  Returns the HTML string and the final per-call state (whose
`imgs` field is what `getImagesToCopy` reports for this document). -/
def parse (env : MdEnv) (markdown : Str) : Str × PSt :=
  let r := markdown
  let r := lineMap (headingLine 1 (chars "<h1>") (chars "</h1>")) r
  let r := lineMap (headingLine 2 (chars "<h2>") (chars "</h2>")) r
  let r := lineMap (headingLine 3 (chars "<h3>") (chars "</h3>")) r
  let r := lineMap (headingLine 4 (chars "<h4>") (chars "</h4>")) r
  let p := scanRwSt (imageTry env) PSt.init r
  let p := (scanRwSt (fenceTry env) p.2 p.1)
  let p := (scanRwSt (icodeTry env) p.2 p.1)
  let st := p.2
  let r := p.1
  let r := scanRw linkTry r
  let r := scanRw (emphTry (chars "**") (chars "<strong>") (chars "</strong>")) r
  let r := scanRw (emphTry (chars "__") (chars "<strong>") (chars "</strong>")) r
  let r := scanRw (emphTry (chars "*") (chars "<em>") (chars "</em>")) r
  let r := scanRw (emphTry (chars "_") (chars "<em>") (chars "</em>")) r
  let r := lineMap bqLine r
  let r := lineMap dashLine r
  let r := lineMap olLine r
  let r := lineMap wrapLine r
  let r := scanRw pOpenHTry r
  let r := scanRw hClosePTry r
  let r := replaceAllL (chars "<p><img") (chars "<img") r
  let r := replaceAllL (chars "></p>") (chars ">") r
  let r := replaceAllL (chars "<p><pre>") (chars "<pre>") r
  let r := replaceAllL (chars "</pre></p>") (chars "</pre>") r
  let r := replaceAllL (chars "<p><blockquote-line>") (chars "<blockquote-line>") r
  let r := replaceAllL (chars "</blockquote-line></p>") (chars "</blockquote-line>") r
  let r := replaceAllL (chars "<p><li>") (chars "<li>") r
  let r := replaceAllL (chars "</li></p>") (chars "</li>") r
  let ls := splitCh '\n' r
  let ls := ls.foldl bqStep []
  let ls := ls.foldl listStep []
  let ls := ls.map closeBqLine
  let r := joinCh '\n' ls
  let r := replaceAllL (chars "<p></p>") [] r
  let r := restoreMap st.codeMap r
  let r := restoreMap st.icodeMap r
  let r := restoreMap st.htmlMap r
  let r := replaceAllL (chars "<p><pre>") (chars "<pre>") r
  let r := replaceAllL (chars "</pre></p>") (chars "</pre>") r
  (r, st)

end Md

/-- A concrete representative token family of the source's shape
`ƒ¶ƒ¶ƒ¶KIND${Date.now()}X${random}ƒ¶ƒ¶ƒ¶`, used when claims are evaluated at
concrete inputs. -/
def tokOfKind (kind : String) (k : Nat) : Str :=
  chars "ƒ¶ƒ¶ƒ¶" ++ chars kind ++ chars (toString (1700000000000 + k)) ++
    chars "Xq1w2e3r4t" ++ chars "ƒ¶ƒ¶ƒ¶"

/-- A concrete environment: blog source directory, blog output path, empty
file system. -/
def envBlog : MdEnv :=
  { sourceDir := chars "content/blog"
    outputPath := chars "dist/updates/post.html"
    fs := fun _ => none
    codeTok := tokOfKind "CODEBLOCK"
    icodeTok := tokOfKind "INLINECODE"
    htmlTok := tokOfKind "HTMLBLOCK" }

/-- A second concrete representative token family with a different timestamp
and random suffix, modelling the tokens drawn in a second run of the program.
-/
def tokOfKind2 (kind : String) (k : Nat) : Str :=
  chars "ƒ¶ƒ¶ƒ¶" ++ chars kind ++ chars (toString (1800000000000 + k)) ++
    chars "Zz9y8x7w6v" ++ chars "ƒ¶ƒ¶ƒ¶"

/-- The same blog environment as `envBlog`, with the second run's tokens. -/
def envBlog2 : MdEnv :=
  { sourceDir := chars "content/blog"
    outputPath := chars "dist/updates/post.html"
    fs := fun _ => none
    codeTok := tokOfKind2 "CODEBLOCK"
    icodeTok := tokOfKind2 "INLINECODE"
    htmlTok := tokOfKind2 "HTMLBLOCK" }

/-! ## Substring counting and boundary toolkit -/

/-- Number of positions of `s` at which `pat` occurs (all positions, including
overlapping ones; the patterns counted in this development do not self-overlap). -/
def countOccur (pat : Str) : Str → Nat
  | [] => 0
  | c :: cs => (if pat.isPrefixOf (c :: cs) then 1 else 0) + countOccur pat cs

/-- No occurrence of `pat` in `a ++ b` crosses the boundary: for every split of
`pat` into a nonempty prefix and nonempty suffix, the prefix is not a suffix of
`a` or the suffix is not a prefix of `b`. -/
def crossFree (pat a b : Str) : Bool :=
  (List.range pat.length).all (fun j =>
    j = 0 || !((pat.take j).isSuffixOf a && (pat.drop j).isPrefixOf b))

/-! ## The YAML-subset reader: `SimpleYamlParser.parseSimple` (src/build.ts:21-74) -/

inductive YVal
  | str (v : Str)
  | date (v : Str)
  | list (xs : List Str)
deriving DecidableEq, Repr

/-- JS object property assignment: an existing key keeps its position, a new
key is appended. -/
def setKey (m : List (Str × YVal)) (k : Str) (v : YVal) : List (Str × YVal) :=
  match m with
  | [] => [(k, v)]
  | (k', v') :: rest => if k' = k then (k, v) :: rest else (k', v') :: setKey rest k v

/-- JS object property lookup. -/
def getKey (m : List (Str × YVal)) (k : Str) : Option YVal :=
  match m with
  | [] => none
  | (k', v') :: rest => if k' = k then some v' else getKey rest k

structure YSt where
  result : List (Str × YVal)
  currentArray : List Str
  currentArrayKey : Str
deriving DecidableEq, Repr

namespace Yaml

/-- One line of `parseSimple`'s loop (`currentArrayKey = []` models the JS
falsy `''`). -/
def step (st : YSt) (line : Str) : YSt :=
  let trimmed := jsTrim line
  if trimmed ≠ [] ∧ ¬ (chars "#").isPrefixOf trimmed then
    if (chars "- ").isPrefixOf trimmed then
      if st.currentArrayKey ≠ [] then
        { st with currentArray := st.currentArray ++ [jsTrim (trimmed.drop 2)] }
      else st
    else
      let st1 :=
        if st.currentArrayKey ≠ [] ∧ st.currentArray ≠ [] then
          { result := setKey st.result st.currentArrayKey (.list st.currentArray),
            currentArray := [], currentArrayKey := [] }
        else st
      match takeUntil ':' trimmed with
      | none => st1
      | some (key0, rest) =>
        if key0 = [] then st1
        else
          let key := jsTrim key0
          let value := jsTrim rest
          if key = chars "published_at" then
            { st1 with result := setKey st1.result key (.date value) }
          else if value = [] then
            { st1 with currentArrayKey := key, currentArray := [] }
          else
            { st1 with result := setKey st1.result key (.str value) }
  else st

/-- `SimpleYamlParser.parseSimple`. -/
def parseSimple (yamlContent : Str) : List (Str × YVal) :=
  let final := (splitCh '\n' yamlContent).foldl step ⟨[], [], []⟩
  if final.currentArrayKey ≠ [] ∧ final.currentArray ≠ [] then
    setKey final.result final.currentArrayKey (.list final.currentArray)
  else final.result

end Yaml

/-- The claim's reading of the parser, written from the claim's words: a `- `
line is appended to the list currently being built, valid only immediately
after a key line with an empty value; a line containing a colon is split into
key and trimmed value; an empty value after the colon opens a new pending list
under that key, closing and committing any list build in progress; a non-empty
value maps the key to the literal value, parsed as a date only for the key
`published_at`; end of input commits any pending list. -/
def specYamlStep (st : YSt) (line : Str) : YSt :=
  let trimmed := jsTrim line
  if trimmed ≠ [] ∧ ¬ (chars "#").isPrefixOf trimmed then
    if (chars "- ").isPrefixOf trimmed then
      -- valid only while a list is being built (opened by an empty-value key
      -- line and not yet closed)
      if st.currentArrayKey ≠ [] then
        { st with currentArray := st.currentArray ++ [jsTrim (trimmed.drop 2)] }
      else st
    else
      match takeUntil ':' trimmed with
      | none => st
      | some (key0, rest) =>
        -- close and commit any list build in progress
        let st1 :=
          if st.currentArrayKey ≠ [] then
            { result := setKey st.result st.currentArrayKey (.list st.currentArray),
              currentArray := [], currentArrayKey := [] }
          else st
        let key := jsTrim key0
        let value := jsTrim rest
        if value = [] then
          -- an empty value after the colon opens a new pending list
          { st1 with currentArrayKey := key, currentArray := [] }
        else if key = chars "published_at" then
          { st1 with result := setKey st1.result key (.date value) }
        else
          { st1 with result := setKey st1.result key (.str value) }
  else st

/-- The spec-side parser assembled from `specYamlStep`. -/
def specYamlParse (yamlContent : Str) : List (Str × YVal) :=
  let final := (splitCh '\n' yamlContent).foldl specYamlStep ⟨[], [], []⟩
  if final.currentArrayKey ≠ [] then
    setKey final.result final.currentArrayKey (.list final.currentArray)
  else final.result

/-! ## Blog catalog dates: `StaticSiteBuilder.getBlogPosts` (src/build.ts:1510-1548) -/

/-- A JS `Date` value, kept symbolic: the claims only concern which source
string a date was built from (`new Date(s)` vs `new Date(0)`), never calendar
arithmetic. -/
inductive JSDate
  | fromString (s : Str)
  | epoch
deriving DecidableEq, Repr

/-- Which branch of the date-resolution produced the publish date. -/
inductive ResolvedDate
  | fromMeta (s : Str)
  | fromMarker (s : Str)
  | fromMtime
  | fromNow
  | epochDefault
deriving DecidableEq, Repr

/-- First match of `/_Last updated ([^_]+)_/`, returning the captured group. -/
def lastUpdatedCapture : Str → Option Str
  | [] => none
  | c :: cs =>
    match
      (if (chars "_Last updated ").isPrefixOf (c :: cs) then
        match takeUntil '_' ((c :: cs).drop 14) with
        | some (content, _) => if content = [] then none else some content
        | none => none
      else none) with
    | some r => some r
    | none => lastUpdatedCapture cs

/-- The `published_at` value of a sidecar file, as `getBlogPosts` reads it:
parse the YAML, take `meta.published_at` (a `new Date(value)`), `undefined`
when the sidecar or the key is absent. -/
def metaPublishedAt (metaYaml : Option Str) : Option Str :=
  match metaYaml with
  | none => none
  | some y =>
    match getKey (Yaml.parseSimple y) (chars "published_at") with
    | some (.date v) => some v
    | _ => none

/-- Which branch `getBlogPosts` resolves a post's `publishedAt` from:
`publishedAt = meta.published_at` if present (a Date object is always truthy),
else `lastUpdated`, which is `new Date(m[1])` for the first
`/_Last updated ([^_]+)_/` match **in the converted HTML content**
(`parsed.content`), else `new Date(0)`.  Neither the file's modification time
nor the current time appears in this computation. -/
def codeResolveBlogDate (env : MdEnv) (metaYaml : Option Str) (body : Str) :
    ResolvedDate :=
  match metaPublishedAt metaYaml with
  | some v => .fromMeta v
  | none =>
    match lastUpdatedCapture (Md.parse env body).1 with
    | some d => .fromMarker d
    | none => .epochDefault

/-- The claim's resolution chain, written from the claim's words: the explicit
sidecar metadata date, else a date parsed from an `_Last updated <date>_`
marker in the body, else the file's filesystem modification time, else the
current time. -/
def specResolveBlogDate (metaYaml : Option Str) (body : Str)
    (mtimeAvailable : Bool) : ResolvedDate :=
  match metaPublishedAt metaYaml with
  | some v => .fromMeta v
  | none =>
    match lastUpdatedCapture body with
    | some d => .fromMarker d
    | none => if mtimeAvailable then .fromMtime else .fromNow

/-- The `JSDate` a resolved branch denotes. -/
def ResolvedDate.toJSDate : ResolvedDate → JSDate
  | .fromMeta s => .fromString s
  | .fromMarker s => .fromString s
  | .fromMtime => .fromString (chars "mtime")
  | .fromNow => .fromString (chars "now")
  | .epochDefault => .epoch

/-- `publishedAt` of one blog post (src/build.ts:1536-1543). -/
def resolveBlogPublishedAt (env : MdEnv) (metaYaml : Option Str) (body : Str) :
    JSDate :=
  (codeResolveBlogDate env metaYaml body).toJSDate

/-- Stable descending insertion: the JS `Array.prototype.sort` with comparator
`(a, b) => key(b) - key(a)` is stable and orders by descending key; this
insertion sort produces the same list. -/
def insertDesc (key : α → Int) (a : α) : List α → List α
  | [] => [a]
  | b :: rest => if key b ≤ key a then a :: b :: rest else b :: insertDesc key a rest

def sortDesc (key : α → Int) (l : List α) : List α :=
  l.foldr (insertDesc key) []

structure BlogPostSrc where
  slug : Str
  body : Str
  metaYaml : Option Str

structure BlogPost where
  slug : Str
  title : Str
  content : Str
  publishedAt : JSDate
  lastUpdated : JSDate

/-- The per-post `MdEnv` `getBlogPosts` uses (source directory `content/blog`,
output path `dist/updates/<slug>.html`). -/
def blogEnv (fs : Str → Option Str) (ct ict ht : Nat → Str) (slug : Str) : MdEnv :=
  { sourceDir := chars "content/blog"
    outputPath := chars "dist/updates/" ++ slug ++ chars ".html"
    fs := fs, codeTok := ct, icodeTok := ict, htmlTok := ht }

/-- `parseFile`'s title: the first line's `# ` heading, else the slug. -/
def mdTitle (slug body : Str) : Str :=
  let firstLine := (splitCh '\n' body).headI
  if (chars "# ").isPrefixOf firstLine then firstLine.drop 2 else slug

/-- One mapped element of `getBlogPosts` (src/build.ts:1516-1544). -/
def mkBlogPost (env : MdEnv) (src : BlogPostSrc) : BlogPost :=
  let content := (Md.parse env src.body).1
  let lastUpdated : JSDate :=
    match lastUpdatedCapture content with
    | some d => .fromString d
    | none => .epoch
  { slug := src.slug
    title := mdTitle src.slug src.body
    content := content
    publishedAt :=
      match metaPublishedAt src.metaYaml with
      | some v => .fromString v
      | none => lastUpdated
    lastUpdated := lastUpdated }

/-- `getBlogPosts`: map then sort by descending
`publishedAt?.getTime() || 0` (`getTime` is the symbolic timestamp; the
`|| 0` only rewrites the unrepresentable `NaN` of an invalid date). -/
def getBlogPosts (getTime : JSDate → Int) (fs : Str → Option Str)
    (ct ict ht : Nat → Str) (files : List BlogPostSrc) : List BlogPost :=
  sortDesc (fun p => getTime p.publishedAt)
    (files.map (fun f => mkBlogPost (blogEnv fs ct ict ht f.slug) f))

/-! ## RSS feed: `buildRSSFeed` / `generateRSSXML` / `loadExistingPubDates`
(src/build.ts:298-399) -/

/-- `escapeXML` (src/build.ts:392-399): the five chained global replaces, in
source order. -/
def escapeXML (s : Str) : Str :=
  let s := replaceAllL (chars "&") (chars "&amp;") s
  let s := replaceAllL (chars "<") (chars "&lt;") s
  let s := replaceAllL (chars ">") (chars "&gt;") s
  let s := replaceAllL (chars "\"") (chars "&quot;") s
  let s := replaceAllL (chars "'") (chars "&#39;") s
  s

def rssBaseUrl : Str := chars "https://jackratner.com"

structure RSSItem where
  typ : Str
  title : Str
  slug : Str
  url : Str
  content : Str
  date : JSDate
  pubDate : JSDate
deriving DecidableEq, Repr

/-- A gallery record as `getPhotoGalleries` produces it (src/build.ts:791-799);
`publishedAt` is `meta.publishedAt || getFileDate(galleryPath)`, which is
always a Date object. -/
structure Gallery where
  name : Str
  displayName : Str
  imageCount : Nat
  images : List Str
  previewImage : Str
  publishedAt : JSDate
  description : Option Str

/-- JS `a || b` where `a : Date | undefined`: every `Date` object (valid or
not) is truthy. -/
def jsOrDate (a : Option JSDate) (b : JSDate) : JSDate :=
  match a with
  | some d => d
  | none => b

/-- JS `Map.get` after a sequence of `Map.set` calls in list order: the last
binding wins. -/
def mapGetLast (m : List (Str × JSDate)) (k : Str) : Option JSDate :=
  match m with
  | [] => none
  | (k', v) :: rest =>
    match mapGetLast rest k with
    | some v' => some v'
    | none => if k' = k then some v else none

/-- The blog entry of `allContent` (src/build.ts:307-315).  The object built by
`getBlogPosts` always carries a `publishedAt` Date, so the
`post.publishedAt || existingPubDates.get(url) || new Date()` chain always
takes its first operand. -/
def blogRSSItem (existing : List (Str × JSDate)) (now : JSDate) (p : BlogPost) :
    RSSItem :=
  { typ := chars "blog"
    title := p.title
    slug := p.slug
    url := chars "/blog/" ++ p.slug
    content := p.content.take 500 ++ chars "..."
    date := jsOrDate (some p.publishedAt) (jsOrDate (some p.lastUpdated) now)
    pubDate := jsOrDate (some p.publishedAt)
      (jsOrDate (mapGetLast existing (chars "/blog/" ++ p.slug)) now) }

/-- The gallery entry of `allContent` (src/build.ts:316-324); similarly
`gallery.publishedAt` is always a Date. -/
def galleryRSSItem (existing : List (Str × JSDate)) (now : JSDate) (g : Gallery) :
    RSSItem :=
  { typ := chars "gallery"
    title := chars "Photo Gallery: " ++ g.displayName
    slug := g.name
    url := chars "/photos/" ++ g.name
    content :=
      match g.description with
      | some d => d
      | none => chars "New photo gallery with " ++ chars (toString g.imageCount) ++ chars " images."
    date := jsOrDate (some g.publishedAt) now
    pubDate := jsOrDate (some g.publishedAt)
      (jsOrDate (mapGetLast existing (chars "/photos/" ++ g.name)) now) }

/-- One `<item>` element of `generateRSSXML` (src/build.ts:380-387). -/
def rssItemXml (toUTC : JSDate → Str) (item : RSSItem) : Str :=
  chars "    <item>\n      <title>" ++ escapeXML item.title ++
  chars "</title>\n      <link>" ++ rssBaseUrl ++ item.url ++
  chars "</link>\n      <guid>" ++ rssBaseUrl ++ item.url ++
  chars "</guid>\n      <pubDate>" ++ toUTC item.pubDate ++
  chars "</pubDate>\n      <description>" ++ escapeXML item.content ++
  chars "</description>\n      <category>" ++ item.typ ++
  chars "</category>\n    </item>"

/-- The fixed feed text before `lastBuildDate`'s value. -/
def rssHeaderA : Str :=
  chars "<?xml version=\"1.0\" encoding=\"UTF-8\"?>\n<rss version=\"2.0\" xmlns:atom=\"http://www.w3.org/2005/Atom\">\n  <channel>\n    <title>Jack Ratner</title>\n    <description>Personal blog and photo galleries</description>\n    <link>https://jackratner.com</link>\n    <atom:link href=\"https://jackratner.com/feed.xml\" rel=\"self\" type=\"application/rss+xml\" />\n    <lastBuildDate>"

/-- The fixed feed text between `lastBuildDate` and the items. -/
def rssHeaderB : Str :=
  chars "</lastBuildDate>\n    <language>en-us</language>\n    <generator>Custom Static Site Generator</generator>\n    \n"

/-- The fixed feed text after the items. -/
def rssFooter : Str :=
  chars "\n  </channel>\n</rss>"

/-- `generateRSSXML` (src/build.ts:365-390): `nowStr` is
`new Date().toUTCString()`. -/
def generateRSSXML (toUTC : JSDate → Str) (nowStr : Str) (items : List RSSItem) :
    Str :=
  rssHeaderA ++ nowStr ++ rssHeaderB ++
    joinCh '\n' (items.map (rssItemXml toUTC)) ++ rssFooter

/-- The scraping loop of `loadExistingPubDates` (src/build.ts:340-347):
`/<item>[\s\S]*?<link>([^<]+)<\/link>[\s\S]*?<pubDate>([^<]+)<\/pubDate>[\s\S]*?<\/item>/g`
on a well-formed feed.  Each lazy gap finds the first occurrence of the next
literal; captures stop at the first `<`, which must begin the closing tag
(true of every feed `generateRSSXML` emits; on malformed text where a capture
is not followed by its closing tag the JS engine would search further while
this model stops, a difference no claim touches). -/
def scrapeItemsF : Nat → Str → List (Str × Str)
  | 0, _ => []
  | fuel + 1, s =>
    match splitAtSub (chars "<item>") s with
    | none => []
    | some (_, afterItem) =>
      match splitAtSub (chars "<link>") afterItem with
      | none => []
      | some (_, afterLink) =>
        match takeUntil '<' afterLink with
        | none => []
        | some (link, afterLt) =>
          if link = [] then []
          else if (chars "/link>").isPrefixOf afterLt then
            match splitAtSub (chars "<pubDate>") (afterLt.drop 6) with
            | none => []
            | some (_, afterPD) =>
              match takeUntil '<' afterPD with
              | none => []
              | some (pd, afterLt2) =>
                if pd = [] then []
                else if (chars "/pubDate>").isPrefixOf afterLt2 then
                  match splitAtSub (chars "</item>") (afterLt2.drop 9) with
                  | none => []
                  | some (_, restAll) => (link, pd) :: scrapeItemsF fuel restAll
                else []
          else []

def scrapeItems (s : Str) : List (Str × Str) :=
  scrapeItemsF s.length s

/-- `loadExistingPubDates` (src/build.ts:331-354): `none` models a missing
`dist/feed.xml`. -/
def loadExistingPubDates (prevFeed : Option Str) : List (Str × JSDate) :=
  match prevFeed with
  | none => []
  | some feed =>
    (scrapeItems feed).map (fun p =>
      (replaceFirstL rssBaseUrl [] p.1, JSDate.fromString p.2))

/-- `buildRSSFeed` (src/build.ts:298-329): the string written to
`dist/feed.xml`. -/
def buildRSSFeed (toUTC : JSDate → Str) (getTime : JSDate → Int)
    (now : JSDate) (nowStr : Str) (posts : List BlogPost)
    (galleries : List Gallery) (prevFeed : Option Str) : Str :=
  let existing := loadExistingPubDates prevFeed
  let allContent :=
    posts.map (blogRSSItem existing now) ++
    galleries.map (galleryRSSItem existing now)
  let sorted := sortDesc (fun i => getTime i.date) allContent
  generateRSSXML toUTC nowStr sorted

/-! ## Orphan-file cleanup: `removeOrphanedFilesRecursive` (src/build.ts:1655-1688) -/

inductive FSTree
  | file
  | dir (entries : List (Str × FSTree))

/-- Is this entry a file? -/
def FSTree.isFile : FSTree → Bool
  | .file => true
  | .dir _ => false

/-- `relativeFilePath` building (src/build.ts:1662). -/
def childPath (rel name : Str) : Str :=
  if rel = [] then name else rel ++ [ '/' ] ++ name

/-- The recursive sweep over one directory's entries (the loop body of
`removeOrphanedFilesRecursive`): a subdirectory named `assets` is skipped
entirely; any other subdirectory is swept recursively and then removed if
empty; a file survives exactly when its relative path is expected. -/
def sweepEntries (expected : Str → Bool) (rel : Str) :
    List (Str × FSTree) → List (Str × FSTree)
  | [] => []
  | (name, FSTree.file) :: rest =>
    (if expected (childPath rel name) then [(name, FSTree.file)] else []) ++
      sweepEntries expected rel rest
  | (name, FSTree.dir es) :: rest =>
    if name = chars "assets" then
      (name, FSTree.dir es) :: sweepEntries expected rel rest
    else
      let es' := sweepEntries expected (childPath rel name) es
      (if es'.isEmpty then [] else [(name, FSTree.dir es')]) ++
        sweepEntries expected rel rest

/-- `cleanupOrphanedFiles`' sweep step over the output root
(`removeOrphanedFilesRecursive(this.distDir, expectedFiles, '')`). -/
def cleanupSweep (expected : Str → Bool) (root : List (Str × FSTree)) :
    List (Str × FSTree) :=
  sweepEntries expected [] root

/-- Navigate a tree: is there a file at this segment path? -/
def hasFile (es : List (Str × FSTree)) : List Str → Bool
  | [] => false
  | seg :: segs =>
    es.any (fun e =>
      decide (e.1 = seg) &&
        match e.2, segs with
        | FSTree.file, [] => true
        | FSTree.dir es', _ :: _ => hasFile es' segs
        | _, _ => false)

/-- The relative path string of a segment list, as the sweep builds it. -/
def joinSegs (segs : List Str) : Str :=
  match segs with
  | [] => []
  | s :: rest => rest.foldl (fun acc n => acc ++ [ '/' ] ++ n) s

/-! ## Photo-import CLI: `PhotoProcessor.processPhotos` / `main`
(src/process-photos.ts) -/

def supportedExtensions : List Str :=
  [chars ".jpg", chars ".jpeg", chars ".JPG", chars ".JPEG"]

/-- The JPEG filter (src/process-photos.ts:44-46). -/
def jpegFilesOf (files : List Str) : List Str :=
  files.filter (fun f => supportedExtensions.contains (extnameL f))

inductive PhotoOutcome
  | noFiles
  | processed (count : Nat)
deriving DecidableEq, Repr

/-- `processPhotos` control flow (src/process-photos.ts:27-105): a missing
source directory throws; zero matching JPEG files logs and returns normally;
otherwise every file is processed (per-file errors are caught and logged,
never rethrown). -/
def processPhotos (sourceDirExists : Bool) (sourceFiles : List Str) :
    Except Str PhotoOutcome :=
  if sourceDirExists = false then
    Except.error (chars "Source directory does not exist")
  else
    let jpegFiles := jpegFilesOf sourceFiles
    if jpegFiles.length = 0 then Except.ok PhotoOutcome.noFiles
    else Except.ok (PhotoOutcome.processed jpegFiles.length)

/-- `main`'s exit code for a well-formed argument list
(src/process-photos.ts:169-177): 1 when `processPhotos` throws, 0 otherwise
(a normal return never calls `process.exit`). -/
def photoMainExit (sourceDirExists : Bool) (sourceFiles : List Str) : Nat :=
  match processPhotos sourceDirExists sourceFiles with
  | Except.error _ => 1
  | Except.ok _ => 0

/-! ## Homepage sections: `buildHomepage` (src/build.ts:521-574) -/

/-- One rendered entry of the recent-posts list. -/
def postLi (p : BlogPost) : Str :=
  chars "\n            <li><a href=\"/updates/" ++ p.slug ++ chars "\">" ++
    p.title ++ chars "</a></li>\n          "

/-- The recent-posts section (src/build.ts:525-537): only
`blogPosts.slice(0, 3)` is rendered. -/
def blogSection (blogPosts : List BlogPost) : Str :=
  chars "\n      <section class=\"recent-posts\">\n        <h2>Recent Blog Posts</h2>\n        <ul>\n          " ++
  (blogPosts.take 3).foldl (fun acc p => acc ++ postLi p) [] ++
  chars "\n        </ul>\n        <a href=\"/updates\">View all posts →</a>\n      </section>\n    "

/-- One rendered entry of the galleries list. -/
def galleryLi (g : Gallery) : Str :=
  chars "\n              <li><a href=\"/photos/" ++ g.name ++ chars "\">" ++
    g.displayName ++ chars "</a> (" ++ chars (toString g.imageCount) ++
    chars " images)</li>\n            "

/-- The photos section (src/build.ts:539-553): `galleries.slice(0, 3)`;
an empty gallery list renders a placeholder with no `<li>` at all. -/
def photosSection (galleries : List Gallery) : Str :=
  chars "\n      <section class=\"photos\">\n        <h2>Photo Galleries</h2>\n        " ++
  (if galleries.length > 0 then
    chars "\n          <ul>\n            " ++
    (galleries.take 3).foldl (fun acc g => acc ++ galleryLi g) [] ++
    chars "\n          </ul>\n        "
  else chars "<p>Photo galleries will be available soon.</p>") ++
  chars "\n        <a href=\"/photos\">View all galleries →</a>\n      </section>\n    "

/-- One rendered entry of the projects list. -/
def projectLi (p : BlogPost) : Str :=
  chars "\n              <li><a href=\"/projects/" ++ p.slug ++ chars "\">" ++
    p.title ++ chars "</a></li>\n            "

/-- The projects section (src/build.ts:555-568): **all** projects are
rendered, with no `slice`. -/
def projectsSection (projects : List BlogPost) : Str :=
  chars "\n      <section class=\"projects\">\n        <h2>Projects</h2>\n        " ++
  (if projects.length > 0 then
    chars "\n          <ul>\n            " ++
    projects.foldl (fun acc p => acc ++ projectLi p) [] ++
    chars "\n          </ul>\n        "
  else chars "<p>Projects will be available soon.</p>") ++
  chars "\n      </section>\n    "

/-- The amended reading of the parser (for the corrected claim), written as a
state machine with an explicit optional pending list: a pending list is opened
by a key line with an empty value for a key other than `published_at`; a `- `
line appends to the pending list (which may persist across intervening key
lines while it has no items); a key line processed while the pending list has
at least one item first commits it; a key line with an empty value while an
item-less pending list is open replaces it without committing; `published_at`
values (empty or not) are always parsed as a date; a non-empty value maps the
key to the literal value; lines without a colon, or with the colon first, are
ignored; end of input commits a pending list exactly when it has items. -/
def specYamlAmendedStep (res : List (Str × YVal))
    (pending : Option (Str × List Str)) (line : Str) :
    List (Str × YVal) × Option (Str × List Str) :=
  let trimmed := jsTrim line
  if trimmed = [] ∨ (chars "#").isPrefixOf trimmed then (res, pending)
  else if (chars "- ").isPrefixOf trimmed then
    match pending with
    | some (k, items) => (res, some (k, items ++ [jsTrim (trimmed.drop 2)]))
    | none => (res, pending)
  else
    let committed :=
      match pending with
      | some (k, items) =>
        if items ≠ [] then (setKey res k (.list items), none)
        else (res, pending)
      | none => (res, pending)
    match takeUntil ':' trimmed with
    | none => committed
    | some (key0, rest) =>
      if key0 = [] then committed
      else
        let key := jsTrim key0
        let value := jsTrim rest
        if key = chars "published_at" then
          (setKey committed.1 key (.date value), committed.2)
        else if value = [] then (committed.1, some (key, []))
        else (setKey committed.1 key (.str value), committed.2)

/-- The full amended-spec parse. -/
def specYamlAmendedParse (yamlContent : Str) : List (Str × YVal) :=
  let final := (splitCh '\n' yamlContent).foldl
    (fun st line => specYamlAmendedStep st.1 st.2 line) ([], none)
  match final.2 with
  | some (k, items) => if items ≠ [] then setKey final.1 k (.list items) else final.1
  | none => final.1

/-- Decidable sufficient condition for `crossFree`: no nonempty proper prefix
of `pat` is a suffix of `a`. -/
def noTailOverlap (pat a : Str) : Bool :=
  (List.range pat.length).all (fun j => j = 0 || !(pat.take j).isSuffixOf a)

/-! # THEOREMS -/

/-! ## Toolkit: scanners, splitting, occurrence reasoning -/

theorem splitCh_ne_nil (sep : Char) (s : Str) : splitCh sep s ≠ [] := by
  cases s with
  | nil => simp [splitCh]
  | cons c cs =>
    simp only [splitCh]
    by_cases h : c = sep
    · simp [h]
    · simp only [h, if_false]
      cases splitCh sep cs <;> simp

theorem joinCh_splitCh (sep : Char) (s : Str) : joinCh sep (splitCh sep s) = s := by
  induction s with
  | nil => rfl
  | cons c cs ih =>
    simp only [splitCh]
    by_cases h : c = sep
    · rw [if_pos h]
      have hne := splitCh_ne_nil sep cs
      cases hJ : splitCh sep cs with
      | nil => exact absurd hJ hne
      | cons a as =>
        rw [hJ] at ih
        simp only [joinCh]
        rw [h, ih]
        simp
    · rw [if_neg h]
      have hne := splitCh_ne_nil sep cs
      cases hJ : splitCh sep cs with
      | nil => exact absurd hJ hne
      | cons a as =>
        rw [hJ] at ih
        cases as with
        | nil => simpa [joinCh] using ih
        | cons b bs => simpa [joinCh] using ih

theorem scanRwF_ge (f : Str → Option (Nat × Str)) :
    ∀ (fuel : Nat) (s : Str), s.length ≤ fuel →
      scanRwF f fuel s = scanRwF f s.length s := by
  intro fuel
  induction fuel using Nat.strong_induction_on with
  | _ fuel ih =>
    intro s hs
    match fuel, s with
    | 0, [] => rfl
    | 0, c :: cs => simp at hs
    | fuel + 1, [] => simp only [scanRwF, List.length_nil]
    | fuel + 1, c :: cs =>
      have h1 : cs.length ≤ fuel := by simpa [Nat.succ_le_succ_iff] using hs
      cases hf : f (c :: cs) with
      | none =>
        simp only [List.length_cons, scanRwF, hf]
        rw [ih fuel (Nat.lt_succ_self _) cs h1,
          ← ih cs.length (Nat.lt_succ_of_le h1) cs (le_refl _)]
      | some kr =>
        obtain ⟨k, r⟩ := kr
        have hd : (cs.drop (k - 1)).length ≤ cs.length := by
          simp [List.length_drop]
        simp only [List.length_cons, scanRwF, hf]
        rw [ih fuel (Nat.lt_succ_self _) _ (le_trans hd h1),
          ih cs.length (Nat.lt_succ_of_le h1) _ hd]

theorem scanRw_cons (f : Str → Option (Nat × Str)) (c : Char) (cs : Str) :
    scanRw f (c :: cs) =
      match f (c :: cs) with
      | some (k, r) => r ++ scanRw f (cs.drop (k - 1))
      | none => c :: scanRw f cs := by
  show scanRwF f (c :: cs).length (c :: cs) = _
  cases hf : f (c :: cs) with
  | none => simp only [List.length_cons, scanRwF, hf]; rfl
  | some kr =>
    obtain ⟨k, r⟩ := kr
    have hd : (cs.drop (k - 1)).length ≤ cs.length := by
      simp [List.length_drop]
    simp only [List.length_cons, scanRwF, hf]
    rw [scanRwF_ge f cs.length _ hd]
    rfl

theorem scanRw_eq_self (f : Str → Option (Nat × Str)) (s : Str)
    (h : ∀ t, t <:+ s → t ≠ [] → f t = none) : scanRw f s = s := by
  induction s with
  | nil => rfl
  | cons c cs ih =>
    rw [scanRw_cons, h (c :: cs) List.suffix_rfl (by simp)]
    simp only
    rw [ih (fun t ht hne => h t (ht.trans (List.suffix_cons c cs)) hne)]

theorem occursB_false_pref (pat s : Str) (h : occursB pat s = false) :
    ∀ t, t <:+ s → pat.isPrefixOf t = false := by
  induction s with
  | nil =>
    intro t ht
    have : t = [] := List.eq_nil_of_suffix_nil ht
    subst this
    simp only [occursB, List.isEmpty_iff] at h ⊢
    cases pat with
    | nil => simp at h
    | cons p ps => simp [List.isPrefixOf]
  | cons c cs ih =>
    simp only [occursB, Bool.or_eq_false_iff] at h
    intro t ht
    rcases List.suffix_cons_iff.mp ht with rfl | h2
    · exact h.1
    · exact ih h.2 t h2

theorem takeUntil_not_mem (stop : Char) (s : Str) (h : stop ∉ s) :
    takeUntil stop s = none := by
  induction s with
  | nil => rfl
  | cons c cs ih =>
    simp only [takeUntil]
    rw [if_neg (by rintro rfl; exact h (List.mem_cons_self _ _)),
      ih (fun hm => h (List.mem_cons_of_mem _ hm))]
    rfl

theorem takeUntil_append (stop : Char) (u v : Str) (hu : stop ∉ u) :
    takeUntil stop (u ++ stop :: v) = some (u, v) := by
  induction u with
  | nil => simp [takeUntil]
  | cons c cs ih =>
    simp only [List.cons_append, takeUntil, List.append_eq]
    rw [if_neg (by rintro rfl; exact hu (List.mem_cons_self _ _)),
      ih (fun hm => hu (List.mem_cons_of_mem _ hm))]
    rfl

theorem occursB_eq_true_iff (pat s : Str) :
    occursB pat s = true ↔ ∃ t, t <:+ s ∧ pat <+: t := by
  induction s with
  | nil =>
    simp only [occursB, List.isEmpty_iff]
    constructor
    · rintro rfl
      exact ⟨[], List.suffix_rfl, List.prefix_rfl⟩
    · rintro ⟨t, ht, hp⟩
      have : t = [] := List.eq_nil_of_suffix_nil ht
      subst this
      exact List.prefix_nil.mp hp
  | cons c cs ih =>
    simp only [occursB, Bool.or_eq_true, List.isPrefixOf_iff_prefix, ih]
    constructor
    · rintro (hp | ⟨t, ht, hp⟩)
      · exact ⟨c :: cs, List.suffix_rfl, hp⟩
      · exact ⟨t, ht.trans (List.suffix_cons c cs), hp⟩
    · rintro ⟨t, ht, hp⟩
      rcases List.suffix_cons_iff.mp ht with rfl | h2
      · exact Or.inl hp
      · exact Or.inr ⟨t, h2, hp⟩

theorem occursB_has_infx (pat s : Str) :
    occursB pat s = true ↔ pat <:+: s := by
  rw [occursB_eq_true_iff]
  constructor
  · rintro ⟨t, ht, hp⟩
    exact List.infix_iff_prefix_suffix.mpr ⟨t, hp, ht⟩
  · intro h
    obtain ⟨t, hp, ht⟩ := List.infix_iff_prefix_suffix.mp h
    exact ⟨t, ht, hp⟩

theorem occursB_false_of_char_not_mem (pat s : Str) (c : Char)
    (hc : c ∈ pat) (hs : c ∉ s) : occursB pat s = false := by
  cases h : occursB pat s with
  | false => rfl
  | true =>
    exact absurd (((occursB_has_infx pat s).mp h).subset hc) hs

theorem isPrefixOf_append_of_le (pat s t : Str) (h : pat.length ≤ s.length) :
    pat.isPrefixOf (s ++ t) = pat.isPrefixOf s := by
  cases hp : List.isPrefixOf pat s with
  | true =>
    have := List.isPrefixOf_iff_prefix.mp hp
    exact List.isPrefixOf_iff_prefix.mpr (this.trans (List.prefix_append s t))
  | false =>
    cases hq : List.isPrefixOf pat (s ++ t) with
    | false => rfl
    | true =>
      exfalso
      have hq' := List.isPrefixOf_iff_prefix.mp hq
      rw [List.prefix_iff_eq_take] at hq'
      rw [List.take_append_eq_append_take, Nat.sub_eq_zero_of_le h,
        List.take_zero, List.append_nil] at hq'
      have hps : List.isPrefixOf pat s = true := by
        rw [List.isPrefixOf_iff_prefix, List.prefix_iff_eq_take]
        exact hq'
      rw [hps] at hp
      exact Bool.noConfusion hp

theorem prefix_length_le_of_isPrefixOf (pat s : Str)
    (h : List.isPrefixOf pat s = true) : pat.length ≤ s.length :=
  (List.isPrefixOf_iff_prefix.mp h).length_le

theorem crossFree_iff (pat a b : Str) :
    crossFree pat a b = true ↔
      ∀ j, 0 < j → j < pat.length →
        ¬((pat.take j) <:+ a ∧ (pat.drop j) <+: b) := by
  constructor
  · intro h j hj0 hjlen hc
    have h2 := (List.all_eq_true.mp h) j (List.mem_range.mpr hjlen)
    rw [Bool.or_eq_true, decide_eq_true_eq, Bool.not_eq_true',
      Bool.and_eq_false_iff] at h2
    rcases h2 with h2 | h2 | h2
    · omega
    · exact absurd (List.isSuffixOf_iff_suffix.mpr hc.1) (by simp [h2])
    · exact absurd (List.isPrefixOf_iff_prefix.mpr hc.2) (by simp [h2])
  · intro h
    apply List.all_eq_true.mpr
    intro j hj
    rw [List.mem_range] at hj
    rw [Bool.or_eq_true, decide_eq_true_eq, Bool.not_eq_true',
      Bool.and_eq_false_iff]
    by_cases hj0 : j = 0
    · exact Or.inl hj0
    · by_cases hs : (pat.take j) <:+ a
      · refine Or.inr (Or.inr ?_)
        cases hp : (pat.drop j).isPrefixOf b with
        | false => rfl
        | true =>
          exact absurd ⟨hs, List.isPrefixOf_iff_prefix.mp hp⟩
            (h j (Nat.pos_of_ne_zero hj0) hj)
      · refine Or.inr (Or.inl ?_)
        cases hq : (pat.take j).isSuffixOf a with
        | false => rfl
        | true => exact absurd (List.isSuffixOf_iff_suffix.mp hq) hs

theorem crossFree_tail (pat : Str) (c : Char) (a b : Str)
    (h : crossFree pat (c :: a) b = true) : crossFree pat a b = true := by
  rw [crossFree_iff] at h ⊢
  intro j hj0 hjlen hc
  exact h j hj0 hjlen ⟨hc.1.trans (List.suffix_cons c a), hc.2⟩

theorem prefix_pieces_of_long (pat s t : Str)
    (h : List.isPrefixOf pat (s ++ t) = true) (hlen : s.length < pat.length) :
    (pat.take s.length) <:+ s ∧ (pat.drop s.length) <+: t := by
  have hq := List.isPrefixOf_iff_prefix.mp h
  rw [List.prefix_iff_eq_take, List.take_append_eq_append_take,
    List.take_of_length_le (le_of_lt hlen)] at hq
  constructor
  · rw [hq, List.take_append_eq_append_take]
    rw [List.take_of_length_le (le_refl s.length), Nat.sub_self, List.take_zero,
      List.append_nil]
  · rw [hq, List.drop_append_eq_append_drop, List.drop_of_length_le (le_refl _),
      Nat.sub_self, List.drop_zero, List.nil_append]
    exact List.take_prefix _ _

theorem isPrefixOf_append_eq (pat : Str) (c : Char) (a b : Str)
    (h : crossFree pat (c :: a) b = true) :
    List.isPrefixOf pat ((c :: a) ++ b) = List.isPrefixOf pat (c :: a) := by
  by_cases hlen : pat.length ≤ (c :: a).length
  · exact isPrefixOf_append_of_le pat (c :: a) b hlen
  · push_neg at hlen
    cases hq : List.isPrefixOf pat ((c :: a) ++ b) with
    | false =>
      cases hp : List.isPrefixOf pat (c :: a) with
      | false => rfl
      | true =>
        exact absurd (prefix_length_le_of_isPrefixOf _ _ hp) (by omega)
    | true =>
      exfalso
      have hc := prefix_pieces_of_long pat (c :: a) b hq hlen
      exact (crossFree_iff pat (c :: a) b).mp h (c :: a).length (by simp)
        hlen hc

theorem occursB_append_eq (pat : Str) (hne : pat ≠ []) (a b : Str)
    (h : crossFree pat a b = true) :
    occursB pat (a ++ b) = (occursB pat a || occursB pat b) := by
  induction a with
  | nil =>
    simp only [List.nil_append, occursB]
    cases pat with
    | nil => exact absurd rfl hne
    | cons p ps => simp [List.isEmpty]
  | cons c a' ih =>
    have hx := isPrefixOf_append_eq pat c a' b h
    simp only [List.cons_append] at hx
    simp only [List.cons_append, occursB, List.append_eq]
    rw [hx, ih (crossFree_tail pat c a' b h), Bool.or_assoc]

theorem countOccur_append (pat : Str) (hne : pat ≠ []) (a b : Str)
    (h : crossFree pat a b = true) :
    countOccur pat (a ++ b) = countOccur pat a + countOccur pat b := by
  induction a with
  | nil => simp [countOccur]
  | cons c a' ih =>
    have hx := isPrefixOf_append_eq pat c a' b h
    simp only [List.cons_append] at hx
    simp only [List.cons_append, countOccur, List.append_eq]
    simp only [hx]
    rw [ih (crossFree_tail pat c a' b h)]
    omega

theorem splitAtSub_append_none (term : Str) (a b : Str)
    (hocc : occursB term a = false) (h : crossFree term a b = true) :
    splitAtSub term (a ++ b) =
      (splitAtSub term b).map (fun p => (a ++ p.1, p.2)) := by
  induction a with
  | nil =>
    simp only [List.nil_append]
    cases splitAtSub term b with
    | none => rfl
    | some p => simp
  | cons c a' ih =>
    simp only [occursB, Bool.or_eq_false_iff] at hocc
    have hx := isPrefixOf_append_eq term c a' b h
    simp only [List.cons_append] at hx
    simp only [List.cons_append, splitAtSub, List.append_eq]
    rw [hx, if_neg (by simp [hocc.1]),
      ih hocc.2 (crossFree_tail term c a' b h)]
    cases splitAtSub term b with
    | none => rfl
    | some p => simp

theorem splitAtSub_self_append (term b : Str) (hne : term ≠ []) :
    splitAtSub term (term ++ b) = some ([], b) := by
  cases term with
  | nil => exact absurd rfl hne
  | cons t ts =>
    simp only [List.cons_append, splitAtSub]
    rw [if_pos]
    · simp
    · rw [List.isPrefixOf_iff_prefix]
      exact (List.prefix_append _ _)

theorem splitAtSub_found (term a b : Str) (hne : term ≠ [])
    (hocc : occursB term a = false)
    (h : crossFree term a (term ++ b) = true) :
    splitAtSub term (a ++ term ++ b) = some (a, b) := by
  rw [List.append_assoc, splitAtSub_append_none term a (term ++ b) hocc h,
    splitAtSub_self_append term b hne]
  simp

theorem lineMap_eq_self (f : Str → Str) (s : Str)
    (h : ∀ l ∈ splitCh '\n' s, f l = l) : lineMap f s = s := by
  unfold lineMap
  have hm : ∀ (L : List Str), (∀ l ∈ L, f l = l) → L.map f = L := by
    intro L hL
    induction L with
    | nil => rfl
    | cons l ls ih =>
      simp only [List.map_cons, List.cons.injEq]
      exact ⟨hL l (by simp), ih (fun x hx => hL x (List.mem_cons_of_mem _ hx))⟩
  rw [hm _ h, joinCh_splitCh]

theorem replaceAllL_eq_self (pat repl s : Str) (h : occursB pat s = false) :
    replaceAllL pat repl s = s := by
  apply scanRw_eq_self
  intro t ht _
  unfold litTry
  rw [if_neg]
  rintro ⟨-, hp⟩
  rw [occursB_false_pref pat s h t ht] at hp
  exact Bool.noConfusion hp

theorem suffix_head_mem (c : Char) (t s : Str) (h : (c :: t) <:+ s) : c ∈ s := by
  obtain ⟨u, hu⟩ := h
  rw [← hu]
  simp

theorem scanRw_inert_of_head (f : Str → Option (Nat × Str)) (s : Str)
    (trig : Char → Bool)
    (hf : ∀ c t, trig c = false → f (c :: t) = none)
    (hs : ∀ c ∈ s, trig c = false) : scanRw f s = s := by
  apply scanRw_eq_self
  intro t ht hne
  cases t with
  | nil => exact absurd rfl hne
  | cons c cs => exact hf c cs (hs c (suffix_head_mem c cs s ht))

/-! Stateful scanner lemmas (mirroring `scanRwF_ge` / `scanRw_cons`). -/

theorem scanRwStF_ge (f : PSt → Str → Option (Nat × Str × PSt)) :
    ∀ (fuel : Nat) (st : PSt) (s : Str), s.length ≤ fuel →
      scanRwStF f fuel st s = scanRwStF f s.length st s := by
  intro fuel
  induction fuel using Nat.strong_induction_on with
  | _ fuel ih =>
    intro st s hs
    match fuel, s with
    | 0, [] => rfl
    | 0, c :: cs => simp at hs
    | fuel + 1, [] => simp only [scanRwStF, List.length_nil]
    | fuel + 1, c :: cs =>
      have h1 : cs.length ≤ fuel := by simpa [Nat.succ_le_succ_iff] using hs
      cases hf : f st (c :: cs) with
      | none =>
        simp only [List.length_cons, scanRwStF, hf]
        rw [ih fuel (Nat.lt_succ_self _) st cs h1,
          ← ih cs.length (Nat.lt_succ_of_le h1) st cs (le_refl _)]
      | some kr =>
        obtain ⟨k, r, st'⟩ := kr
        have hd : (cs.drop (k - 1)).length ≤ cs.length := by
          simp [List.length_drop]
        simp only [List.length_cons, scanRwStF, hf]
        rw [ih fuel (Nat.lt_succ_self _) st' _ (le_trans hd h1),
          ih cs.length (Nat.lt_succ_of_le h1) st' _ hd]

theorem scanRwSt_cons (f : PSt → Str → Option (Nat × Str × PSt)) (st : PSt)
    (c : Char) (cs : Str) :
    scanRwSt f st (c :: cs) =
      match f st (c :: cs) with
      | some (k, r, st') =>
        let p := scanRwSt f st' (cs.drop (k - 1))
        (r ++ p.1, p.2)
      | none =>
        let p := scanRwSt f st cs
        (c :: p.1, p.2) := by
  show scanRwStF f (c :: cs).length st (c :: cs) = _
  cases hf : f st (c :: cs) with
  | none => simp only [List.length_cons, scanRwStF, hf]; rfl
  | some kr =>
    obtain ⟨k, r, st'⟩ := kr
    have hd : (cs.drop (k - 1)).length ≤ cs.length := by
      simp [List.length_drop]
    simp only [List.length_cons, scanRwStF, hf]
    rw [scanRwStF_ge f cs.length st' _ hd]
    rfl

theorem scanRwSt_eq_self (f : PSt → Str → Option (Nat × Str × PSt)) (st : PSt)
    (s : Str) (h : ∀ t, t <:+ s → t ≠ [] → f st t = none) :
    scanRwSt f st s = (s, st) := by
  induction s with
  | nil => rfl
  | cons c cs ih =>
    rw [scanRwSt_cons, h (c :: cs) List.suffix_rfl (by simp)]
    simp only
    rw [ih (fun t ht hne => h t (ht.trans (List.suffix_cons c cs)) hne)]

theorem scanRwSt_inert_of_head (f : PSt → Str → Option (Nat × Str × PSt))
    (st : PSt) (s : Str) (trig : Char → Bool)
    (hf : ∀ c t, trig c = false → f st (c :: t) = none)
    (hs : ∀ c ∈ s, trig c = false) : scanRwSt f st s = (s, st) := by
  apply scanRwSt_eq_self
  intro t ht hne
  cases t with
  | nil => exact absurd rfl hne
  | cons c cs => exact hf c cs (hs c (suffix_head_mem c cs s ht))

theorem crossFree_of_disjoint (pat a b : Str)
    (h : ∀ c ∈ pat, c ∉ a) : crossFree pat a b = true := by
  rw [crossFree_iff]
  intro j hj0 hjlen hc
  have hlen : (pat.take j).length = j := by
    rw [List.length_take]
    omega
  have hne : pat.take j ≠ [] := by
    intro h0
    rw [h0] at hlen
    simp at hlen
    omega
  obtain ⟨c, hcmem⟩ := List.exists_mem_of_ne_nil _ hne
  exact h c (List.mem_of_mem_take hcmem) (hc.1.subset hcmem)

theorem scanRw_inert_of_pref (f : Str → Option (Nat × Str)) (pat s : Str)
    (hf : ∀ t, pat.isPrefixOf t = false → f t = none)
    (h : occursB pat s = false) : scanRw f s = s := by
  apply scanRw_eq_self
  intro t ht _
  exact hf t (occursB_false_pref pat s h t ht)

theorem suffix_append_long (t a b : Str) (ht : t <:+ a ++ b)
    (hlen : t.length > b.length) :
    ∃ a₂, a₂ ≠ [] ∧ a₂ <:+ a ∧ t = a₂ ++ b := by
  obtain ⟨u, hu⟩ := ht
  have hlen2 : u.length + t.length = a.length + b.length := by
    have := congrArg List.length hu
    simpa using this
  have hua : u.length ≤ a.length := by omega
  have ht' : t = a.drop u.length ++ b := by
    have h0 : t = (a ++ b).drop u.length := by
      rw [← hu, List.drop_left]
    rw [h0, List.drop_append_eq_append_drop, Nat.sub_eq_zero_of_le hua,
      List.drop_zero]
  refine ⟨a.drop u.length, ?_, List.drop_suffix _ _, ht'⟩
  intro h0
  rw [h0, List.nil_append] at ht'
  rw [ht'] at hlen
  exact lt_irrefl _ hlen

theorem no_start_in (pat a b : Str) (hocc : occursB pat a = false)
    (hcf : crossFree pat a b = true) :
    ∀ t, t <:+ a ++ b → t.length > b.length → pat.isPrefixOf t = false := by
  intro t ht hlen
  obtain ⟨a₂, ha2ne, ha₂s, rfl⟩ := suffix_append_long t a b ht hlen
  cases hp : List.isPrefixOf pat (a₂ ++ b) with
  | false => rfl
  | true =>
    exfalso
    by_cases hple : pat.length ≤ a₂.length
    · rw [isPrefixOf_append_of_le pat a₂ b hple] at hp
      have : occursB pat a = true := by
        rw [occursB_has_infx]
        exact ((List.isPrefixOf_iff_prefix.mp hp).isInfix).trans ha₂s.isInfix
      rw [this] at hocc
      exact Bool.noConfusion hocc
    · push_neg at hple
      have hc := prefix_pieces_of_long pat a₂ b hp hple
      exact (crossFree_iff pat a b).mp hcf a₂.length
        (by cases a₂ with
            | nil => exact absurd rfl ha2ne
            | cons x xs => simp)
        hple ⟨hc.1.trans ha₂s, hc.2⟩

theorem scanRw_skip_pref (f : Str → Option (Nat × Str)) (pre rest : Str)
    (h : ∀ t, t <:+ pre ++ rest → t.length > rest.length → f t = none) :
    scanRw f (pre ++ rest) = pre ++ scanRw f rest := by
  induction pre with
  | nil => simp
  | cons c pre' ih =>
    rw [List.cons_append, scanRw_cons,
      h (c :: (pre' ++ rest)) ⟨[], by simp⟩ (by simp; omega)]
    simp only [List.cons_append]
    rw [ih (fun t ht hl => h t (ht.trans ⟨[c], by simp⟩) hl)]

theorem scanRw_litTry_head (pat repl post : Str) (hne : pat ≠ [])
    (hocc : occursB pat post = false) :
    scanRw (litTry pat repl) (pat ++ post) = repl ++ post := by
  cases pat with
  | nil => exact absurd rfl hne
  | cons p ps =>
    rw [List.cons_append, scanRw_cons]
    have hl : litTry (p :: ps) repl (p :: (ps ++ post)) =
        some ((p :: ps).length, repl) := by
      unfold litTry
      rw [if_pos]
      exact ⟨by simp, List.isPrefixOf_iff_prefix.mpr (by
        rw [← List.cons_append]
        exact List.prefix_append _ _)⟩
    rw [hl]
    simp only [List.length_cons, Nat.add_sub_cancel]
    rw [show (ps ++ post).drop ps.length = post from List.drop_left ps post]
    have := replaceAllL_eq_self (p :: ps) repl post hocc
    unfold replaceAllL at this
    rw [this]

theorem replaceAllL_single (pat repl pre post : Str) (hne : pat ≠ [])
    (hpre : occursB pat pre = false) (hpost : occursB pat post = false)
    (hcf : crossFree pat pre (pat ++ post) = true) :
    replaceAllL pat repl (pre ++ pat ++ post) = pre ++ repl ++ post := by
  unfold replaceAllL
  rw [List.append_assoc,
    scanRw_skip_pref _ pre (pat ++ post) (fun t ht hl => by
      unfold litTry
      rw [if_neg]
      rintro ⟨-, hp⟩
      rw [no_start_in pat pre (pat ++ post) hpre hcf t ht hl] at hp
      exact Bool.noConfusion hp),
    scanRw_litTry_head pat repl post hne hpost, List.append_assoc]

theorem occursB_of_pref (pat s : Str) (h : pat <+: s) : occursB pat s = true := by
  rw [occursB_has_infx]
  exact h.isInfix

theorem replaceFirstL_eq_self (pat repl s : Str) (h : occursB pat s = false) :
    replaceFirstL pat repl s = s := by
  induction s with
  | nil =>
    simp only [occursB, List.isEmpty_eq_false] at h
    simp [replaceFirstL, h]
  | cons c cs ih =>
    simp only [occursB, Bool.or_eq_false_iff] at h
    simp only [replaceFirstL]
    rw [if_neg (by simp [h.1]), ih h.2]

theorem replaceFirstL_found (pat repl pre post : Str) (hne : pat ≠ [])
    (hpre : occursB pat pre = false)
    (hcf : crossFree pat pre (pat ++ post) = true) :
    replaceFirstL pat repl (pre ++ pat ++ post) = pre ++ repl ++ post := by
  rw [List.append_assoc]
  induction pre with
  | nil =>
    cases pat with
    | nil => exact absurd rfl hne
    | cons p ps =>
      simp only [List.nil_append, List.cons_append, replaceFirstL]
      rw [if_pos (List.isPrefixOf_iff_prefix.mpr ⟨post, by simp⟩)]
      simp [List.drop_succ_cons, List.drop_left]
  | cons c pre' ih =>
    simp only [occursB, Bool.or_eq_false_iff] at hpre
    have hocc : occursB pat (c :: pre') = false := by
      simp only [occursB, Bool.or_eq_false_iff]
      exact ⟨hpre.1, hpre.2⟩
    have hnp := no_start_in pat (c :: pre') (pat ++ post) hocc hcf
      ((c :: pre') ++ (pat ++ post)) List.suffix_rfl (by simp; omega)
    simp only [List.cons_append, replaceFirstL]
    rw [if_neg (by
      simp only [List.cons_append] at hnp
      simp [hnp])]
    simp only [List.append_eq]
    rw [ih hpre.2 (crossFree_tail pat c pre' _ hcf)]

theorem suffix_getLast? (s a : Str) (h : s <:+ a) (hne : s ≠ []) :
    s.getLast? = a.getLast? := by
  obtain ⟨u, rfl⟩ := h
  exact (List.getLast?_append_of_ne_nil u hne).symm

theorem crossFree_of_getLast (pat a b : Str) (c₀ : Char)
    (ha : a.getLast? = some c₀) (hc : c₀ ∉ pat.dropLast) :
    crossFree pat a b = true := by
  rw [crossFree_iff]
  intro j hj0 hjlen hcross
  have hlen : (pat.take j).length = j := by
    rw [List.length_take]
    omega
  have hne : pat.take j ≠ [] := by
    intro h0
    rw [h0] at hlen
    simp at hlen
    omega
  have hlast := suffix_getLast? _ a hcross.1 hne
  rw [ha, List.getLast?_eq_getElem?, hlen, List.getElem?_take,
    if_pos (show j - 1 < j by omega)] at hlast
  apply absurd _ hc
  rw [List.dropLast_eq_take]
  exact List.getElem?_mem (by
    rw [List.getElem?_take, if_pos (show j - 1 < pat.length - 1 by omega)]
    exact hlast)

theorem crossFree_of_head_not_mem (pat a b : Str) (p : Char) (ps : Str)
    (hpat : pat = p :: ps) (hp : p ∉ a) : crossFree pat a b = true := by
  rw [crossFree_iff]
  intro j hj0 hjlen hcross
  have hlen : (pat.take j).length = j := by
    rw [List.length_take]
    omega
  have hne : pat.take j ≠ [] := by
    intro h0
    rw [h0] at hlen
    simp at hlen
    omega
  have hhead : pat.take j = p :: (ps.take (j - 1)) := by
    rw [hpat]
    cases j with
    | zero => omega
    | succ j' => simp [List.take_succ_cons]
  apply hp
  apply hcross.1.subset
  rw [hhead]
  exact List.mem_cons_self _ _

/-! ## C4: list grouping -/

theorem getLast!_singleton (B : Str) : [B].getLast! = B := rfl

theorem occursB_concat3 (pat : Str) (p' : Str) (hpat : pat = '<' :: p')
    (hdrop : '>' ∉ pat.dropLast) (a m b : Str) (hm : '<' ∉ m)
    (ha : occursB pat a = false) (hb : occursB pat b = false)
    (halast : a.getLast? = some '>') :
    occursB pat (a ++ m ++ b) = false := by
  rw [List.append_assoc,
    occursB_append_eq pat (by simp [hpat]) a (m ++ b)
      (crossFree_of_getLast pat a (m ++ b) '>' halast hdrop),
    occursB_append_eq pat (by simp [hpat]) m b
      (crossFree_of_head_not_mem pat m b '<' p' hpat hm),
    ha, occursB_false_of_char_not_mem pat m '<' (by simp [hpat]) hm, hb]
  rfl

theorem occursB_wrap_false (pat : Str) (p' : Str) (hpat : pat = '<' :: p')
    (hdrop : '>' ∉ pat.dropLast) (m : Str) (hm : '<' ∉ m)
    (h1 : occursB pat (chars "<li>") = false)
    (h2 : occursB pat (chars "</li>") = false) :
    occursB pat (chars "<li>" ++ m ++ chars "</li>") = false :=
  occursB_concat3 pat p' hpat hdrop _ m _ hm h1 h2 (by decide)

theorem append_ne_nil_right (a b : Str) (hb : b ≠ []) : a ++ b ≠ [] := by
  intro h
  rcases List.append_eq_nil.mp h with ⟨-, h2⟩
  exact hb h2

theorem suffix_append_right (s x y : Str) (h : s <:+ y) : s <:+ x ++ y := by
  obtain ⟨u, rfl⟩ := h
  exact ⟨x ++ u, by rw [List.append_assoc]⟩

theorem getLast?_of_suffix_gt (s : Str) (h : [ '>' ] <:+ s) :
    s.getLast? = some '>' := by
  obtain ⟨u, rfl⟩ := h
  rw [List.getLast?_concat]

theorem listStep_one_li (B l : Str)
    (hl : occursB (chars "<li>") l = true)
    (hB : occursB (chars "<ul>") B = true) :
    listStep [B] l = [replaceFirstL (chars "</ol>") (l ++ chars "</ol>")
      (replaceFirstL (chars "</ul>") (l ++ chars "</ul>") B)] := by
  unfold listStep
  rw [getLast!_singleton]
  simp [hl, hB]

theorem listStep_merge_aux (mids : List Str) :
    ∀ con : Str, (∀ m ∈ mids, '<' ∉ m) →
    occursB (chars "</ul>") (chars "<ul>" ++ con) = false →
    occursB (chars "</ol>") (chars "<ul>" ++ con) = false →
    (chars "<ul>" ++ con).getLast? = some '>' →
    List.foldl listStep [chars "<ul>" ++ con ++ chars "</ul>"]
      (mids.map (fun m => chars "<li>" ++ m ++ chars "</li>")) =
    [chars "<ul>" ++
      (con ++ (mids.map (fun m => chars "<li>" ++ m ++ chars "</li>")).flatten) ++
      chars "</ul>"] := by
  induction mids with
  | nil => intro con _ _ _ _; simp
  | cons m ms ih =>
    intro con hm h1 h2 h3
    have hmm : '<' ∉ m := hm m (List.mem_cons_self _ _)
    have hwrapul : occursB (chars "</ul>") (chars "<li>" ++ m ++ chars "</li>") = false :=
      occursB_wrap_false _ (chars "/ul>") (by decide) (by decide) m hmm
        (by decide) (by decide)
    have hwrapol : occursB (chars "</ol>") (chars "<li>" ++ m ++ chars "</li>") = false :=
      occursB_wrap_false _ (chars "/ol>") (by decide) (by decide) m hmm
        (by decide) (by decide)
    simp only [List.map_cons, List.foldl_cons]
    rw [listStep_one_li _ _
      (occursB_of_pref _ _ ⟨m ++ chars "</li>", by simp⟩)
      (occursB_of_pref _ _ ⟨con ++ chars "</ul>", by simp⟩)]
    have hfound : replaceFirstL (chars "</ul>")
        ((chars "<li>" ++ m ++ chars "</li>") ++ chars "</ul>")
        (chars "<ul>" ++ con ++ chars "</ul>") =
        (chars "<ul>" ++ con) ++ ((chars "<li>" ++ m ++ chars "</li>") ++ chars "</ul>") ++ [] := by
      have := replaceFirstL_found (chars "</ul>")
        ((chars "<li>" ++ m ++ chars "</li>") ++ chars "</ul>")
        (chars "<ul>" ++ con) [] (by decide) h1
        (crossFree_of_getLast _ _ _ '>' h3 (by decide))
      simpa using this
    rw [hfound]
    have hnool : occursB (chars "</ol>")
        ((chars "<ul>" ++ con) ++ ((chars "<li>" ++ m ++ chars "</li>") ++ chars "</ul>") ++ []) = false := by
      simp only [List.append_nil]
      rw [← List.append_assoc]
      have hstep1 : occursB (chars "</ol>")
          ((chars "<ul>" ++ con) ++ (chars "<li>" ++ m ++ chars "</li>")) = false := by
        rw [occursB_append_eq _ (by decide) _ _
          (crossFree_of_getLast _ _ _ '>' h3 (by decide)), h2, hwrapol]
        rfl
      rw [occursB_append_eq _ (by decide) _ _
        (crossFree_of_getLast _ _ _ '>'
          (by
            apply getLast?_of_suffix_gt
            repeat apply suffix_append_right
            decide)
          (by decide)), hstep1]
      decide
    rw [replaceFirstL_eq_self _ _ _ hnool]
    have hcon' := ih (con ++ (chars "<li>" ++ m ++ chars "</li>"))
      (fun x hx => hm x (List.mem_cons_of_mem _ hx))
      (by
        rw [← List.append_assoc,
          occursB_append_eq _ (by decide) _ _
            (crossFree_of_getLast _ _ _ '>' h3 (by decide)), h1, hwrapul]
        rfl)
      (by
        rw [← List.append_assoc,
          occursB_append_eq _ (by decide) _ _
            (crossFree_of_getLast _ _ _ '>' h3 (by decide)), h2, hwrapol]
        rfl)
      (by
        apply getLast?_of_suffix_gt
        repeat apply suffix_append_right
        decide)
    simp only [List.append_nil, List.append_assoc] at hcon' ⊢
    rw [hcon']
    simp

theorem countOccur_eq_zero (pat s : Str) (h : occursB pat s = false) :
    countOccur pat s = 0 := by
  induction s with
  | nil => rfl
  | cons c cs ih =>
    simp only [occursB, Bool.or_eq_false_iff] at h
    simp [countOccur, h.1, ih h.2]

theorem getLast?_of_suffix_ch (c : Char) (s : Str) (h : [c] <:+ s) :
    s.getLast? = some c := by
  obtain ⟨u, rfl⟩ := h
  rw [List.getLast?_concat]

theorem foldl_append_eq_flatten {α : Type} (g : α → Str) (l : List α) :
    ∀ init : Str, List.foldl (fun acc x => acc ++ g x) init l =
      init ++ (l.map g).flatten := by
  induction l with
  | nil => intro init; simp
  | cons x xs ih =>
    intro init
    simp only [List.foldl_cons, List.map_cons, List.flatten_cons, ih,
      List.append_assoc]

theorem splitCh_no_sep (sep : Char) (s : Str) (h : sep ∉ s) :
    splitCh sep s = [s] := by
  induction s with
  | nil => rfl
  | cons c cs ih =>
    simp only [splitCh]
    rw [if_neg (by rintro rfl; exact h (List.mem_cons_self _ _)),
      ih (fun hm => h (List.mem_cons_of_mem _ hm))]

theorem basenameL_no_slash (s : Str) (h : '/' ∉ s) : basenameL s = s := by
  unfold basenameL
  rw [splitCh_no_sep '/' s h]
  rfl

theorem toDigitsCore_mem (f : Nat) :
    ∀ (n : Nat) (ds : List Char), (∀ c ∈ ds, c.isDigit = true) →
      ∀ c ∈ Nat.toDigitsCore 10 f n ds, c.isDigit = true := by
  have hd : ∀ m : Fin 10, (Nat.digitChar m.val).isDigit = true := by decide
  induction f with
  | zero => intro n ds hds c hc; exact hds c hc
  | succ f ih =>
    intro n ds hds c hc
    simp only [Nat.toDigitsCore] at hc
    by_cases hq : n / 10 = 0
    · rw [if_pos hq] at hc
      rcases List.mem_cons.mp hc with rfl | hmem
      · exact hd ⟨n % 10, Nat.mod_lt _ (by norm_num)⟩
      · exact hds c hmem
    · rw [if_neg hq] at hc
      refine ih (n / 10) (Nat.digitChar (n % 10) :: ds) ?_ c hc
      intro x hx
      rcases List.mem_cons.mp hx with rfl | hmem
      · exact hd ⟨n % 10, Nat.mod_lt _ (by norm_num)⟩
      · exact hds x hmem

theorem toString_nat_isDigit (n : Nat) :
    ∀ c ∈ chars (toString n), c.isDigit = true := by
  intro c hc
  have : chars (toString n) = Nat.toDigits 10 n := rfl
  rw [this] at hc
  exact toDigitsCore_mem (n + 1) n [] (by intro x hx; cases hx) c hc

theorem lt_not_mem_toString_nat (n : Nat) : '<' ∉ chars (toString n) := by
  intro h
  have := toString_nat_isDigit n '<' h
  simp [Char.isDigit] at this

theorem mem_insertDesc {α : Type} (key : α → Int) (a x : α) (l : List α) :
    x ∈ insertDesc key a l ↔ x = a ∨ x ∈ l := by
  induction l with
  | nil => simp [insertDesc]
  | cons b rest ih =>
    simp only [insertDesc]
    by_cases h : key b ≤ key a
    · simp [h, List.mem_cons]
    · simp only [h, if_false, List.mem_cons, ih]
      tauto

theorem insertDesc_sorted {α : Type} (key : α → Int) (a : α) (l : List α)
    (h : List.Sorted (fun x y => key y ≤ key x) l) :
    List.Sorted (fun x y => key y ≤ key x) (insertDesc key a l) := by
  induction l with
  | nil => simp [insertDesc]
  | cons b rest ih =>
    simp only [insertDesc]
    rw [List.sorted_cons] at h
    by_cases hc : key b ≤ key a
    · rw [if_pos hc, List.sorted_cons]
      constructor
      · intro x hx
        rcases List.mem_cons.mp hx with rfl | hmem
        · exact hc
        · exact le_trans (h.1 x hmem) hc
      · rw [List.sorted_cons]
        exact h
    · rw [if_neg hc, List.sorted_cons]
      constructor
      · intro x hx
        rcases (mem_insertDesc key a x rest).mp hx with rfl | hmem
        · omega
        · exact h.1 x hmem
      · exact ih h.2

theorem sortDesc_sorted {α : Type} (key : α → Int) (l : List α) :
    List.Sorted (fun x y => key y ≤ key x) (sortDesc key l) := by
  induction l with
  | nil => simp [sortDesc]
  | cons a rest ih => exact insertDesc_sorted key a _ ih

theorem crossFree_of_noTailOverlap (pat a b : Str)
    (h : noTailOverlap pat a = true) : crossFree pat a b = true := by
  rw [crossFree_iff]
  intro j hj0 hjlen hc
  have h2 := (List.all_eq_true.mp h) j (List.mem_range.mpr hjlen)
  rw [Bool.or_eq_true, decide_eq_true_eq, Bool.not_eq_true'] at h2
  rcases h2 with h2 | h2
  · omega
  · exact absurd (List.isSuffixOf_iff_suffix.mpr hc.1) (by simp [h2])

theorem occursB_concat3' (pat a m b : Str) (hne : pat ≠ [])
    (ha : occursB pat a = false) (hm : occursB pat m = false)
    (hb : occursB pat b = false)
    (hcf1 : crossFree pat a (m ++ b) = true)
    (hcf2 : crossFree pat m b = true) :
    occursB pat (a ++ m ++ b) = false := by
  rw [List.append_assoc, occursB_append_eq pat hne a (m ++ b) hcf1,
    occursB_append_eq pat hne m b hcf2, ha, hm, hb]
  rfl

theorem no_start_in_two (pat pre rest : Str) (p1 p2 : Char) (ps : Str)
    (hpat : pat = p1 :: p2 :: ps)
    (hocc : occursB [p1, p2] pre = false)
    (hcf : crossFree [p1, p2] pre rest = true) :
    ∀ t, t <:+ pre ++ rest → t.length > rest.length →
      pat.isPrefixOf t = false := by
  intro t ht hlen
  obtain ⟨a₂, ha2ne, ha₂s, rfl⟩ := suffix_append_long t pre rest ht hlen
  cases hp : List.isPrefixOf pat (a₂ ++ rest) with
  | false => rfl
  | true =>
    exfalso
    have hp2 : List.isPrefixOf [p1, p2] (a₂ ++ rest) = true := by
      rw [List.isPrefixOf_iff_prefix] at hp ⊢
      refine List.IsPrefix.trans ?_ hp
      rw [hpat]
      exact ⟨ps, rfl⟩
    match a₂, ha2ne with
    | [a], _ =>
      -- the two-char head crosses the boundary
      simp only [List.cons_append, List.nil_append] at hp2
      cases rest with
      | nil => simp [List.isPrefixOf] at hp2
      | cons r rs =>
        simp only [List.isPrefixOf, List.isPrefixOf_iff_prefix] at hp2
        rw [Bool.and_eq_true, Bool.and_eq_true] at hp2
        have he1 : a = p1 := by
          exact (by simpa using hp2.1 : p1 = a).symm
        have he2 : r = p2 := by
          have := hp2.2.1
          exact (by simpa using this : p2 = r).symm
        exact (crossFree_iff [p1, p2] pre (r :: rs)).mp hcf 1 (by omega)
          (by simp)
          ⟨by simpa [he1] using ha₂s, by simp [he2]⟩
    | a :: a' :: as, _ =>
      have hle : ([p1, p2] : Str).length ≤ (a :: a' :: as).length := by simp
      rw [isPrefixOf_append_of_le _ _ _ hle] at hp2
      have : occursB [p1, p2] pre = true := by
        rw [occursB_has_infx]
        exact ((List.isPrefixOf_iff_prefix.mp hp2).isInfix).trans ha₂s.isInfix
      rw [this] at hocc
      exact Bool.noConfusion hocc

theorem replaceAllL_append_two (pat repl pre rest : Str) (p1 p2 : Char)
    (ps : Str) (hpat : pat = p1 :: p2 :: ps)
    (hocc : occursB [p1, p2] pre = false)
    (hcf : crossFree [p1, p2] pre rest = true) :
    replaceAllL pat repl (pre ++ rest) = pre ++ replaceAllL pat repl rest := by
  unfold replaceAllL
  rw [scanRw_skip_pref _ pre rest (fun t ht hl => by
    unfold litTry
    rw [if_neg]
    rintro ⟨-, hp⟩
    rw [no_start_in_two pat pre rest p1 p2 ps hpat hocc hcf t ht hl] at hp
    exact Bool.noConfusion hp)]

theorem headingLine_inert (n : Nat) (o c : Str) (line : Str)
    (h : '#' ∉ line) : headingLine (n + 1) o c line = line := by
  unfold headingLine
  rw [if_neg]
  rintro ⟨hp, -⟩
  apply h
  apply (List.isPrefixOf_iff_prefix.mp hp).subset
  simp [List.replicate_succ]

theorem mem_splitCh_sub (sep : Char) (s : Str) (c : Char) :
    ∀ line ∈ splitCh sep s, c ∈ line → c ∈ s := by
  induction s with
  | nil =>
    intro line hline hc
    simp only [splitCh, List.mem_singleton] at hline
    subst hline
    cases hc
  | cons x xs ih =>
    intro line hline hc
    simp only [splitCh] at hline
    by_cases hx : x = sep
    · rw [if_pos hx] at hline
      rcases List.mem_cons.mp hline with rfl | h2
      · cases hc
      · exact List.mem_cons_of_mem _ (ih line h2 hc)
    · rw [if_neg hx] at hline
      cases hsp : splitCh sep xs with
      | nil => exact absurd hsp (splitCh_ne_nil sep xs)
      | cons hd t =>
        rw [hsp] at hline
        rcases List.mem_cons.mp hline with rfl | h2
        · rcases List.mem_cons.mp hc with rfl | h3
          · exact List.mem_cons_self _ _
          · exact List.mem_cons_of_mem _
              (ih hd (by rw [hsp]; exact List.mem_cons_self _ _) h3)
        · exact List.mem_cons_of_mem _
            (ih line (by rw [hsp]; exact List.mem_cons_of_mem _ h2) hc)

theorem imageTry_head_ne (env : MdEnv) (st : PSt) (c : Char) (t : Str)
    (h : c ≠ '!') : imageTry env st (c :: t) = none := by
  unfold imageTry
  split
  · rename_i heq
    rw [List.cons.injEq] at heq
    exact absurd heq.1 h
  · rfl

theorem icodeTry_head_ne (env : MdEnv) (st : PSt) (c : Char) (t : Str)
    (h : c ≠ '`') : icodeTry env st (c :: t) = none := by
  unfold icodeTry
  split
  · rename_i heq
    rw [List.cons.injEq] at heq
    exact absurd heq.1 h
  · rfl

theorem linkTry_head_ne (c : Char) (t : Str) (h : c ≠ '[') :
    linkTry (c :: t) = none := by
  unfold linkTry
  split
  · rename_i heq
    rw [List.cons.injEq] at heq
    exact absurd heq.1 h
  · rfl

theorem fenceTry_no_pref (env : MdEnv) (st : PSt) (t : Str)
    (h : (chars "```").isPrefixOf t = false) : fenceTry env st t = none := by
  unfold fenceTry
  rw [if_neg (by simp [h])]

theorem emphTry_no_pref (delim o c : Str) (t : Str)
    (h : delim.isPrefixOf t = false) : emphTry delim o c t = none := by
  unfold emphTry
  rw [if_neg (by simp [h])]

theorem scanRwSt_inert_of_pref (f : PSt → Str → Option (Nat × Str × PSt))
    (st : PSt) (pat s : Str)
    (hf : ∀ t, pat.isPrefixOf t = false → f st t = none)
    (h : occursB pat s = false) : scanRwSt f st s = (s, st) := by
  apply scanRwSt_eq_self
  intro t ht _
  exact hf t (occursB_false_pref pat s h t ht)

theorem scanRw_emph_inert (delim o c : Str) (d : Char) (hd : d ∈ delim)
    (s : Str) (h : d ∉ s) :
    scanRw (emphTry delim o c) s = s :=
  scanRw_inert_of_pref _ delim s (fun t ht => emphTry_no_pref delim o c t ht)
    (occursB_false_of_char_not_mem delim s d hd h)

/-! ## C1: protection of fenced code -/

theorem jsExpandRepl_no_dollar (m b a : Str) (repl : Str) (h : '$' ∉ repl) :
    jsExpandRepl m b a repl = repl := by
  induction repl with
  | nil => rfl
  | cons c rest ih =>
    have hc : c ≠ '$' := fun he => h (he ▸ List.mem_cons_self c rest)
    rw [jsExpandRepl.eq_def]
    dsimp only
    rw [if_neg hc]
    rw [ih (fun hm => h (List.mem_cons_of_mem _ hm))]

theorem replaceAllJsF_eq (pat repl : Str) (hd : '$' ∉ repl) :
    ∀ (fuel : Nat) (before s : Str),
      replaceAllJsF pat repl fuel before s = scanRwF (litTry pat repl) fuel s := by
  intro fuel
  induction fuel with
  | zero => intro before s; rw [replaceAllJsF, scanRwF]
  | succ fuel ih =>
    intro before s
    cases s with
    | nil => rfl
    | cons c cs =>
      by_cases hp : pat ≠ [] ∧ pat.isPrefixOf (c :: cs) = true
      · have hl : litTry pat repl (c :: cs) = some (pat.length, repl) := by
          unfold litTry
          rw [if_pos ⟨hp.1, hp.2⟩]
        rw [show scanRwF (litTry pat repl) (fuel + 1) (c :: cs) =
            repl ++ scanRwF (litTry pat repl) fuel (cs.drop (pat.length - 1)) from by
          rw [scanRwF, hl]]
        rw [show replaceAllJsF pat repl (fuel + 1) before (c :: cs) =
            jsExpandRepl pat before ((c :: cs).drop pat.length) repl ++
              replaceAllJsF pat repl fuel (before ++ pat) ((c :: cs).drop pat.length)
          from by rw [replaceAllJsF, if_pos hp]]
        rw [jsExpandRepl_no_dollar _ _ _ repl hd]
        have hlen : pat.length = (pat.length - 1) + 1 :=
          (Nat.succ_pred_eq_of_pos (List.length_pos.mpr hp.1)).symm
        rw [show ((c :: cs) : Str).drop pat.length = cs.drop (pat.length - 1) from by
          rw [hlen]
          rfl]
        rw [ih]
      · have hl : litTry pat repl (c :: cs) = none := by
          unfold litTry
          rw [if_neg (by
            rintro ⟨h1, h2⟩
            exact hp ⟨h1, h2⟩)]
        rw [show scanRwF (litTry pat repl) (fuel + 1) (c :: cs) =
            c :: scanRwF (litTry pat repl) fuel cs from by
          rw [scanRwF, hl]]
        rw [show replaceAllJsF pat repl (fuel + 1) before (c :: cs) =
            c :: replaceAllJsF pat repl fuel (before ++ [c]) cs from by
          rw [replaceAllJsF, if_neg hp]]
        rw [ih]

theorem replaceAllJs_eq_replaceAllL (pat repl s : Str) (hd : '$' ∉ repl) :
    replaceAllJs pat repl s = replaceAllL pat repl s := by
  unfold replaceAllJs replaceAllL scanRw
  exact replaceAllJsF_eq pat repl hd s.length [] s

theorem restoreMap_single (a b s : Str) :
    restoreMap [(a, b)] s = replaceAllJs a b s := rfl

theorem restoreMap_nil (s : Str) : restoreMap [] s = s := rfl

theorem fence_protection (content : Str)
    (hc : ∀ c ∈ content, c ≠ '#' ∧ c ≠ '!' ∧ c ≠ '`' ∧ c ≠ '<' ∧ c ≠ '$') :
    Md.parse envBlog (chars "```\n" ++ content ++ chars "\n```") =
      (chars "<pre><code>\n" ++ content ++ chars "\n</code></pre>",
       { PSt.init with
           codeMap := [(envBlog.codeTok 0,
             chars "<pre><code>" ++ (('\n' :: (content ++ [ '\n' ])) ++ chars "</code></pre>"))],
           nCode := 1 }) := by
  set L : Str := chars "```\n" ++ content ++ chars "\n```" with hLdef
  set u : Str := '\n' :: (content ++ [ '\n' ]) with hudef
  set tok : Str := envBlog.codeTok 0 with htokdef
  have hL : L = '`' :: ('`' :: ('`' :: (u ++ chars "```"))) := by
    rw [hLdef, hudef]
    simp [chars, List.append_assoc]
  have hnb : '`' ∉ u := by
    rw [hudef]
    intro hm
    rcases List.mem_cons.mp hm with h0 | hm2
    · exact absurd h0.symm (by decide)
    · rcases List.mem_append.mp hm2 with h1 | h1
      · exact (hc _ h1).2.2.1 rfl
      · simp at h1
  have hlt : '<' ∉ u := by
    rw [hudef]
    intro hm
    rcases List.mem_cons.mp hm with h0 | hm2
    · exact absurd h0.symm (by decide)
    · rcases List.mem_append.mp hm2 with h1 | h1
      · exact (hc _ h1).2.2.2.1 rfl
      · simp at h1
  have hmemL : ∀ c, c ∈ L → c = '`' ∨ c = '\n' ∨ c ∈ content := by
    intro c hm
    rw [hL] at hm
    rcases List.mem_cons.mp hm with rfl | hm
    · exact Or.inl rfl
    rcases List.mem_cons.mp hm with rfl | hm
    · exact Or.inl rfl
    rcases List.mem_cons.mp hm with rfl | hm
    · exact Or.inl rfl
    rcases List.mem_append.mp hm with hm | hm
    · rw [hudef] at hm
      rcases List.mem_cons.mp hm with rfl | hm
      · exact Or.inr (Or.inl rfl)
      rcases List.mem_append.mp hm with hm | hm
      · exact Or.inr (Or.inr hm)
      · simp at hm
        exact Or.inr (Or.inl hm)
    · simp [chars] at hm
      exact Or.inl hm
  have hhash : '#' ∉ L := by
    intro hm
    rcases hmemL '#' hm with h | h | h
    · exact absurd h (by decide)
    · exact absurd h (by decide)
    · exact (hc _ h).1 rfl
  have hbang : '!' ∉ L := by
    intro hm
    rcases hmemL '!' hm with h | h | h
    · exact absurd h (by decide)
    · exact absurd h (by decide)
    · exact (hc _ h).2.1 rfl
  have hhead : ∀ n : Nat, lineMap (headingLine (n + 1)
      (chars "<h" ++ [Char.ofNat (n + 49)] ++ chars ">")
      (chars "</h" ++ [Char.ofNat (n + 49)] ++ chars ">")) L = L := by
    intro n
    apply lineMap_eq_self
    intro l hl
    exact headingLine_inert n _ _ l
      (fun hmem => hhash (mem_splitCh_sub '\n' L '#' l hl hmem))
  have hheading : ∀ (o c : Str) (n : Nat), lineMap (headingLine (n + 1) o c) L = L := by
    intro o c n
    apply lineMap_eq_self
    intro l hl
    exact headingLine_inert n o c l
      (fun hmem => hhash (mem_splitCh_sub '\n' L '#' l hl hmem))
  have himg : scanRwSt (imageTry envBlog) PSt.init L = (L, PSt.init) := by
    apply scanRwSt_inert_of_head _ _ _ (fun ch => decide (ch = '!'))
    · intro c t hct
      exact imageTry_head_ne envBlog PSt.init c t (by simpa using hct)
    · intro c hcm
      simp only [decide_eq_false_iff_not]
      rintro rfl
      exact hbang hcm
  have hfence : scanRwSt (fenceTry envBlog) PSt.init L =
      (tok, { PSt.init with
        codeMap := [(tok, chars "<pre><code>" ++ (u ++ chars "</code></pre>"))],
        nCode := 1 }) := by
    rw [hL, scanRwSt_cons]
    have hmatch : fenceTry envBlog PSt.init ('`' :: ('`' :: ('`' :: (u ++ chars "```")))) =
        some ((('`' :: ('`' :: ('`' :: (u ++ chars "```")))) : Str).length,
          tok,
          { PSt.init with
            codeMap := [(tok, chars "<pre><code>" ++ (u ++ chars "</code></pre>"))],
            nCode := 1 }) := by
      unfold fenceTry
      rw [if_pos (show (chars "```").isPrefixOf
          ('`' :: ('`' :: ('`' :: (u ++ chars "```")))) = true from
        List.isPrefixOf_iff_prefix.mpr ⟨u ++ chars "```", rfl⟩)]
      have hdrop3 : (('`' :: ('`' :: ('`' :: (u ++ chars "```")))) : Str).drop 3 =
          u ++ chars "```" := rfl
      rw [hdrop3]
      have hsplit : splitAtSub (chars "```") (u ++ chars "```") = some (u, []) := by
        have := splitAtSub_found (chars "```") u [] (by decide)
          (occursB_false_of_char_not_mem _ _ '`' (by decide) hnb)
          (crossFree_of_getLast _ _ _ '\n'
            (getLast?_of_suffix_ch '\n' u ⟨'\n' :: content, by rw [hudef]; rfl⟩)
            (by decide))
        simpa using this
      rw [hsplit]
      simp [htokdef]
      exact ⟨rfl, rfl, rfl⟩
    rw [hmatch]
    simp only [List.length_cons]
    have hdropall : ((('`' :: ('`' :: (u ++ chars "```"))) : Str).drop
        ((u ++ chars "```").length + 1 + 1 + 1 - 1)) = [] := by
      apply List.drop_eq_nil_of_le
      simp
    rw [hdropall]
    rfl
  set ST : PSt := { PSt.init with
      codeMap := [(tok, chars "<pre><code>" ++ (u ++ chars "</code></pre>"))],
      nCode := 1 } with hSTdef
  set CONT : Str := chars "<pre><code>" ++ (u ++ chars "</code></pre>") with hCONTdef
  have hh1 : lineMap (headingLine 1 (chars "<h1>") (chars "</h1>")) L = L :=
    hheading _ _ 0
  have hh2 : lineMap (headingLine 2 (chars "<h2>") (chars "</h2>")) L = L :=
    hheading _ _ 1
  have hh3 : lineMap (headingLine 3 (chars "<h3>") (chars "</h3>")) L = L :=
    hheading _ _ 2
  have hh4 : lineMap (headingLine 4 (chars "<h4>") (chars "</h4>")) L = L :=
    hheading _ _ 3
  have hicode : scanRwSt (icodeTry envBlog) ST tok = (tok, ST) := by
    apply scanRwSt_inert_of_head _ _ _ (fun ch => decide (ch = '`'))
    · intro c t hct
      exact icodeTry_head_ne envBlog ST c t (by simpa using hct)
    · rw [htokdef]
      decide
  have h8 : scanRw linkTry tok = tok := by
    apply scanRw_inert_of_head _ _ (fun ch => decide (ch = '['))
    · intro c t hct
      exact linkTry_head_ne c t (by simpa using hct)
    · rw [htokdef]
      decide
  have h9 : scanRw (emphTry (chars "**") (chars "<strong>") (chars "</strong>")) tok = tok := by
    apply scanRw_emph_inert _ _ _ '*' (by decide)
    rw [htokdef]
    decide
  have h10 : scanRw (emphTry (chars "__") (chars "<strong>") (chars "</strong>")) tok = tok := by
    apply scanRw_emph_inert _ _ _ '_' (by decide)
    rw [htokdef]
    decide
  have h11 : scanRw (emphTry (chars "*") (chars "<em>") (chars "</em>")) tok = tok := by
    apply scanRw_emph_inert _ _ _ '*' (by decide)
    rw [htokdef]
    decide
  have h12 : scanRw (emphTry (chars "_") (chars "<em>") (chars "</em>")) tok = tok := by
    apply scanRw_emph_inert _ _ _ '_' (by decide)
    rw [htokdef]
    decide
  have h13 : lineMap bqLine tok = tok := by rw [htokdef]; decide
  have h14 : lineMap dashLine tok = tok := by rw [htokdef]; decide
  have h15 : lineMap olLine tok = tok := by rw [htokdef]; decide
  have h16 : lineMap wrapLine tok = chars "<p>" ++ tok ++ chars "</p>" := by
    rw [htokdef]
    decide
  have h17 : scanRw pOpenHTry (chars "<p>" ++ tok ++ chars "</p>") =
      chars "<p>" ++ tok ++ chars "</p>" := by
    rw [htokdef]; decide
  have h18 : scanRw hClosePTry (chars "<p>" ++ tok ++ chars "</p>") =
      chars "<p>" ++ tok ++ chars "</p>" := by
    rw [htokdef]; decide
  have h19 : ∀ pat repl : Str, pat ∈ [chars "<p><img", chars "></p>",
      chars "<p><pre>", chars "</pre></p>", chars "<p><blockquote-line>",
      chars "</blockquote-line></p>", chars "<p><li>", chars "</li></p>",
      chars "<p></p>"] →
      replaceAllL pat repl (chars "<p>" ++ tok ++ chars "</p>") =
        chars "<p>" ++ tok ++ chars "</p>" := by
    intro pat repl hpat
    apply replaceAllL_eq_self
    rw [htokdef]
    fin_cases hpat <;> decide
  have h27 : joinCh '\n'
      ((((splitCh '\n' (chars "<p>" ++ tok ++ chars "</p>")).foldl bqStep []).foldl
        listStep []).map closeBqLine) = chars "<p>" ++ tok ++ chars "</p>" := by
    rw [htokdef]
    decide
  have hds : '$' ∉ CONT := by
    rw [hCONTdef]
    intro hm
    rcases List.mem_append.mp hm with h1 | h1
    · revert h1; decide
    · rcases List.mem_append.mp h1 with h2 | h2
      · rw [hudef] at h2
        rcases List.mem_cons.mp h2 with h0 | h3
        · exact absurd h0 (by decide)
        · rcases List.mem_append.mp h3 with h4 | h4
          · exact (hc _ h4).2.2.2.2 rfl
          · simp at h4
      · revert h2; decide
  have hres : replaceAllJs tok CONT (chars "<p>" ++ tok ++ chars "</p>") =
      chars "<p>" ++ CONT ++ chars "</p>" := by
    rw [replaceAllJs_eq_replaceAllL tok CONT (chars "<p>" ++ tok ++ chars "</p>") hds]
    apply replaceAllL_single tok CONT (chars "<p>") (chars "</p>")
    · rw [htokdef]; decide
    · rw [htokdef]; decide
    · rw [htokdef]; decide
    · apply crossFree_of_noTailOverlap
      rw [htokdef]
      decide
  have hX : chars "<p>" ++ CONT ++ chars "</p>" =
      chars "<p><pre>" ++ (chars "<code>" ++ (u ++ chars "</code></pre></p>")) := by
    rw [hCONTdef]
    simp [chars, List.append_assoc]
  have h35 : replaceAllL (chars "<p><pre>") (chars "<pre>")
      (chars "<p>" ++ CONT ++ chars "</p>") =
      chars "<pre>" ++ (chars "<code>" ++ (u ++ chars "</code></pre></p>")) := by
    rw [hX]
    exact scanRw_litTry_head (chars "<p><pre>") (chars "<pre>")
      (chars "<code>" ++ (u ++ chars "</code></pre></p>")) (by decide)
      (occursB_concat3' (chars "<p><pre>") (chars "<code>") u
        (chars "</code></pre></p>") (by decide) (by decide)
        (occursB_false_of_char_not_mem _ _ '<' (by decide) hlt) (by decide)
        (crossFree_of_noTailOverlap _ _ _ (by decide))
        (crossFree_of_head_not_mem (chars "<p><pre>") u (chars "</code></pre></p>")
          '<' (chars "p><pre>") (by rfl) hlt))
  have hY : chars "<pre>" ++ (chars "<code>" ++ (u ++ chars "</code></pre></p>")) =
      (chars "<pre><code>" ++ u) ++ chars "</code></pre></p>" := by
    simp [chars, List.append_assoc]
  have hocc2 : occursB [ '<', '/' ] (chars "<pre><code>" ++ u) = false := by
    rw [occursB_append_eq _ (by decide) _ _
      (crossFree_of_getLast _ _ _ '>' (by decide) (by decide))]
    rw [occursB_false_of_char_not_mem _ _ '<' (by decide) hlt]
    decide
  have h36 : replaceAllL (chars "</pre></p>") (chars "</pre>")
      ((chars "<pre><code>" ++ u) ++ chars "</code></pre></p>") =
      (chars "<pre><code>" ++ u) ++ chars "</code></pre>" := by
    rw [replaceAllL_append_two (chars "</pre></p>") (chars "</pre>")
      (chars "<pre><code>" ++ u) (chars "</code></pre></p>")
      '<' '/' (chars "pre></p>") (by rfl) hocc2
      (crossFree_of_getLast _ _ _ '\n'
        (getLast?_of_suffix_ch '\n' _
          (suffix_append_right _ _ _ ⟨'\n' :: content, by rw [hudef]; simp⟩))
        (by decide))]
    congr 1
  have hfinal : (chars "<pre><code>" ++ u) ++ chars "</code></pre>" =
      chars "<pre><code>\n" ++ content ++ chars "\n</code></pre>" := by
    rw [hudef]
    simp [chars, List.append_assoc]
  unfold Md.parse
  simp only [hh1, hh2, hh3, hh4, himg, hfence, hicode, h8, h9, h10, h11, h12,
    h13, h14, h15, h16, h17, h18,
    h19 (chars "<p><img") (chars "<img") (by decide),
    h19 (chars "></p>") (chars ">") (by decide),
    h19 (chars "<p><pre>") (chars "<pre>") (by decide),
    h19 (chars "</pre></p>") (chars "</pre>") (by decide),
    h19 (chars "<p><blockquote-line>") (chars "<blockquote-line>") (by decide),
    h19 (chars "</blockquote-line></p>") (chars "</blockquote-line>") (by decide),
    h19 (chars "<p><li>") (chars "<li>") (by decide),
    h19 (chars "</li></p>") (chars "</li>") (by decide),
    h19 (chars "<p></p>") [] (by decide),
    restoreMap_single, restoreMap_nil,
    (show PSt.init.icodeMap = ([] : List (Str × Str)) from rfl),
    (show PSt.init.htmlMap = ([] : List (Str × Str)) from rfl),
    h27, hres, h35, hY, h36, hfinal]


/-- The same protection statement for the second run's environment. -/
theorem fence_protection2 (content : Str)
    (hc : ∀ c ∈ content, c ≠ '#' ∧ c ≠ '!' ∧ c ≠ '`' ∧ c ≠ '<' ∧ c ≠ '$') :
    Md.parse envBlog2 (chars "```\n" ++ content ++ chars "\n```") =
      (chars "<pre><code>\n" ++ content ++ chars "\n</code></pre>",
       { PSt.init with
           codeMap := [(envBlog2.codeTok 0,
             chars "<pre><code>" ++ (('\n' :: (content ++ [ '\n' ])) ++ chars "</code></pre>"))],
           nCode := 1 }) := by
  set L : Str := chars "```\n" ++ content ++ chars "\n```" with hLdef
  set u : Str := '\n' :: (content ++ [ '\n' ]) with hudef
  set tok : Str := envBlog2.codeTok 0 with htokdef
  have hL : L = '`' :: ('`' :: ('`' :: (u ++ chars "```"))) := by
    rw [hLdef, hudef]
    simp [chars, List.append_assoc]
  have hnb : '`' ∉ u := by
    rw [hudef]
    intro hm
    rcases List.mem_cons.mp hm with h0 | hm2
    · exact absurd h0.symm (by decide)
    · rcases List.mem_append.mp hm2 with h1 | h1
      · exact (hc _ h1).2.2.1 rfl
      · simp at h1
  have hlt : '<' ∉ u := by
    rw [hudef]
    intro hm
    rcases List.mem_cons.mp hm with h0 | hm2
    · exact absurd h0.symm (by decide)
    · rcases List.mem_append.mp hm2 with h1 | h1
      · exact (hc _ h1).2.2.2.1 rfl
      · simp at h1
  have hmemL : ∀ c, c ∈ L → c = '`' ∨ c = '\n' ∨ c ∈ content := by
    intro c hm
    rw [hL] at hm
    rcases List.mem_cons.mp hm with rfl | hm
    · exact Or.inl rfl
    rcases List.mem_cons.mp hm with rfl | hm
    · exact Or.inl rfl
    rcases List.mem_cons.mp hm with rfl | hm
    · exact Or.inl rfl
    rcases List.mem_append.mp hm with hm | hm
    · rw [hudef] at hm
      rcases List.mem_cons.mp hm with rfl | hm
      · exact Or.inr (Or.inl rfl)
      rcases List.mem_append.mp hm with hm | hm
      · exact Or.inr (Or.inr hm)
      · simp at hm
        exact Or.inr (Or.inl hm)
    · simp [chars] at hm
      exact Or.inl hm
  have hhash : '#' ∉ L := by
    intro hm
    rcases hmemL '#' hm with h | h | h
    · exact absurd h (by decide)
    · exact absurd h (by decide)
    · exact (hc _ h).1 rfl
  have hbang : '!' ∉ L := by
    intro hm
    rcases hmemL '!' hm with h | h | h
    · exact absurd h (by decide)
    · exact absurd h (by decide)
    · exact (hc _ h).2.1 rfl
  have hhead : ∀ n : Nat, lineMap (headingLine (n + 1)
      (chars "<h" ++ [Char.ofNat (n + 49)] ++ chars ">")
      (chars "</h" ++ [Char.ofNat (n + 49)] ++ chars ">")) L = L := by
    intro n
    apply lineMap_eq_self
    intro l hl
    exact headingLine_inert n _ _ l
      (fun hmem => hhash (mem_splitCh_sub '\n' L '#' l hl hmem))
  have hheading : ∀ (o c : Str) (n : Nat), lineMap (headingLine (n + 1) o c) L = L := by
    intro o c n
    apply lineMap_eq_self
    intro l hl
    exact headingLine_inert n o c l
      (fun hmem => hhash (mem_splitCh_sub '\n' L '#' l hl hmem))
  have himg : scanRwSt (imageTry envBlog2) PSt.init L = (L, PSt.init) := by
    apply scanRwSt_inert_of_head _ _ _ (fun ch => decide (ch = '!'))
    · intro c t hct
      exact imageTry_head_ne envBlog2 PSt.init c t (by simpa using hct)
    · intro c hcm
      simp only [decide_eq_false_iff_not]
      rintro rfl
      exact hbang hcm
  have hfence : scanRwSt (fenceTry envBlog2) PSt.init L =
      (tok, { PSt.init with
        codeMap := [(tok, chars "<pre><code>" ++ (u ++ chars "</code></pre>"))],
        nCode := 1 }) := by
    rw [hL, scanRwSt_cons]
    have hmatch : fenceTry envBlog2 PSt.init ('`' :: ('`' :: ('`' :: (u ++ chars "```")))) =
        some ((('`' :: ('`' :: ('`' :: (u ++ chars "```")))) : Str).length,
          tok,
          { PSt.init with
            codeMap := [(tok, chars "<pre><code>" ++ (u ++ chars "</code></pre>"))],
            nCode := 1 }) := by
      unfold fenceTry
      rw [if_pos (show (chars "```").isPrefixOf
          ('`' :: ('`' :: ('`' :: (u ++ chars "```")))) = true from
        List.isPrefixOf_iff_prefix.mpr ⟨u ++ chars "```", rfl⟩)]
      have hdrop3 : (('`' :: ('`' :: ('`' :: (u ++ chars "```")))) : Str).drop 3 =
          u ++ chars "```" := rfl
      rw [hdrop3]
      have hsplit : splitAtSub (chars "```") (u ++ chars "```") = some (u, []) := by
        have := splitAtSub_found (chars "```") u [] (by decide)
          (occursB_false_of_char_not_mem _ _ '`' (by decide) hnb)
          (crossFree_of_getLast _ _ _ '\n'
            (getLast?_of_suffix_ch '\n' u ⟨'\n' :: content, by rw [hudef]; rfl⟩)
            (by decide))
        simpa using this
      rw [hsplit]
      simp [htokdef]
      exact ⟨rfl, rfl, rfl⟩
    rw [hmatch]
    simp only [List.length_cons]
    have hdropall : ((('`' :: ('`' :: (u ++ chars "```"))) : Str).drop
        ((u ++ chars "```").length + 1 + 1 + 1 - 1)) = [] := by
      apply List.drop_eq_nil_of_le
      simp
    rw [hdropall]
    rfl
  set ST : PSt := { PSt.init with
      codeMap := [(tok, chars "<pre><code>" ++ (u ++ chars "</code></pre>"))],
      nCode := 1 } with hSTdef
  set CONT : Str := chars "<pre><code>" ++ (u ++ chars "</code></pre>") with hCONTdef
  have hh1 : lineMap (headingLine 1 (chars "<h1>") (chars "</h1>")) L = L :=
    hheading _ _ 0
  have hh2 : lineMap (headingLine 2 (chars "<h2>") (chars "</h2>")) L = L :=
    hheading _ _ 1
  have hh3 : lineMap (headingLine 3 (chars "<h3>") (chars "</h3>")) L = L :=
    hheading _ _ 2
  have hh4 : lineMap (headingLine 4 (chars "<h4>") (chars "</h4>")) L = L :=
    hheading _ _ 3
  have hicode : scanRwSt (icodeTry envBlog2) ST tok = (tok, ST) := by
    apply scanRwSt_inert_of_head _ _ _ (fun ch => decide (ch = '`'))
    · intro c t hct
      exact icodeTry_head_ne envBlog2 ST c t (by simpa using hct)
    · rw [htokdef]
      decide
  have h8 : scanRw linkTry tok = tok := by
    apply scanRw_inert_of_head _ _ (fun ch => decide (ch = '['))
    · intro c t hct
      exact linkTry_head_ne c t (by simpa using hct)
    · rw [htokdef]
      decide
  have h9 : scanRw (emphTry (chars "**") (chars "<strong>") (chars "</strong>")) tok = tok := by
    apply scanRw_emph_inert _ _ _ '*' (by decide)
    rw [htokdef]
    decide
  have h10 : scanRw (emphTry (chars "__") (chars "<strong>") (chars "</strong>")) tok = tok := by
    apply scanRw_emph_inert _ _ _ '_' (by decide)
    rw [htokdef]
    decide
  have h11 : scanRw (emphTry (chars "*") (chars "<em>") (chars "</em>")) tok = tok := by
    apply scanRw_emph_inert _ _ _ '*' (by decide)
    rw [htokdef]
    decide
  have h12 : scanRw (emphTry (chars "_") (chars "<em>") (chars "</em>")) tok = tok := by
    apply scanRw_emph_inert _ _ _ '_' (by decide)
    rw [htokdef]
    decide
  have h13 : lineMap bqLine tok = tok := by rw [htokdef]; decide
  have h14 : lineMap dashLine tok = tok := by rw [htokdef]; decide
  have h15 : lineMap olLine tok = tok := by rw [htokdef]; decide
  have h16 : lineMap wrapLine tok = chars "<p>" ++ tok ++ chars "</p>" := by
    rw [htokdef]
    decide
  have h17 : scanRw pOpenHTry (chars "<p>" ++ tok ++ chars "</p>") =
      chars "<p>" ++ tok ++ chars "</p>" := by
    rw [htokdef]; decide
  have h18 : scanRw hClosePTry (chars "<p>" ++ tok ++ chars "</p>") =
      chars "<p>" ++ tok ++ chars "</p>" := by
    rw [htokdef]; decide
  have h19 : ∀ pat repl : Str, pat ∈ [chars "<p><img", chars "></p>",
      chars "<p><pre>", chars "</pre></p>", chars "<p><blockquote-line>",
      chars "</blockquote-line></p>", chars "<p><li>", chars "</li></p>",
      chars "<p></p>"] →
      replaceAllL pat repl (chars "<p>" ++ tok ++ chars "</p>") =
        chars "<p>" ++ tok ++ chars "</p>" := by
    intro pat repl hpat
    apply replaceAllL_eq_self
    rw [htokdef]
    fin_cases hpat <;> decide
  have h27 : joinCh '\n'
      ((((splitCh '\n' (chars "<p>" ++ tok ++ chars "</p>")).foldl bqStep []).foldl
        listStep []).map closeBqLine) = chars "<p>" ++ tok ++ chars "</p>" := by
    rw [htokdef]
    decide
  have hds : '$' ∉ CONT := by
    rw [hCONTdef]
    intro hm
    rcases List.mem_append.mp hm with h1 | h1
    · revert h1; decide
    · rcases List.mem_append.mp h1 with h2 | h2
      · rw [hudef] at h2
        rcases List.mem_cons.mp h2 with h0 | h3
        · exact absurd h0 (by decide)
        · rcases List.mem_append.mp h3 with h4 | h4
          · exact (hc _ h4).2.2.2.2 rfl
          · simp at h4
      · revert h2; decide
  have hres : replaceAllJs tok CONT (chars "<p>" ++ tok ++ chars "</p>") =
      chars "<p>" ++ CONT ++ chars "</p>" := by
    rw [replaceAllJs_eq_replaceAllL tok CONT (chars "<p>" ++ tok ++ chars "</p>") hds]
    apply replaceAllL_single tok CONT (chars "<p>") (chars "</p>")
    · rw [htokdef]; decide
    · rw [htokdef]; decide
    · rw [htokdef]; decide
    · apply crossFree_of_noTailOverlap
      rw [htokdef]
      decide
  have hX : chars "<p>" ++ CONT ++ chars "</p>" =
      chars "<p><pre>" ++ (chars "<code>" ++ (u ++ chars "</code></pre></p>")) := by
    rw [hCONTdef]
    simp [chars, List.append_assoc]
  have h35 : replaceAllL (chars "<p><pre>") (chars "<pre>")
      (chars "<p>" ++ CONT ++ chars "</p>") =
      chars "<pre>" ++ (chars "<code>" ++ (u ++ chars "</code></pre></p>")) := by
    rw [hX]
    exact scanRw_litTry_head (chars "<p><pre>") (chars "<pre>")
      (chars "<code>" ++ (u ++ chars "</code></pre></p>")) (by decide)
      (occursB_concat3' (chars "<p><pre>") (chars "<code>") u
        (chars "</code></pre></p>") (by decide) (by decide)
        (occursB_false_of_char_not_mem _ _ '<' (by decide) hlt) (by decide)
        (crossFree_of_noTailOverlap _ _ _ (by decide))
        (crossFree_of_head_not_mem (chars "<p><pre>") u (chars "</code></pre></p>")
          '<' (chars "p><pre>") (by rfl) hlt))
  have hY : chars "<pre>" ++ (chars "<code>" ++ (u ++ chars "</code></pre></p>")) =
      (chars "<pre><code>" ++ u) ++ chars "</code></pre></p>" := by
    simp [chars, List.append_assoc]
  have hocc2 : occursB [ '<', '/' ] (chars "<pre><code>" ++ u) = false := by
    rw [occursB_append_eq _ (by decide) _ _
      (crossFree_of_getLast _ _ _ '>' (by decide) (by decide))]
    rw [occursB_false_of_char_not_mem _ _ '<' (by decide) hlt]
    decide
  have h36 : replaceAllL (chars "</pre></p>") (chars "</pre>")
      ((chars "<pre><code>" ++ u) ++ chars "</code></pre></p>") =
      (chars "<pre><code>" ++ u) ++ chars "</code></pre>" := by
    rw [replaceAllL_append_two (chars "</pre></p>") (chars "</pre>")
      (chars "<pre><code>" ++ u) (chars "</code></pre></p>")
      '<' '/' (chars "pre></p>") (by rfl) hocc2
      (crossFree_of_getLast _ _ _ '\n'
        (getLast?_of_suffix_ch '\n' _
          (suffix_append_right _ _ _ ⟨'\n' :: content, by rw [hudef]; simp⟩))
        (by decide))]
    congr 1
  have hfinal : (chars "<pre><code>" ++ u) ++ chars "</code></pre>" =
      chars "<pre><code>\n" ++ content ++ chars "\n</code></pre>" := by
    rw [hudef]
    simp [chars, List.append_assoc]
  unfold Md.parse
  simp only [hh1, hh2, hh3, hh4, himg, hfence, hicode, h8, h9, h10, h11, h12,
    h13, h14, h15, h16, h17, h18,
    h19 (chars "<p><img") (chars "<img") (by decide),
    h19 (chars "></p>") (chars ">") (by decide),
    h19 (chars "<p><pre>") (chars "<pre>") (by decide),
    h19 (chars "</pre></p>") (chars "</pre>") (by decide),
    h19 (chars "<p><blockquote-line>") (chars "<blockquote-line>") (by decide),
    h19 (chars "</blockquote-line></p>") (chars "</blockquote-line>") (by decide),
    h19 (chars "<p><li>") (chars "<li>") (by decide),
    h19 (chars "</li></p>") (chars "</li>") (by decide),
    h19 (chars "<p></p>") [] (by decide),
    restoreMap_single, restoreMap_nil,
    (show PSt.init.icodeMap = ([] : List (Str × Str)) from rfl),
    (show PSt.init.htmlMap = ([] : List (Str × Str)) from rfl),
    h27, hres, h35, hY, h36, hfinal]


theorem listStep_nil_li (line : Str) (h : occursB (chars "<li>") line = true) :
    listStep [] line = [chars "<ul>" ++ line ++ chars "</ul>"] := by
  unfold listStep
  simp [h]

/-- C4 (confirmed).  Converting `- a\n- b\n- c` produces exactly one `<ul>`
containing exactly three `<li>` items in order, and never three separate list
containers; in general, consecutive `<li>` lines produced by the list rules are
merged by the `reduce` pass into a single `<ul>` container. -/
theorem c4_list_grouping :
    ((Md.parse envBlog (chars "- a\n- b\n- c")).1 =
        chars "<ul><li>a</li><li>b</li><li>c</li></ul>" ∧
      countOccur (chars "<ul>") (Md.parse envBlog (chars "- a\n- b\n- c")).1 = 1 ∧
      countOccur (chars "<ol>") (Md.parse envBlog (chars "- a\n- b\n- c")).1 = 0 ∧
      countOccur (chars "<li>") (Md.parse envBlog (chars "- a\n- b\n- c")).1 = 3) ∧
    (∀ (m : Str) (mids : List Str), '<' ∉ m → (∀ x ∈ mids, '<' ∉ x) →
      List.foldl listStep []
        ((m :: mids).map (fun x => chars "<li>" ++ x ++ chars "</li>")) =
      [chars "<ul>" ++
        ((m :: mids).map (fun x => chars "<li>" ++ x ++ chars "</li>")).flatten ++
        chars "</ul>"]) := by
  constructor
  · refine ⟨by decide, by decide, by decide, by decide⟩
  · intro m mids hm hmids
    have hcon := listStep_merge_aux mids (chars "<li>" ++ m ++ chars "</li>") hmids
      (by
        rw [occursB_append_eq _ (by decide) _ _
          (crossFree_of_getLast _ _ _ '>' (by decide) (by decide))]
        rw [occursB_wrap_false _ (chars "/ul>") (by decide) (by decide) m hm
          (by decide) (by decide)]
        decide)
      (by
        rw [occursB_append_eq _ (by decide) _ _
          (crossFree_of_getLast _ _ _ '>' (by decide) (by decide))]
        rw [occursB_wrap_false _ (chars "/ol>") (by decide) (by decide) m hm
          (by decide) (by decide)]
        decide)
      (by
        apply getLast?_of_suffix_ch '>'
        repeat apply suffix_append_right
        decide)
    simp only [List.map_cons, List.foldl_cons]
    rw [listStep_nil_li _ (occursB_of_pref _ _ ⟨m ++ chars "</li>", by simp⟩)]
    rw [hcon]
    simp [List.append_assoc]

theorem c4_list_grouping_witness :
    List.foldl listStep []
        (([ 'a' ] :: [[ 'b' ], [ 'c' ]]).map
          (fun x => chars "<li>" ++ x ++ chars "</li>")) =
      [chars "<ul>" ++
        (([ 'a' ] :: [[ 'b' ], [ 'c' ]]).map
          (fun x => chars "<li>" ++ x ++ chars "</li>")).flatten ++
        chars "</ul>"] :=
  c4_list_grouping.2 [ 'a' ] [[ 'b' ], [ 'c' ]] (by decide) (by decide)

/-- C1 counterexample: extraction of fenced code does *not* happen before
every structural transformation — the heading rules run first, so a fenced
block containing the line `# t` renders with `<h1>t</h1>` inside
`<pre><code>`, not with its contents unmodified; moreover the restore step is
a JavaScript string replacement, which interprets `$`-sequences in the stored
contents, so a fenced block containing `$$` renders as a single `$`. -/
theorem c1_heading_inside_fence_cex :
    (Md.parse envBlog (chars "```\n# t\n```")).1 =
      chars "<pre><code>\n<h1>t</h1>\n</code></pre>" ∧
    occursB (chars "# t") (Md.parse envBlog (chars "```\n# t\n```")).1 = false ∧
    (Md.parse envBlog (chars "```\n$$\n```")).1 =
      chars "<pre><code>\n$\n</code></pre>" := by
  refine ⟨by decide, by decide, by decide⟩

/-- C1 (amended).  Fenced code blocks are extracted after the heading and
image transformations but before all remaining structural transformations and
are restored as the very last step by a JavaScript string replacement: a
fenced block whose contents contain no heading marker `#`, no image marker
`!`, no backtick, no `<` and no `$` appears in the output unmodified inside a
`<pre><code>` element; in particular `**not bold**` renders literally, not as
`<strong>`. -/
theorem c1_code_protection_amended :
    (∀ content : Str,
      (∀ c ∈ content, c ≠ '#' ∧ c ≠ '!' ∧ c ≠ '`' ∧ c ≠ '<' ∧ c ≠ '$') →
      (Md.parse envBlog (chars "```\n" ++ content ++ chars "\n```")).1 =
        chars "<pre><code>\n" ++ content ++ chars "\n</code></pre>") ∧
    (Md.parse envBlog (chars "```\n**not bold**\n```")).1 =
      chars "<pre><code>\n**not bold**\n</code></pre>" ∧
    occursB (chars "<strong>")
      (Md.parse envBlog (chars "```\n**not bold**\n```")).1 = false := by
  refine ⟨fun content hc => by rw [fence_protection content hc], by decide, by decide⟩

theorem c1_code_protection_amended_witness :
    (Md.parse envBlog (chars "```\nhello world\n```")).1 =
      chars "<pre><code>\nhello world\n</code></pre>" :=
  c1_code_protection_amended.1 (chars "hello world") (by decide)

/-- C2 counterexample: the placeholder tokens are observable and two runs
need not agree byte-for-byte — the restore step is a JavaScript string
replacement, so a fenced block containing the replacement pattern `$&`
re-inserts the run-specific placeholder token into the final HTML, and two
runs drawing different token families produce different bytes for the same
source file. -/
theorem c2_token_leak_cex :
    (Md.parse envBlog (chars "```\n$&\n```")).1 =
      chars "<pre><code>\n" ++ envBlog.codeTok 0 ++ chars "\n</code></pre>" ∧
    occursB (envBlog.codeTok 0) (Md.parse envBlog (chars "```\n$&\n```")).1 = true ∧
    (Md.parse envBlog (chars "```\n$&\n```")).1 ≠
      (Md.parse envBlog2 (chars "```\n$&\n```")).1 := by
  refine ⟨by decide, by decide, by decide⟩

/-- C2 (amended).  For a fenced code block whose contents avoid the heading
marker `#`, the image marker `!`, the backtick, `<`, the replacement-pattern
character `$` and the placeholder-alphabet character `ƒ` (the model's
stand-in for the freshness of the randomised tokens), the output contains no
placeholder token, and two runs drawing different token families produce
byte-identical output. -/
theorem c2_idempotence_amended (content : Str)
    (hc : ∀ c ∈ content,
      c ≠ '#' ∧ c ≠ '!' ∧ c ≠ '`' ∧ c ≠ '<' ∧ c ≠ '$' ∧ c ≠ 'ƒ') :
    (Md.parse envBlog (chars "```\n" ++ content ++ chars "\n```")).1 =
      (Md.parse envBlog2 (chars "```\n" ++ content ++ chars "\n```")).1 ∧
    occursB (envBlog.codeTok 0)
      (Md.parse envBlog (chars "```\n" ++ content ++ chars "\n```")).1 = false ∧
    occursB (envBlog2.codeTok 0)
      (Md.parse envBlog2 (chars "```\n" ++ content ++ chars "\n```")).1 = false := by
  have hc5 : ∀ c ∈ content, c ≠ '#' ∧ c ≠ '!' ∧ c ≠ '`' ∧ c ≠ '<' ∧ c ≠ '$' :=
    fun c h =>
      ⟨(hc c h).1, (hc c h).2.1, (hc c h).2.2.1, (hc c h).2.2.2.1,
        (hc c h).2.2.2.2.1⟩
  have h1 := fence_protection content hc5
  have h2 := fence_protection2 content hc5
  have hout1 : (Md.parse envBlog (chars "```\n" ++ content ++ chars "\n```")).1 =
      chars "<pre><code>\n" ++ content ++ chars "\n</code></pre>" := by rw [h1]
  have hout2 : (Md.parse envBlog2 (chars "```\n" ++ content ++ chars "\n```")).1 =
      chars "<pre><code>\n" ++ content ++ chars "\n</code></pre>" := by rw [h2]
  have hfnot : 'ƒ' ∉ chars "<pre><code>\n" ++ content ++ chars "\n</code></pre>" := by
    intro hm
    rcases List.mem_append.mp hm with hmm | h3
    · rcases List.mem_append.mp hmm with h4 | h4
      · revert h4; decide
      · exact (hc _ h4).2.2.2.2.2 rfl
    · revert h3; decide
  refine ⟨by rw [hout1, hout2], ?_, ?_⟩
  · rw [hout1]
    exact occursB_false_of_char_not_mem _ _ 'ƒ' (by decide) hfnot
  · rw [hout2]
    exact occursB_false_of_char_not_mem _ _ 'ƒ' (by decide) hfnot

theorem c2_idempotence_amended_witness :
    (Md.parse envBlog (chars "```\n" ++ chars "hello" ++ chars "\n```")).1 =
      (Md.parse envBlog2 (chars "```\n" ++ chars "hello" ++ chars "\n```")).1 ∧
    occursB (envBlog.codeTok 0)
      (Md.parse envBlog (chars "```\n" ++ chars "hello" ++ chars "\n```")).1 =
        false :=
  ⟨(c2_idempotence_amended (chars "hello") (by decide)).1,
   (c2_idempotence_amended (chars "hello") (by decide)).2.1⟩

/-- C9 counterexample: a source directory that exists but contains zero
matching JPEG files makes `processPhotos` return normally, so `main` never
calls `process.exit(1)` and the CLI exits zero, not non-zero. -/
theorem c9_zero_matches_cex :
    jpegFilesOf [chars "notes.txt"] = [] ∧
    photoMainExit true [chars "notes.txt"] = 0 := by
  decide

/-- C9 (amended).  The photo-import CLI exits non-zero exactly when the
source directory does not exist; when the directory exists but contains zero
matching JPEG files it logs and exits zero. -/
theorem c9_exit_codes_amended :
    (∀ files : List Str, photoMainExit false files = 1) ∧
    (∀ files : List Str, jpegFilesOf files = [] →
      processPhotos true files = Except.ok PhotoOutcome.noFiles ∧
      photoMainExit true files = 0) ∧
    (∀ files : List Str, photoMainExit true files = 0) := by
  refine ⟨fun files => rfl, fun files h => ?_, fun files => ?_⟩
  · constructor
    · simp [processPhotos, h]
    · simp [photoMainExit, processPhotos, h]
  · unfold photoMainExit processPhotos
    simp only [if_neg (by decide : ¬ (true = false))]
    by_cases h : (jpegFilesOf files).length = 0
    · rw [if_pos h]
    · rw [if_neg h]

theorem c9_exit_codes_amended_witness :
    processPhotos true [chars "a.txt"] = Except.ok PhotoOutcome.noFiles ∧
    photoMainExit true [chars "a.txt"] = 0 :=
  c9_exit_codes_amended.2.1 [chars "a.txt"] (by decide)

/-- C3 (confirmed).  In a document with output path `dist/updates/post.html`
(one `../` per directory level: 3 path segments − 1 for the filename − 1 for
the output root = 1), a relative image `![alt](./name.ext)` with a non-`.html`
extension emits `<img src="../assets/name.ext">` and queues a copy from the
document's source directory `content/blog` to `dist/assets/name.ext`; an
absolute-URL image source is passed through unchanged with no copy queued. -/
theorem c3_image_paths :
    (∀ (st : PSt) (alt rel rest : Str),
      ']' ∉ alt → ')' ∉ rel → '/' ∉ rel →
      (∀ c ∈ rel, ¬ (c = '"' ∨ c = '\'')) →
      (extnameL rel).map Char.toLower ≠ chars ".html" →
      ∃ k, imageTry envBlog st
          ('!' :: '[' :: (alt ++ ']' :: '(' :: ((chars "./" ++ rel) ++ ')' :: rest))) =
        some (k,
          chars "<img src=\"../assets/" ++ rel ++ chars "\" alt=\"" ++ alt ++ chars "\">",
          { st with imgs := st.imgs ++
            [⟨chars "content/blog/" ++ rel, chars "dist/assets/" ++ rel,
              chars "../assets/" ++ rel⟩] })) ∧
    (∀ (st : PSt) (alt src rest : Str),
      ']' ∉ alt → ')' ∉ src → src ≠ [] →
      (∀ c ∈ src, ¬ (c = '"' ∨ c = '\'')) →
      (chars "./").isPrefixOf src = false →
      ∃ k, imageTry envBlog st
          ('!' :: '[' :: (alt ++ ']' :: '(' :: (src ++ ')' :: rest))) =
        some (k,
          chars "<img src=\"" ++ src ++ chars "\" alt=\"" ++ alt ++ chars "\">", st)) ∧
    ((splitCh '/' (chars "dist/updates/post.html")).length - 2 = 1 ∧
      (Md.parse envBlog (chars "![x](./pic.jpg)")).1 =
        chars "<img src=\"../assets/pic.jpg\" alt=\"x\">" ∧
      (Md.parse envBlog (chars "![x](./pic.jpg)")).2.imgs =
        [⟨chars "content/blog/pic.jpg", chars "dist/assets/pic.jpg",
          chars "../assets/pic.jpg"⟩]) := by
  refine ⟨?_, ?_, by decide, by decide, by decide⟩
  · intro st alt rel rest halt hpar hslash hq hext
    have h1 : takeUntil ']' (alt ++ ']' :: '(' :: ((chars "./" ++ rel) ++ ')' :: rest))
        = some (alt, '(' :: ((chars "./" ++ rel) ++ ')' :: rest)) :=
      takeUntil_append ']' alt _ halt
    have h2 : takeUntil ')' ((chars "./" ++ rel) ++ ')' :: rest)
        = some (chars "./" ++ rel, rest) :=
      takeUntil_append ')' _ rest (by
        intro hmem
        rcases List.mem_append.mp hmem with h | h
        · have h' : ')' ∈ [ '.', '/' ] := h
          simp at h'
        · exact hpar h)
    have hfil : (chars "./" ++ rel).filter (fun c => ¬ (c = '"' ∨ c = '\'')) =
        chars "./" ++ rel := by
      rw [List.filter_eq_self]
      intro a ha
      rcases List.mem_append.mp ha with h | h
      · have h' : a ∈ [ '.', '/' ] := h
        simp only [List.mem_cons, List.not_mem_nil, or_false] at h'
        rcases h' with rfl | rfl <;> decide
      · simpa using hq a h
    have hpre : (chars "./").isPrefixOf (chars "./" ++ rel) = true :=
      List.isPrefixOf_iff_prefix.mpr ⟨rel, rfl⟩
    have hdrop : (chars "./" ++ rel).drop 2 = rel := List.drop_left (chars "./") rel
    refine ⟨('!' :: '[' :: (alt ++ ']' :: '(' :: ((chars "./" ++ rel) ++ ')' :: rest))).length - rest.length, ?_⟩
    unfold imageTry
    simp only [h1, h2, hfil, hdrop]
    rw [if_neg (by
        intro hnil
        exact absurd (List.append_eq_nil.mp hnil).1 (by decide)),
      if_pos hpre, if_neg hext]
    simp only [basenameL_no_slash rel hslash]
    rfl
  · intro st alt src rest halt hpar hne hq hpre
    have h1 : takeUntil ']' (alt ++ ']' :: '(' :: (src ++ ')' :: rest))
        = some (alt, '(' :: (src ++ ')' :: rest)) :=
      takeUntil_append ']' alt _ halt
    have h2 : takeUntil ')' (src ++ ')' :: rest) = some (src, rest) :=
      takeUntil_append ')' src rest hpar
    have hfil : src.filter (fun c => ¬ (c = '"' ∨ c = '\'')) = src := by
      rw [List.filter_eq_self]
      intro a ha
      simpa using hq a ha
    refine ⟨('!' :: '[' :: (alt ++ ']' :: '(' :: (src ++ ')' :: rest))).length - rest.length, ?_⟩
    unfold imageTry
    simp only [h1, h2, hfil]
    rw [if_neg hne, if_neg (by simp [hpre])]

theorem crossFree_head_right (pat a : Str) (c : Char) (b : Str)
    (h : c ∉ pat.drop 1) : crossFree pat a (c :: b) = true := by
  rw [crossFree_iff]
  intro j hj0 hjlen hc
  apply h
  have hsub : pat.drop j <:+ pat.drop 1 := by
    have hj : pat.drop j = (pat.drop 1).drop (j - 1) := by
      rw [List.drop_drop]
      congr 1
      omega
    rw [hj]
    exact List.drop_suffix _ _
  obtain ⟨t, ht⟩ := hc.2
  cases hdj : pat.drop j with
  | nil =>
    have := List.drop_eq_nil_iff.mp hdj
    omega
  | cons d ds =>
    rw [hdj] at ht
    have hd : d = c := by
      have := congrArg (fun l => l.head?) ht
      simpa using this
    subst hd
    exact hsub.subset (by rw [hdj]; exact List.mem_cons_self _ _)

theorem crossFree_head_right2 (pat a b : Str) (c : Char) (t : Str)
    (hb : b = c :: t) (h : c ∉ pat.drop 1) : crossFree pat a b = true := by
  rw [hb]
  exact crossFree_head_right pat a c t h

theorem countOccur_flatten_mem (pat : Str) (hne : pat ≠ [])
    (hnl : '\n' ∉ pat.drop 1) {α : Type} (f : α → Str)
    (hhead : ∀ x, ∃ t, f x = '\n' :: t) :
    ∀ l : List α, (∀ x ∈ l, countOccur pat (f x) = 1) →
      countOccur pat (l.map f).flatten = l.length := by
  intro l
  induction l with
  | nil => intro _; rfl
  | cons x xs ih =>
    intro hone
    cases xs with
    | nil => simp [hone x (List.mem_cons_self _ _)]
    | cons y ys =>
      obtain ⟨t, hty⟩ := hhead y
      simp only [List.map_cons, List.flatten_cons] at ih ⊢
      rw [countOccur_append pat hne (f x) (f y ++ (List.map f ys).flatten)
        (crossFree_head_right2 pat (f x) (f y ++ (List.map f ys).flatten) '\n'
          (t ++ (List.map f ys).flatten) (by rw [hty]; simp) hnl)]
      rw [hone x (List.mem_cons_self _ _)]
      have hih := ih (fun z hz => hone z (List.mem_cons_of_mem _ hz))
      simp only [List.map_cons, List.flatten_cons] at hih
      rw [hih]
      simp [Nat.add_comm]

theorem countOccur_li_postLi (p : BlogPost) (hs : '<' ∉ p.slug)
    (ht : '<' ∉ p.title) : countOccur (chars "<li>") (postLi p) = 1 := by
  have h1 := countOccur_append (chars "<li>") (by decide)
    (chars "\n            <li><a href=\"/updates/")
    (p.slug ++ (chars "\">" ++ (p.title ++ chars "</a></li>\n          ")))
    (crossFree_of_getLast _ _ _ '/' (by decide) (by decide))
  have h2 := countOccur_append (chars "<li>") (by decide)
    p.slug (chars "\">" ++ (p.title ++ chars "</a></li>\n          "))
    (crossFree_head_right2 _ _ _ '"' _ rfl (by decide))
  have h3 := countOccur_append (chars "<li>") (by decide)
    (chars "\">") (p.title ++ chars "</a></li>\n          ")
    (crossFree_of_getLast _ _ _ '>' (by decide) (by decide))
  have h4 := countOccur_append (chars "<li>") (by decide)
    p.title (chars "</a></li>\n          ")
    (crossFree_head_right2 _ _ _ '<' _ rfl (by decide))
  unfold postLi
  simp only [List.append_assoc]
  rw [h1, h2, h3, h4,
    countOccur_eq_zero _ _ (occursB_false_of_char_not_mem _ _ '<' (by decide) hs),
    countOccur_eq_zero _ _ (occursB_false_of_char_not_mem _ _ '<' (by decide) ht)]
  decide

theorem countOccur_li_projectLi (p : BlogPost) (hs : '<' ∉ p.slug)
    (ht : '<' ∉ p.title) : countOccur (chars "<li>") (projectLi p) = 1 := by
  have h1 := countOccur_append (chars "<li>") (by decide)
    (chars "\n              <li><a href=\"/projects/")
    (p.slug ++ (chars "\">" ++ (p.title ++ chars "</a></li>\n            ")))
    (crossFree_of_getLast _ _ _ '/' (by decide) (by decide))
  have h2 := countOccur_append (chars "<li>") (by decide)
    p.slug (chars "\">" ++ (p.title ++ chars "</a></li>\n            "))
    (crossFree_head_right2 _ _ _ '"' _ rfl (by decide))
  have h3 := countOccur_append (chars "<li>") (by decide)
    (chars "\">") (p.title ++ chars "</a></li>\n            ")
    (crossFree_of_getLast _ _ _ '>' (by decide) (by decide))
  have h4 := countOccur_append (chars "<li>") (by decide)
    p.title (chars "</a></li>\n            ")
    (crossFree_head_right2 _ _ _ '<' _ rfl (by decide))
  unfold projectLi
  simp only [List.append_assoc]
  rw [h1, h2, h3, h4,
    countOccur_eq_zero _ _ (occursB_false_of_char_not_mem _ _ '<' (by decide) hs),
    countOccur_eq_zero _ _ (occursB_false_of_char_not_mem _ _ '<' (by decide) ht)]
  decide

theorem countOccur_li_galleryLi (g : Gallery) (hs : '<' ∉ g.name)
    (ht : '<' ∉ g.displayName) : countOccur (chars "<li>") (galleryLi g) = 1 := by
  have h1 := countOccur_append (chars "<li>") (by decide)
    (chars "\n              <li><a href=\"/photos/")
    (g.name ++ (chars "\">" ++ (g.displayName ++ (chars "</a> (" ++
      (chars (toString g.imageCount) ++ chars " images)</li>\n            ")))))
    (crossFree_of_getLast _ _ _ '/' (by decide) (by decide))
  have h2 := countOccur_append (chars "<li>") (by decide)
    g.name (chars "\">" ++ (g.displayName ++ (chars "</a> (" ++
      (chars (toString g.imageCount) ++ chars " images)</li>\n            "))))
    (crossFree_head_right2 _ _ _ '"' _ rfl (by decide))
  have h3 := countOccur_append (chars "<li>") (by decide)
    (chars "\">") (g.displayName ++ (chars "</a> (" ++
      (chars (toString g.imageCount) ++ chars " images)</li>\n            ")))
    (crossFree_of_getLast _ _ _ '>' (by decide) (by decide))
  have h4 := countOccur_append (chars "<li>") (by decide)
    g.displayName (chars "</a> (" ++
      (chars (toString g.imageCount) ++ chars " images)</li>\n            "))
    (crossFree_head_right2 _ _ _ '<' _ rfl (by decide))
  have h5 := countOccur_append (chars "<li>") (by decide)
    (chars "</a> (")
    (chars (toString g.imageCount) ++ chars " images)</li>\n            ")
    (crossFree_of_getLast _ _ _ '(' (by decide) (by decide))
  have h6 := countOccur_append (chars "<li>") (by decide)
    (chars (toString g.imageCount)) (chars " images)</li>\n            ")
    (crossFree_head_right2 _ _ _ ' ' _ rfl (by decide))
  unfold galleryLi
  simp only [List.append_assoc]
  rw [h1, h2, h3, h4, h5, h6,
    countOccur_eq_zero _ _ (occursB_false_of_char_not_mem _ _ '<' (by decide) hs),
    countOccur_eq_zero _ _ (occursB_false_of_char_not_mem _ _ '<' (by decide) ht),
    countOccur_eq_zero _ _ (occursB_false_of_char_not_mem _ _ '<' (by decide)
      (lt_not_mem_toString_nat g.imageCount))]
  decide

theorem countOccur_blogSection (posts : List BlogPost)
    (h : ∀ p ∈ posts, '<' ∉ p.slug ∧ '<' ∉ p.title) :
    countOccur (chars "<li>") (blogSection posts) = min posts.length 3 := by
  unfold blogSection
  rw [foldl_append_eq_flatten]
  simp only [List.nil_append, List.append_assoc]
  rw [countOccur_append (chars "<li>") (by decide)
      (chars "\n      <section class=\"recent-posts\">\n        <h2>Recent Blog Posts</h2>\n        <ul>\n          ")
      (((posts.take 3).map postLi).flatten ++
        chars "\n        </ul>\n        <a href=\"/updates\">View all posts →</a>\n      </section>\n    ")
      (crossFree_of_getLast _ _ _ ' ' (by decide) (by decide)),
    countOccur_append (chars "<li>") (by decide)
      ((posts.take 3).map postLi).flatten
      (chars "\n        </ul>\n        <a href=\"/updates\">View all posts →</a>\n      </section>\n    ")
      (crossFree_head_right2 _ _ _ '\n' _ rfl (by decide)),
    countOccur_flatten_mem (chars "<li>") (by decide) (by decide) postLi
      (fun p => ⟨_, rfl⟩) (posts.take 3)
      (fun p hp => countOccur_li_postLi p (h p (List.take_subset _ _ hp)).1
        (h p (List.take_subset _ _ hp)).2),
    List.length_take]
  have z1 : countOccur (chars "<li>")
      (chars "\n      <section class=\"recent-posts\">\n        <h2>Recent Blog Posts</h2>\n        <ul>\n          ") = 0 := by
    decide
  have z2 : countOccur (chars "<li>")
      (chars "\n        </ul>\n        <a href=\"/updates\">View all posts →</a>\n      </section>\n    ") = 0 := by
    decide
  rw [z1, z2]
  omega

theorem countOccur_photosSection (gs : List Gallery)
    (h : ∀ g ∈ gs, '<' ∉ g.name ∧ '<' ∉ g.displayName) :
    countOccur (chars "<li>") (photosSection gs) = min gs.length 3 := by
  unfold photosSection
  by_cases hg : gs.length > 0
  · rw [if_pos hg, foldl_append_eq_flatten]
    simp only [List.nil_append, List.append_assoc]
    rw [countOccur_append (chars "<li>") (by decide)
        (chars "\n      <section class=\"photos\">\n        <h2>Photo Galleries</h2>\n        ")
        (chars "\n          <ul>\n            " ++
          (((gs.take 3).map galleryLi).flatten ++
            (chars "\n          </ul>\n        " ++
              chars "\n        <a href=\"/photos\">View all galleries →</a>\n      </section>\n    ")))
        (crossFree_of_getLast _ _ _ ' ' (by decide) (by decide)),
      countOccur_append (chars "<li>") (by decide)
        (chars "\n          <ul>\n            ")
        (((gs.take 3).map galleryLi).flatten ++
          (chars "\n          </ul>\n        " ++
            chars "\n        <a href=\"/photos\">View all galleries →</a>\n      </section>\n    "))
        (crossFree_of_getLast _ _ _ ' ' (by decide) (by decide)),
      countOccur_append (chars "<li>") (by decide)
        (((gs.take 3).map galleryLi).flatten)
        (chars "\n          </ul>\n        " ++
          chars "\n        <a href=\"/photos\">View all galleries →</a>\n      </section>\n    ")
        (crossFree_head_right2 _ _ _ '\n' _ rfl (by decide)),
      countOccur_flatten_mem (chars "<li>") (by decide) (by decide) galleryLi
        (fun g => ⟨_, rfl⟩) (gs.take 3)
        (fun g hgm => countOccur_li_galleryLi g (h g (List.take_subset _ _ hgm)).1
          (h g (List.take_subset _ _ hgm)).2),
      List.length_take]
    have z1 : countOccur (chars "<li>")
        (chars "\n      <section class=\"photos\">\n        <h2>Photo Galleries</h2>\n        ") = 0 := by
      decide
    have z2 : countOccur (chars "<li>") (chars "\n          <ul>\n            ") = 0 := by
      decide
    have z3 : countOccur (chars "<li>")
        (chars "\n          </ul>\n        " ++
          chars "\n        <a href=\"/photos\">View all galleries →</a>\n      </section>\n    ") = 0 := by
      decide
    rw [z1, z2, z3]
    omega
  · rw [if_neg hg]
    have h0 : gs.length = 0 := by omega
    rw [h0]
    decide

theorem countOccur_projectsSection (projects : List BlogPost)
    (h : ∀ p ∈ projects, '<' ∉ p.slug ∧ '<' ∉ p.title) :
    countOccur (chars "<li>") (projectsSection projects) = projects.length := by
  unfold projectsSection
  by_cases hg : projects.length > 0
  · rw [if_pos hg, foldl_append_eq_flatten]
    simp only [List.nil_append, List.append_assoc]
    rw [countOccur_append (chars "<li>") (by decide)
        (chars "\n      <section class=\"projects\">\n        <h2>Projects</h2>\n        ")
        (chars "\n          <ul>\n            " ++
          ((projects.map projectLi).flatten ++
            (chars "\n          </ul>\n        " ++
              chars "\n      </section>\n    ")))
        (crossFree_of_getLast _ _ _ ' ' (by decide) (by decide)),
      countOccur_append (chars "<li>") (by decide)
        (chars "\n          <ul>\n            ")
        ((projects.map projectLi).flatten ++
          (chars "\n          </ul>\n        " ++
            chars "\n      </section>\n    "))
        (crossFree_of_getLast _ _ _ ' ' (by decide) (by decide)),
      countOccur_append (chars "<li>") (by decide)
        ((projects.map projectLi).flatten)
        (chars "\n          </ul>\n        " ++
          chars "\n      </section>\n    ")
        (crossFree_head_right2 _ _ _ '\n' _ rfl (by decide)),
      countOccur_flatten_mem (chars "<li>") (by decide) (by decide) projectLi
        (fun p => ⟨_, rfl⟩) projects
        (fun p hp => countOccur_li_projectLi p (h p hp).1 (h p hp).2)]
    have z1 : countOccur (chars "<li>")
        (chars "\n      <section class=\"projects\">\n        <h2>Projects</h2>\n        ") = 0 := by
      decide
    have z2 : countOccur (chars "<li>") (chars "\n          <ul>\n            ") = 0 := by
      decide
    have z3 : countOccur (chars "<li>")
        (chars "\n          </ul>\n        " ++ chars "\n      </section>\n    ") = 0 := by
      decide
    rw [z1, z2, z3]
    omega
  · rw [if_neg hg]
    have h0 : projects.length = 0 := by omega
    rw [h0]
    decide

theorem blogSection_take3 (posts : List BlogPost) :
    blogSection posts = blogSection (posts.take 3) := by
  unfold blogSection
  rw [List.take_take, Nat.min_self]

theorem photosSection_take3 (gs : List Gallery) :
    photosSection gs = photosSection (gs.take 3) := by
  unfold photosSection
  rw [List.take_take, Nat.min_self]
  by_cases hg : gs.length > 0
  · rw [if_pos hg, if_pos (by rw [List.length_take]; omega)]
  · rw [if_neg hg, if_neg (by rw [List.length_take]; omega)]

/-- C10 (confirmed).  The homepage renders at most the first 3 blog posts
in its recent-posts section and at most the first 3 galleries in its photos
section (both sections are unchanged by truncating their input to 3), while
the projects section renders every project with no truncation: its `<li>`
count equals the full project count. -/
theorem c10_homepage_truncation :
    (∀ posts : List BlogPost, blogSection posts = blogSection (posts.take 3)) ∧
    (∀ gs : List Gallery, photosSection gs = photosSection (gs.take 3)) ∧
    (∀ posts : List BlogPost, (∀ p ∈ posts, '<' ∉ p.slug ∧ '<' ∉ p.title) →
      countOccur (chars "<li>") (blogSection posts) = min posts.length 3) ∧
    (∀ gs : List Gallery, (∀ g ∈ gs, '<' ∉ g.name ∧ '<' ∉ g.displayName) →
      countOccur (chars "<li>") (photosSection gs) = min gs.length 3) ∧
    (∀ projects : List BlogPost,
      (∀ p ∈ projects, '<' ∉ p.slug ∧ '<' ∉ p.title) →
      countOccur (chars "<li>") (projectsSection projects) = projects.length) :=
  ⟨blogSection_take3, photosSection_take3, countOccur_blogSection,
    countOccur_photosSection, countOccur_projectsSection⟩

theorem c10_homepage_truncation_witness :
    countOccur (chars "<li>")
      (projectsSection [⟨chars "a", chars "a", [], .epoch, .epoch⟩,
        ⟨chars "b", chars "b", [], .epoch, .epoch⟩,
        ⟨chars "c", chars "c", [], .epoch, .epoch⟩,
        ⟨chars "d", chars "d", [], .epoch, .epoch⟩]) =
      ([⟨chars "a", chars "a", [], .epoch, .epoch⟩,
        ⟨chars "b", chars "b", [], .epoch, .epoch⟩,
        ⟨chars "c", chars "c", [], .epoch, .epoch⟩,
        (⟨chars "d", chars "d", [], .epoch, .epoch⟩ : BlogPost)] : List BlogPost).length :=
  c10_homepage_truncation.2.2.2.2 _ (by decide)

theorem c3_image_paths_witness :
    ∃ k, imageTry envBlog PSt.init
        ('!' :: '[' :: (chars "x" ++ ']' :: '(' ::
          ((chars "./" ++ chars "pic.jpg") ++ ')' :: ([] : Str)))) =
      some (k,
        chars "<img src=\"../assets/" ++ chars "pic.jpg" ++ chars "\" alt=\"" ++
          chars "x" ++ chars "\">",
        { PSt.init with imgs := PSt.init.imgs ++
          [⟨chars "content/blog/" ++ chars "pic.jpg",
            chars "dist/assets/" ++ chars "pic.jpg",
            chars "../assets/" ++ chars "pic.jpg"⟩] }) :=
  c3_image_paths.1 PSt.init (chars "x") (chars "pic.jpg") [] (by decide)
    (by decide) (by decide) (by decide) (by decide)

theorem blogRSSItem_indep (e e' : List (Str × JSDate)) (n n' : JSDate)
    (p : BlogPost) : blogRSSItem e n p = blogRSSItem e' n' p := by
  simp [blogRSSItem, jsOrDate]

theorem galleryRSSItem_indep (e e' : List (Str × JSDate)) (n n' : JSDate)
    (g : Gallery) : galleryRSSItem e n g = galleryRSSItem e' n' g := by
  simp [galleryRSSItem, jsOrDate]

/-- C6 (confirmed).  Rebuilding the feed with unchanged content preserves
every item's pubDate exactly: the item block of the new feed is byte-identical
to the old one (only the `lastBuildDate` text changes), because each item's
`pubDate` chain `publishedAt || existing.get(url) || now` always takes the
always-truthy `publishedAt` Date; and `loadExistingPubDates` scrapes back
exactly the url/pubDate pairs of an emitted feed (concrete instance). -/
theorem c6_rss_pubdate_stability :
    (∀ (toUTC : JSDate → Str) (getTime : JSDate → Int) (now now' : JSDate)
      (nowStr nowStr' : Str) (posts : List BlogPost) (galleries : List Gallery)
      (prev : Option Str),
      ∃ itemsStr,
        buildRSSFeed toUTC getTime now nowStr posts galleries prev =
          rssHeaderA ++ nowStr ++ rssHeaderB ++ itemsStr ++ rssFooter ∧
        buildRSSFeed toUTC getTime now' nowStr' posts galleries
            (some (buildRSSFeed toUTC getTime now nowStr posts galleries prev)) =
          rssHeaderA ++ nowStr' ++ rssHeaderB ++ itemsStr ++ rssFooter) ∧
    loadExistingPubDates (some (generateRSSXML
        (fun d => match d with | .fromString s => s | .epoch => chars "epoch")
        (chars "NOW")
        [⟨chars "blog", chars "T1", chars "s1", chars "/blog/s1", chars "c1",
          .fromString (chars "d1"),
          .fromString (chars "Mon, 01 Jan 2024 00:00:00 GMT")⟩,
         ⟨chars "gallery", chars "G", chars "g", chars "/photos/g", chars "c2",
          .fromString (chars "d2"),
          .fromString (chars "Tue, 02 Jan 2024 00:00:00 GMT")⟩])) =
      [(chars "/blog/s1", .fromString (chars "Mon, 01 Jan 2024 00:00:00 GMT")),
       (chars "/photos/g", .fromString (chars "Tue, 02 Jan 2024 00:00:00 GMT"))] := by
  constructor
  · intro toUTC getTime now now' nowStr nowStr' posts galleries prev
    have hmap : ∀ (e e' : List (Str × JSDate)) (n n' : JSDate),
        posts.map (blogRSSItem e n) ++ galleries.map (galleryRSSItem e n) =
        posts.map (blogRSSItem e' n') ++ galleries.map (galleryRSSItem e' n') := by
      intro e e' n n'
      rw [List.map_congr_left (fun p _ => blogRSSItem_indep e e' n n' p),
        List.map_congr_left (fun g _ => galleryRSSItem_indep e e' n n' g)]
    set F := buildRSSFeed toUTC getTime now nowStr posts galleries prev with hF
    refine ⟨joinCh '\n'
      ((sortDesc (fun i => getTime i.date)
        (posts.map (blogRSSItem (loadExistingPubDates prev) now) ++
          galleries.map (galleryRSSItem (loadExistingPubDates prev) now))).map
        (rssItemXml toUTC)), ?_, ?_⟩
    · rw [hF]
      unfold buildRSSFeed generateRSSXML
      simp [List.append_assoc]
    · unfold buildRSSFeed generateRSSXML
      simp only [hmap (loadExistingPubDates (some F)) (loadExistingPubDates prev)
        now' now, List.append_assoc]
  · decide

theorem c6_rss_pubdate_stability_witness :
    ∃ itemsStr,
      buildRSSFeed (fun _ => chars "D") (fun _ => 0) JSDate.epoch (chars "A")
          [] [] none =
        rssHeaderA ++ chars "A" ++ rssHeaderB ++ itemsStr ++ rssFooter ∧
      buildRSSFeed (fun _ => chars "D") (fun _ => 0) JSDate.epoch (chars "B")
          [] []
          (some (buildRSSFeed (fun _ => chars "D") (fun _ => 0) JSDate.epoch
            (chars "A") [] [] none)) =
        rssHeaderA ++ chars "B" ++ rssHeaderB ++ itemsStr ++ rssFooter :=
  c6_rss_pubdate_stability.1 (fun _ => chars "D") (fun _ => 0) JSDate.epoch
    JSDate.epoch (chars "A") (chars "B") [] [] none

theorem dropWhile_head_not (p : Char → Bool) (l : Str) (c : Char) (t : Str)
    (h : l.dropWhile p = c :: t) : p c = false := by
  induction l with
  | nil => cases h
  | cons x xs ih =>
    rw [List.dropWhile_cons] at h
    by_cases hx : p x = true
    · rw [if_pos hx] at h
      exact ih h
    · rw [if_neg hx] at h
      cases h
      simpa using hx

theorem jsTrim_head_not_ws (s : Str) (c : Char) (t : Str)
    (h : jsTrim s = c :: t) : isJsWS c = false := by
  unfold jsTrim at h
  have hsuf : ((s.dropWhile isJsWS).reverse.dropWhile isJsWS) <:+
      (s.dropWhile isJsWS).reverse := List.dropWhile_suffix _
  obtain ⟨u, hu⟩ := hsuf
  have h2 : (s.dropWhile isJsWS).reverse.dropWhile isJsWS = (c :: t).reverse := by
    rw [← h, List.reverse_reverse]
  rw [h2] at hu
  have h3 := congrArg List.reverse hu
  simp only [List.reverse_append, List.reverse_reverse, List.reverse_cons] at h3
  have hd : s.dropWhile isJsWS = c :: (t ++ u.reverse) := by
    rw [← h3]
    simp
  exact dropWhile_head_not isJsWS s c _ hd

theorem jsTrim_cons_ne_nil (c : Char) (t : Str) (hc : isJsWS c = false) :
    jsTrim (c :: t) ≠ [] := by
  unfold jsTrim
  intro h
  rw [List.reverse_eq_nil_iff, List.dropWhile_eq_nil_iff] at h
  have hcd : (c :: t).dropWhile isJsWS = c :: t := by
    rw [List.dropWhile_cons, if_neg (by simp [hc])]
  rw [hcd] at h
  have := h c (by simp)
  rw [hc] at this
  exact Bool.noConfusion this

theorem takeUntil_eq_append (stop : Char) (s : Str) :
    ∀ p r, takeUntil stop s = some (p, r) → s = p ++ stop :: r := by
  induction s with
  | nil => intro p r h; cases h
  | cons c cs ih =>
    intro p r h
    simp only [takeUntil] at h
    by_cases hc : c = stop
    · rw [if_pos hc] at h
      injection h with h
      injection h with h1 h2
      subst h1
      subst h2
      rw [hc]
      rfl
    · rw [if_neg hc] at h
      cases htc : takeUntil stop cs with
      | none => rw [htc] at h; cases h
      | some pr =>
        rw [htc] at h
        injection h with h
        injection h with h1 h2
        subst h2
        rw [← h1, List.cons_append]
        rw [ih pr.1 pr.2 (by rw [htc])]

theorem yaml_step_rel (st : YSt) (pending : Option (Str × List Str))
    (hpend : match pending with
      | none => st.currentArrayKey = []
      | some kj => st.currentArrayKey = kj.1 ∧ kj.1 ≠ [] ∧ st.currentArray = kj.2)
    (line : Str) :
    (Yaml.step st line).result = (specYamlAmendedStep st.result pending line).1 ∧
    (match (specYamlAmendedStep st.result pending line).2 with
      | none => (Yaml.step st line).currentArrayKey = []
      | some kj => (Yaml.step st line).currentArrayKey = kj.1 ∧ kj.1 ≠ [] ∧
          (Yaml.step st line).currentArray = kj.2) := by
  simp only [Yaml.step, specYamlAmendedStep]
  by_cases hA : jsTrim line = [] ∨ (chars "#").isPrefixOf (jsTrim line) = true
  · rw [if_pos hA, if_neg
      (show ¬ (jsTrim line ≠ [] ∧ ¬ (chars "#").isPrefixOf (jsTrim line) = true) from by
        rintro ⟨h1, h2⟩
        rcases hA with h | h
        · exact h1 h
        · exact h2 h)]
    exact ⟨rfl, hpend⟩
  · rw [not_or] at hA
    rw [if_pos ⟨hA.1, hA.2⟩, if_neg
      (show ¬ (jsTrim line = [] ∨ (chars "#").isPrefixOf (jsTrim line) = true) from
        fun hor => hor.elim hA.1 hA.2)]
    by_cases hD : (chars "- ").isPrefixOf (jsTrim line) = true
    · rw [if_pos hD, if_pos hD]
      rcases pending with _ | ⟨k, items⟩
      · dsimp only
        dsimp only at hpend
        rw [if_neg (fun hne => hne hpend)]
        exact ⟨rfl, hpend⟩
      · dsimp only
        dsimp only at hpend
        obtain ⟨hk, hkne, harr⟩ := hpend
        rw [if_pos (by rw [hk]; exact hkne)]
        refine ⟨rfl, hk, hkne, ?_⟩
        rw [harr]
    · rw [if_neg hD, if_neg hD]
      rcases pending with _ | ⟨k, items⟩
      · dsimp only
        dsimp only at hpend
        rw [if_neg (fun hc => hc.1 hpend)]
        cases hTU : takeUntil ':' (jsTrim line) with
        | none =>
          dsimp only
          exact ⟨rfl, hpend⟩
        | some kr =>
          obtain ⟨key0, rest⟩ := kr
          dsimp only
          by_cases hk0 : key0 = []
          · rw [if_pos hk0, if_pos hk0]
            exact ⟨rfl, hpend⟩
          · rw [if_neg hk0, if_neg hk0]
            have hkey : jsTrim key0 ≠ [] := by
              have happ := takeUntil_eq_append ':' (jsTrim line) key0 rest hTU
              cases hkey0 : key0 with
              | nil => exact absurd hkey0 hk0
              | cons c0 t0 =>
                refine jsTrim_cons_ne_nil c0 t0 ?_
                apply jsTrim_head_not_ws line c0 (t0 ++ ':' :: rest)
                rw [happ, hkey0]
                rfl
            by_cases hpub : jsTrim key0 = chars "published_at"
            · rw [if_pos hpub, if_pos hpub]
              exact ⟨rfl, hpend⟩
            · rw [if_neg hpub, if_neg hpub]
              by_cases hval : jsTrim rest = []
              · rw [if_pos hval, if_pos hval]
                exact ⟨rfl, rfl, hkey, rfl⟩
              · rw [if_neg hval, if_neg hval]
                exact ⟨rfl, hpend⟩
      · dsimp only
        dsimp only at hpend
        obtain ⟨hk, hkne, harr⟩ := hpend
        by_cases hit : items ≠ []
        · rw [if_pos hit,
            if_pos ⟨by rw [hk]; exact hkne, by rw [harr]; exact hit⟩]
          dsimp only
          rw [hk, harr]
          cases hTU : takeUntil ':' (jsTrim line) with
          | none =>
            dsimp only
            exact ⟨rfl, rfl⟩
          | some kr =>
            obtain ⟨key0, rest⟩ := kr
            dsimp only
            by_cases hk0 : key0 = []
            · rw [if_pos hk0, if_pos hk0]
              exact ⟨rfl, rfl⟩
            · rw [if_neg hk0, if_neg hk0]
              have hkey : jsTrim key0 ≠ [] := by
                have happ := takeUntil_eq_append ':' (jsTrim line) key0 rest hTU
                cases hkey0 : key0 with
                | nil => exact absurd hkey0 hk0
                | cons c0 t0 =>
                  refine jsTrim_cons_ne_nil c0 t0 ?_
                  apply jsTrim_head_not_ws line c0 (t0 ++ ':' :: rest)
                  rw [happ, hkey0]
                  rfl
              by_cases hpub : jsTrim key0 = chars "published_at"
              · rw [if_pos hpub, if_pos hpub]
                exact ⟨rfl, rfl⟩
              · rw [if_neg hpub, if_neg hpub]
                by_cases hval : jsTrim rest = []
                · rw [if_pos hval, if_pos hval]
                  exact ⟨rfl, rfl, hkey, rfl⟩
                · rw [if_neg hval, if_neg hval]
                  exact ⟨rfl, rfl⟩
        · rw [if_neg hit,
            if_neg (by
              rintro ⟨-, hc2⟩
              rw [harr] at hc2
              exact hit hc2)]
          dsimp only
          cases hTU : takeUntil ':' (jsTrim line) with
          | none =>
            dsimp only
            exact ⟨rfl, hk, hkne, harr⟩
          | some kr =>
            obtain ⟨key0, rest⟩ := kr
            dsimp only
            by_cases hk0 : key0 = []
            · rw [if_pos hk0, if_pos hk0]
              exact ⟨rfl, hk, hkne, harr⟩
            · rw [if_neg hk0, if_neg hk0]
              have hkey : jsTrim key0 ≠ [] := by
                have happ := takeUntil_eq_append ':' (jsTrim line) key0 rest hTU
                cases hkey0 : key0 with
                | nil => exact absurd hkey0 hk0
                | cons c0 t0 =>
                  refine jsTrim_cons_ne_nil c0 t0 ?_
                  apply jsTrim_head_not_ws line c0 (t0 ++ ':' :: rest)
                  rw [happ, hkey0]
                  rfl
              by_cases hpub : jsTrim key0 = chars "published_at"
              · rw [if_pos hpub, if_pos hpub]
                exact ⟨rfl, hk, hkne, harr⟩
              · rw [if_neg hpub, if_neg hpub]
                by_cases hval : jsTrim rest = []
                · rw [if_pos hval, if_pos hval]
                  exact ⟨rfl, rfl, hkey, rfl⟩
                · rw [if_neg hval, if_neg hval]
                  exact ⟨rfl, hk, hkne, harr⟩

theorem yaml_fold_rel (lines : List Str) :
    ∀ (st : YSt) (pending : Option (Str × List Str)),
    (match pending with
      | none => st.currentArrayKey = []
      | some kj => st.currentArrayKey = kj.1 ∧ kj.1 ≠ [] ∧ st.currentArray = kj.2) →
    (lines.foldl Yaml.step st).result =
      (lines.foldl (fun q l => specYamlAmendedStep q.1 q.2 l) (st.result, pending)).1 ∧
    (match (lines.foldl (fun q l => specYamlAmendedStep q.1 q.2 l)
        (st.result, pending)).2 with
      | none => (lines.foldl Yaml.step st).currentArrayKey = []
      | some kj => (lines.foldl Yaml.step st).currentArrayKey = kj.1 ∧ kj.1 ≠ [] ∧
          (lines.foldl Yaml.step st).currentArray = kj.2) := by
  induction lines with
  | nil =>
    intro st pending h
    exact ⟨rfl, h⟩
  | cons l ls ih =>
    intro st pending h
    simp only [List.foldl_cons]
    have hstep := yaml_step_rel st pending h l
    have hrec := ih (Yaml.step st l) (specYamlAmendedStep st.result pending l).2 hstep.2
    rw [hstep.1, Prod.mk.eta] at hrec
    exact hrec

/-- C7 counterexample: the reader does not treat every empty value as
opening a pending list — for `published_at:` it stores an Invalid-Date value
(`new Date('')`) instead, so a following `- x` line is dropped; and a pending
list survives intervening scalar key lines, so `- x` lines need not appear
immediately after the opening key line. -/
theorem c7_yaml_reader_cex :
    (Yaml.parseSimple (chars "published_at:\n- x") =
        [(chars "published_at", YVal.date [])] ∧
      specYamlParse (chars "published_at:\n- x") =
        [(chars "published_at", YVal.list [chars "x"])]) ∧
    (Yaml.parseSimple (chars "k:\nother: v\n- x") =
        [(chars "other", YVal.str [ 'v' ]), (chars "k", YVal.list [[ 'x' ]])] ∧
      specYamlParse (chars "k:\nother: v\n- x") =
        [(chars "k", YVal.list []), (chars "other", YVal.str [ 'v' ])]) := by
  refine ⟨⟨by decide, by decide⟩, by decide, by decide⟩

/-- C7 (amended).  For every input text, `parseSimple` behaves as the
explicit state machine `specYamlAmendedParse`: a pending list is opened by a
key line whose trimmed value is empty and whose key is not `published_at`
(for `published_at` an empty value is stored as a date like any other value);
a `- ` line appends to the open pending list, which persists across
intervening scalar key lines while it has no items; a key line seen while the
pending list has items first commits it; end of input commits a pending list
exactly when it has items. -/
theorem c7_yaml_reader_amended (y : Str) :
    Yaml.parseSimple y = specYamlAmendedParse y := by
  unfold Yaml.parseSimple specYamlAmendedParse
  dsimp only
  obtain ⟨hres, hpend⟩ :=
    yaml_fold_rel (splitCh '\n' y) ⟨[], [], []⟩ none rfl
  simp only [show (⟨[], [], []⟩ : YSt).result = [] from rfl] at hres hpend
  set F := (splitCh '\n' y).foldl Yaml.step ⟨[], [], []⟩ with hF
  set G := (splitCh '\n' y).foldl
    (fun q l => specYamlAmendedStep q.1 q.2 l) ([], none) with hG
  cases hG2 : G.2 with
  | none =>
    rw [hG2] at hpend
    dsimp only at hpend
    dsimp only
    rw [if_neg (fun hc => hc.1 hpend)]
    exact hres
  | some kj =>
    obtain ⟨k, items⟩ := kj
    rw [hG2] at hpend
    dsimp only at hpend
    obtain ⟨hk, hkne, harr⟩ := hpend
    dsimp only
    by_cases hit : items ≠ []
    · rw [if_pos ⟨by rw [hk]; exact hkne, by rw [harr]; exact hit⟩, if_pos hit,
        hres, hk, harr]
    · rw [if_neg (by
          rintro ⟨-, hc2⟩
          rw [harr] at hc2
          exact hit hc2),
        if_neg hit]
      exact hres

theorem hasFile_append (a b : List (Str × FSTree)) (segs : List Str) :
    hasFile (a ++ b) segs = (hasFile a segs || hasFile b segs) := by
  cases segs with
  | nil => rfl
  | cons s ss => exact List.any_append

theorem sweep_keeps_assets_entry (expected : Str → Bool) :
    ∀ (es : List (Str × FSTree)) (rel : Str) (sub : List (Str × FSTree)),
      (chars "assets", FSTree.dir sub) ∈ es →
      (chars "assets", FSTree.dir sub) ∈ sweepEntries expected rel es := by
  intro es
  induction es with
  | nil => intro rel sub h; cases h
  | cons e es' ih =>
    intro rel sub h
    obtain ⟨name, tree⟩ := e
    rcases List.mem_cons.mp h with heq | hmem
    · injection heq with h1 h2
      subst h1
      subst h2
      unfold sweepEntries
      rw [if_pos rfl]
      exact List.mem_cons_self _ _
    · cases tree with
      | file =>
        unfold sweepEntries
        exact List.mem_append_right _ (ih rel sub hmem)
      | dir sub2 =>
        unfold sweepEntries
        by_cases hn : name = chars "assets"
        · rw [if_pos hn]
          exact List.mem_cons_of_mem _ (ih rel sub hmem)
        · rw [if_neg hn]
          exact List.mem_append_right _ (ih rel sub hmem)

theorem hasFile_nil_entries (segs : List Str) : hasFile [] segs = false := by
  cases segs <;> rfl

theorem hasFile_cons_file_one (name : Str) (es : List (Str × FSTree)) (seg : Str) :
    hasFile ((name, FSTree.file) :: es) [seg] =
      (decide (name = seg) || hasFile es [seg]) := by
  simp [hasFile]

theorem hasFile_cons_file_deep (name : Str) (es : List (Str × FSTree))
    (seg s2 : Str) (ss : List Str) :
    hasFile ((name, FSTree.file) :: es) (seg :: s2 :: ss) =
      hasFile es (seg :: s2 :: ss) := by
  show ((decide (name = seg) && false) || hasFile es (seg :: s2 :: ss)) = _
  simp

theorem hasFile_cons_dir_one (name : Str) (sub es : List (Str × FSTree)) (seg : Str) :
    hasFile ((name, FSTree.dir sub) :: es) [seg] = hasFile es [seg] := by
  simp [hasFile]

theorem hasFile_cons_dir_deep (name : Str) (sub es : List (Str × FSTree))
    (seg s2 : Str) (ss : List Str) :
    hasFile ((name, FSTree.dir sub) :: es) (seg :: s2 :: ss) =
      ((decide (name = seg) && hasFile sub (s2 :: ss)) ||
        hasFile es (seg :: s2 :: ss)) := rfl

theorem isEmpty_false_of_hasFile (es : List (Str × FSTree)) (segs : List Str)
    (h : hasFile es segs = true) : es.isEmpty = false := by
  cases es with
  | nil => rw [hasFile_nil_entries] at h; exact Bool.noConfusion h
  | cons e es' => rfl

theorem sweep_keeps_assets_files (expected : Str → Bool) :
    ∀ (root : List (Str × FSTree)) (s2 : Str) (ss : List Str),
      hasFile root (chars "assets" :: s2 :: ss) = true →
      hasFile (cleanupSweep expected root) (chars "assets" :: s2 :: ss) = true := by
  intro root
  unfold cleanupSweep
  induction root with
  | nil =>
    intro s2 ss h
    rw [hasFile_nil_entries] at h
    exact Bool.noConfusion h
  | cons e es' ih =>
    intro s2 ss h
    obtain ⟨name, tree⟩ := e
    cases tree with
    | file =>
      rw [hasFile_cons_file_deep] at h
      unfold sweepEntries
      rw [hasFile_append, ih s2 ss h]
      simp
    | dir sub =>
      rw [hasFile_cons_dir_deep, Bool.or_eq_true] at h
      unfold sweepEntries
      rcases h with hhead | htail
      · rw [Bool.and_eq_true, decide_eq_true_eq] at hhead
        rw [if_pos hhead.1, hasFile_cons_dir_deep, hhead.2]
        simp [hhead.1]
      · by_cases hn : name = chars "assets"
        · rw [if_pos hn, hasFile_cons_dir_deep, ih s2 ss htail]
          simp
        · rw [if_neg hn, hasFile_append, ih s2 ss htail]
          simp

theorem sweep_keeps_expected (expected : Str → Bool) :
    ∀ (segs : List Str) (es : List (Str × FSTree)) (rel : Str),
      hasFile es segs = true →
      expected (segs.foldl childPath rel) = true →
      hasFile (sweepEntries expected rel es) segs = true := by
  intro segs
  induction segs with
  | nil =>
    intro es rel h _
    rw [show hasFile es [] = false from rfl] at h
    exact Bool.noConfusion h
  | cons seg rest ih =>
    intro es rel h hexp
    revert h
    induction es with
    | nil =>
      intro h
      rw [hasFile_nil_entries] at h
      exact Bool.noConfusion h
    | cons e es' ihe =>
      intro h
      obtain ⟨name, tree⟩ := e
      cases rest with
      | nil =>
        cases tree with
        | file =>
          rw [hasFile_cons_file_one, Bool.or_eq_true] at h
          unfold sweepEntries
          rcases h with hhead | htail
          · rw [decide_eq_true_eq] at hhead
            have hexp' : expected (childPath rel seg) = true := hexp
            rw [if_pos (by rw [hhead]; exact hexp')]
            rw [show ([(name, FSTree.file)] ++ sweepEntries expected rel es') =
              ((name, FSTree.file) :: sweepEntries expected rel es') from rfl]
            rw [hasFile_cons_file_one]
            simp [hhead]
          · rw [hasFile_append, ihe htail]
            simp
        | dir sub =>
          rw [hasFile_cons_dir_one] at h
          by_cases hn : name = chars "assets"
          · unfold sweepEntries
            rw [if_pos hn, hasFile_cons_dir_one]
            exact ihe h
          · unfold sweepEntries
            rw [if_neg hn, hasFile_append, ihe h]
            simp
      | cons r2 rs =>
        cases tree with
        | file =>
          rw [hasFile_cons_file_deep] at h
          unfold sweepEntries
          rw [hasFile_append, ihe h]
          simp
        | dir sub =>
          rw [hasFile_cons_dir_deep, Bool.or_eq_true] at h
          rcases h with hhead | htail
          · rw [Bool.and_eq_true, decide_eq_true_eq] at hhead
            obtain ⟨hname, hsub⟩ := hhead
            by_cases hn : name = chars "assets"
            · unfold sweepEntries
              rw [if_pos hn, hasFile_cons_dir_deep, hsub]
              simp [hname]
            · unfold sweepEntries
              rw [if_neg hn]
              dsimp only
              have hexp2 : expected (List.foldl childPath (childPath rel name)
                  (r2 :: rs)) = true := by
                rw [hname]
                exact hexp
              have hsw := ih sub (childPath rel name) hsub hexp2
              have hne := isEmpty_false_of_hasFile _ _ hsw
              rw [if_neg (by rw [hne]; exact Bool.noConfusion)]
              rw [hasFile_append]
              rw [show ([(name, FSTree.dir (sweepEntries expected
                  (childPath rel name) sub))] : List (Str × FSTree)) =
                ((name, FSTree.dir (sweepEntries expected (childPath rel name) sub))
                  :: []) from rfl]
              rw [hasFile_cons_dir_deep, hsw]
              simp [hname]
          · by_cases hn : name = chars "assets"
            · unfold sweepEntries
              rw [if_pos hn, hasFile_cons_dir_deep, ihe htail]
              simp
            · unfold sweepEntries
              rw [if_neg hn, hasFile_append, ihe htail]
              simp

theorem sweep_only_deletes (expected : Str → Bool) :
    ∀ (segs : List Str) (es : List (Str × FSTree)) (rel : Str),
      hasFile (sweepEntries expected rel es) segs = true →
      hasFile es segs = true := by
  intro segs
  induction segs with
  | nil =>
    intro es rel h
    rw [show hasFile (sweepEntries expected rel es) [] = false from rfl] at h
    exact Bool.noConfusion h
  | cons seg rest ih =>
    intro es rel
    induction es with
    | nil =>
      intro h
      unfold sweepEntries at h
      rw [hasFile_nil_entries] at h
      exact Bool.noConfusion h
    | cons e es' ihe =>
      intro h
      obtain ⟨name, tree⟩ := e
      cases tree with
      | file =>
        unfold sweepEntries at h
        rw [hasFile_append, Bool.or_eq_true] at h
        cases rest with
        | nil =>
          rw [hasFile_cons_file_one, Bool.or_eq_true]
          rcases h with hhead | htail
          · by_cases hx : expected (childPath rel name) = true
            · rw [if_pos hx, hasFile_cons_file_one, hasFile_nil_entries,
                Bool.or_false] at hhead
              exact Or.inl hhead
            · rw [if_neg hx, hasFile_nil_entries] at hhead
              exact Bool.noConfusion hhead
          · exact Or.inr (ihe htail)
        | cons r2 rs =>
          rw [hasFile_cons_file_deep]
          rcases h with hhead | htail
          · by_cases hx : expected (childPath rel name) = true
            · rw [if_pos hx, hasFile_cons_file_deep, hasFile_nil_entries] at hhead
              exact Bool.noConfusion hhead
            · rw [if_neg hx, hasFile_nil_entries] at hhead
              exact Bool.noConfusion hhead
          · exact ihe htail
      | dir sub =>
        unfold sweepEntries at h
        by_cases hn : name = chars "assets"
        · rw [if_pos hn] at h
          cases rest with
          | nil =>
            rw [hasFile_cons_dir_one] at h ⊢
            exact ihe h
          | cons r2 rs =>
            rw [hasFile_cons_dir_deep] at h ⊢
            rw [Bool.or_eq_true] at h ⊢
            rcases h with hhead | htail
            · exact Or.inl hhead
            · exact Or.inr (ihe htail)
        · rw [if_neg hn] at h
          dsimp only at h
          rw [hasFile_append, Bool.or_eq_true] at h
          cases rest with
          | nil =>
            rw [hasFile_cons_dir_one]
            rcases h with hhead | htail
            · by_cases hx : (sweepEntries expected (childPath rel name) sub).isEmpty = true
              · rw [if_pos hx, hasFile_nil_entries] at hhead
                exact Bool.noConfusion hhead
              · rw [if_neg hx, hasFile_cons_dir_one, hasFile_nil_entries] at hhead
                exact Bool.noConfusion hhead
            · exact ihe htail
          | cons r2 rs =>
            rw [hasFile_cons_dir_deep, Bool.or_eq_true]
            rcases h with hhead | htail
            · by_cases hx : (sweepEntries expected (childPath rel name) sub).isEmpty = true
              · rw [if_pos hx, hasFile_nil_entries] at hhead
                exact Bool.noConfusion hhead
              · rw [if_neg hx, hasFile_cons_dir_deep, hasFile_nil_entries,
                  Bool.or_false, Bool.and_eq_true] at hhead
                rw [Bool.and_eq_true]
                exact Or.inl ⟨hhead.1, ih sub (childPath rel name) hhead.2⟩
            · exact Or.inr (ihe htail)

/-- C8 (confirmed).  The orphan-file sweep never removes a directory named
`assets` (the entry and every file inside it survive verbatim); every file it
keeps existed before (it only deletes); and it never deletes a file whose
relative path is in the expected set — so the deleted files are exactly
unexpected files outside the assets directory (plus directories made empty). -/
theorem c8_cleanup_assets_safe :
    (∀ (expected : Str → Bool) (root : List (Str × FSTree))
        (sub : List (Str × FSTree)),
      (chars "assets", FSTree.dir sub) ∈ root →
      (chars "assets", FSTree.dir sub) ∈ cleanupSweep expected root) ∧
    (∀ (expected : Str → Bool) (root : List (Str × FSTree)) (s2 : Str)
        (ss : List Str),
      hasFile root (chars "assets" :: s2 :: ss) = true →
      hasFile (cleanupSweep expected root) (chars "assets" :: s2 :: ss) = true) ∧
    (∀ (expected : Str → Bool) (root : List (Str × FSTree)) (segs : List Str),
      hasFile (cleanupSweep expected root) segs = true →
      hasFile root segs = true) ∧
    (∀ (expected : Str → Bool) (root : List (Str × FSTree)) (segs : List Str),
      hasFile root segs = true →
      expected (segs.foldl childPath []) = true →
      hasFile (cleanupSweep expected root) segs = true) :=
  ⟨fun expected root sub h => sweep_keeps_assets_entry expected root [] sub h,
   sweep_keeps_assets_files,
   fun expected root segs h => sweep_only_deletes expected segs root [] h,
   fun expected root segs h hexp => sweep_keeps_expected expected segs root [] h hexp⟩

theorem c8_cleanup_assets_safe_witness :
    hasFile (cleanupSweep (fun s => decide (s = chars "a/f.html"))
        [(chars "a", FSTree.dir [(chars "f.html", FSTree.file),
          (chars "g.html", FSTree.file)])])
      [chars "a", chars "f.html"] = true :=
  c8_cleanup_assets_safe.2.2.2 (fun s => decide (s = chars "a/f.html"))
    [(chars "a", FSTree.dir [(chars "f.html", FSTree.file),
      (chars "g.html", FSTree.file)])]
    [chars "a", chars "f.html"] (by decide) (by decide)

theorem lastUpdatedCapture_none (s : Str) (h : '_' ∉ s) :
    lastUpdatedCapture s = none := by
  induction s with
  | nil => rfl
  | cons c cs ih =>
    unfold lastUpdatedCapture
    rw [if_neg (by
      intro hp
      apply h
      apply (List.isPrefixOf_iff_prefix.mp hp).subset
      decide)]
    exact ih (fun hm => h (List.mem_cons_of_mem _ hm))

theorem splitAtSubNoNL_ch_append (dl : Char) (u v : Str) (hu : dl ∉ u)
    (hnl : '\n' ∉ u) : splitAtSubNoNL [dl] (u ++ dl :: v) = some (u, v) := by
  induction u with
  | nil =>
    simp only [List.nil_append, splitAtSubNoNL]
    rw [if_pos (by simp [List.isPrefixOf])]
    rfl
  | cons c cs ih =>
    simp only [List.cons_append, splitAtSubNoNL]
    rw [if_neg (by
        intro hp
        obtain ⟨tt, htt⟩ := List.isPrefixOf_iff_prefix.mp hp
        rw [List.singleton_append] at htt
        injection htt with h3 _
        exact hu (by rw [h3]; exact List.mem_cons_self _ _)),
      if_neg (by
        rintro rfl
        exact hnl (List.mem_cons_self _ _)),
      List.append_eq,
      ih (fun hm => hu (List.mem_cons_of_mem _ hm))
        (fun hm => hnl (List.mem_cons_of_mem _ hm))]
    rfl

theorem scanRw_all (f : Str → Option (Nat × Str)) (c : Char) (cs : Str) (r : Str)
    (h : f (c :: cs) = some ((c :: cs).length, r)) : scanRw f (c :: cs) = r := by
  unfold scanRw
  show scanRwF f (cs.length + 1) (c :: cs) = r
  rw [scanRwF, h]
  simp only [List.length_cons, Nat.add_sub_cancel, List.drop_length]
  rw [show scanRwF f cs.length [] = [] from by cases cs.length <;> rfl]
  simp

theorem isPrefixOf_head_false (p c : Char) (ps t : Str) (h : p ≠ c) :
    (p :: ps).isPrefixOf (c :: t) = false := by
  simp [List.isPrefixOf, h]

theorem isPrefixOf_two_false (p1 p2 c1 c2 : Char) (ps t : Str)
    (h : ¬ (p1 = c1 ∧ p2 = c2)) :
    (p1 :: p2 :: ps).isPrefixOf (c1 :: c2 :: t) = false := by
  by_cases h1 : p1 = c1
  · have h2 : p2 ≠ c2 := fun hc => h ⟨h1, hc⟩
    simp [List.isPrefixOf, h1, h2]
  · simp [List.isPrefixOf, h1]

theorem takeWhile_head_false (p : Char → Bool) (c : Char) (t : Str)
    (h : p c = false) : (c :: t).takeWhile p = [] := by
  simp [List.takeWhile_cons, h]

theorem lineMap_single (f : Str → Str) (s : Str) (h : '\n' ∉ s) :
    lineMap f s = f s := by
  unfold lineMap
  rw [splitCh_no_sep '\n' s h]
  rfl

theorem pOpenHTry_no_pref (t : Str)
    (h : (chars "<p><h").isPrefixOf t = false) : pOpenHTry t = none := by
  unfold pOpenHTry
  split
  · exfalso
    rw [show chars "<p><h" = ['<', 'p', '>', '<', 'h'] from rfl] at h
    simp [List.isPrefixOf] at h
  · rfl

theorem hClosePTry_no_pref (t : Str)
    (h : (chars "</h").isPrefixOf t = false) : hClosePTry t = none := by
  unfold hClosePTry
  split
  · exfalso
    rw [show chars "</h" = ['<', '/', 'h'] from rfl] at h
    simp [List.isPrefixOf] at h
  · rfl

theorem splitAtSubNoNL1_ch (dl c : Char) (u v : Str) (hc : c ≠ '\n')
    (hu : dl ∉ u) (hnl : '\n' ∉ u) :
    splitAtSubNoNL1 [dl] (c :: (u ++ dl :: v)) = some (c :: u, v) := by
  show (if c = '\n' then none else
    Option.map (fun p => (c :: p.1, p.2)) (splitAtSubNoNL [dl] (u ++ dl :: v))) =
    some (c :: u, v)
  rw [if_neg hc, splitAtSubNoNL_ch_append dl u v hu hnl]
  rfl

theorem marker_destroyed (d : Str)
    (hd : ∀ c ∈ d, c ≠ '_' ∧ c ≠ '\n' ∧ c ≠ '#' ∧ c ≠ '!' ∧ c ≠ '`' ∧ c ≠ '<' ∧
      c ≠ '>' ∧ c ≠ '*' ∧ c ≠ '[') :
    Md.parse envBlog (chars "_Last updated " ++ d ++ chars "_") =
      (chars "<p><em>Last updated " ++ (d ++ chars "</em>"), PSt.init) := by
  set B : Str := chars "_Last updated " ++ d ++ chars "_" with hBdef
  set u0 : Str := chars "Last updated " ++ d with hu0def
  set u1 : Str := chars "ast updated " ++ d with hu1def
  have hund : '_' ∉ d := fun hm => (hd _ hm).1 rfl
  have hnld : '\n' ∉ d := fun hm => (hd _ hm).2.1 rfl
  have hltd : '<' ∉ d := fun hm => (hd _ hm).2.2.2.2.2.1 rfl
  have hgtd : '>' ∉ d := fun hm => (hd _ hm).2.2.2.2.2.2.1 rfl
  have hB : B = '_' :: (u0 ++ [ '_' ]) := by
    rw [hBdef, hu0def]
    rfl
  have hB2 : B = chars "_Last updated " ++ (d ++ chars "_") := by
    rw [hBdef]
    simp [List.append_assoc]
  have hu0c : u0 = 'L' :: u1 := by
    rw [hu0def, hu1def]
    rfl
  have hmemB : ∀ c ∈ B, c = '_' ∨ c ∈ chars "Last updated " ∨ c ∈ d := by
    intro c hm
    rw [hB] at hm
    rcases List.mem_cons.mp hm with rfl | hm
    · exact Or.inl rfl
    rcases List.mem_append.mp hm with hm | hm
    · rw [hu0def] at hm
      rcases List.mem_append.mp hm with hm | hm
      · exact Or.inr (Or.inl hm)
      · exact Or.inr (Or.inr hm)
    · simp at hm
      exact Or.inl hm
  have hhash : '#' ∉ B := by
    intro hm
    rcases hmemB '#' hm with h | h | h
    · exact absurd h (by decide)
    · exact absurd h (by decide)
    · exact (hd _ h).2.2.1 rfl
  have hbang : '!' ∉ B := by
    intro hm
    rcases hmemB '!' hm with h | h | h
    · exact absurd h (by decide)
    · exact absurd h (by decide)
    · exact (hd _ h).2.2.2.1 rfl
  have hbt : '`' ∉ B := by
    intro hm
    rcases hmemB '`' hm with h | h | h
    · exact absurd h (by decide)
    · exact absurd h (by decide)
    · exact (hd _ h).2.2.2.2.1 rfl
  have hlb : '[' ∉ B := by
    intro hm
    rcases hmemB '[' hm with h | h | h
    · exact absurd h (by decide)
    · exact absurd h (by decide)
    · exact (hd _ h).2.2.2.2.2.2.2.2 rfl
  have hstar : '*' ∉ B := by
    intro hm
    rcases hmemB '*' hm with h | h | h
    · exact absurd h (by decide)
    · exact absurd h (by decide)
    · exact (hd _ h).2.2.2.2.2.2.2.1 rfl
  have hund1 : '_' ∉ u1 := by
    rw [hu1def]
    intro hm
    rcases List.mem_append.mp hm with h | h
    · exact absurd h (by decide)
    · exact hund h
  have hnl1 : '\n' ∉ u1 := by
    rw [hu1def]
    intro hm
    rcases List.mem_append.mp hm with h | h
    · exact absurd h (by decide)
    · exact hnld h
  have hheading : ∀ (o c : Str) (n : Nat),
      lineMap (headingLine (n + 1) o c) B = B := by
    intro o c n
    apply lineMap_eq_self
    intro l hl
    exact headingLine_inert n o c l
      (fun hmem => hhash (mem_splitCh_sub '\n' B '#' l hl hmem))
  have hh1 : lineMap (headingLine 1 (chars "<h1>") (chars "</h1>")) B = B :=
    hheading _ _ 0
  have hh2 : lineMap (headingLine 2 (chars "<h2>") (chars "</h2>")) B = B :=
    hheading _ _ 1
  have hh3 : lineMap (headingLine 3 (chars "<h3>") (chars "</h3>")) B = B :=
    hheading _ _ 2
  have hh4 : lineMap (headingLine 4 (chars "<h4>") (chars "</h4>")) B = B :=
    hheading _ _ 3
  have himg : scanRwSt (imageTry envBlog) PSt.init B = (B, PSt.init) := by
    apply scanRwSt_inert_of_head _ _ _ (fun ch => decide (ch = '!'))
    · intro c t hct
      exact imageTry_head_ne envBlog PSt.init c t (by simpa using hct)
    · intro c hcm
      simp only [decide_eq_false_iff_not]
      rintro rfl
      exact hbang hcm
  have hfenceB : scanRwSt (fenceTry envBlog) PSt.init B = (B, PSt.init) :=
    scanRwSt_inert_of_pref _ _ (chars "```") B
      (fun t ht => fenceTry_no_pref envBlog PSt.init t ht)
      (occursB_false_of_char_not_mem _ _ '`' (by decide) hbt)
  have hicodeB : scanRwSt (icodeTry envBlog) PSt.init B = (B, PSt.init) := by
    apply scanRwSt_inert_of_head _ _ _ (fun ch => decide (ch = '`'))
    · intro c t hct
      exact icodeTry_head_ne envBlog PSt.init c t (by simpa using hct)
    · intro c hcm
      simp only [decide_eq_false_iff_not]
      rintro rfl
      exact hbt hcm
  have hlink : scanRw linkTry B = B := by
    apply scanRw_inert_of_head _ _ (fun ch => decide (ch = '['))
    · intro c t hct
      exact linkTry_head_ne c t (by simpa using hct)
    · intro c hcm
      simp only [decide_eq_false_iff_not]
      rintro rfl
      exact hlb hcm
  have hstar2 : scanRw (emphTry (chars "**") (chars "<strong>")
      (chars "</strong>")) B = B :=
    scanRw_emph_inert _ _ _ '*' (by decide) B hstar
  have huu : scanRw (emphTry (chars "__") (chars "<strong>")
      (chars "</strong>")) B = B := by
    apply scanRw_inert_of_pref _ (chars "__") B
      (fun t ht => emphTry_no_pref _ _ _ t ht)
    rw [hB2]
    exact occursB_concat3' (chars "__") (chars "_Last updated ") d (chars "_")
      (by decide) (by decide)
      (occursB_false_of_char_not_mem _ _ '_' (by decide) hund) (by decide)
      (crossFree_of_getLast _ _ _ ' ' (by decide) (by decide))
      (crossFree_of_head_not_mem (chars "__") d (chars "_") '_' (chars "_")
        (by rfl) hund)
  have hstar1 : scanRw (emphTry (chars "*") (chars "<em>") (chars "</em>")) B = B :=
    scanRw_emph_inert _ _ _ '*' (by decide) B hstar
  have hEcompute : scanRw (emphTry (chars "_") (chars "<em>") (chars "</em>")) B =
      chars "<em>" ++ u0 ++ chars "</em>" := by
    rw [hB]
    apply scanRw_all
    unfold emphTry
    rw [if_pos (show (chars "_").isPrefixOf ('_' :: (u0 ++ [ '_' ])) = true from
      List.isPrefixOf_iff_prefix.mpr ⟨u0 ++ [ '_' ], rfl⟩)]
    have hsp : splitAtSubNoNL1 (chars "_")
        (('_' :: (u0 ++ [ '_' ]) : Str).drop (chars "_").length) = some (u0, []) := by
      show splitAtSubNoNL1 (chars "_") (u0 ++ [ '_' ]) = some (u0, [])
      have h0 : splitAtSubNoNL1 [ '_' ] ('L' :: (u1 ++ '_' :: [])) =
          some ('L' :: u1, []) :=
        splitAtSubNoNL1_ch '_' 'L' u1 [] (by decide) hund1 hnl1
      rw [hu0c]
      exact h0
    rw [hsp]
    rfl
  set E : Str := chars "<em>" ++ u0 ++ chars "</em>" with hEdef
  have hEcons : E = '<' :: ('e' :: ('m' :: ('>' :: (u0 ++ chars "</em>")))) := by
    rw [hEdef]
    rfl
  have hnlE : '\n' ∉ E := by
    rw [hEdef, hu0def]
    intro hm
    rcases List.mem_append.mp hm with hm | hm
    · rcases List.mem_append.mp hm with hm | hm
      · exact absurd hm (by decide)
      · rcases List.mem_append.mp hm with hm | hm
        · exact absurd hm (by decide)
        · exact hnld hm
    · exact absurd hm (by decide)
  have hbqE : lineMap bqLine E = E := by
    rw [lineMap_single _ _ hnlE]
    unfold bqLine
    rw [if_neg]
    rintro ⟨hp, -⟩
    rw [hEcons, show chars "> " = '>' :: [ ' ' ] from rfl,
      isPrefixOf_head_false '>' '<' _ _ (by decide)] at hp
    exact Bool.noConfusion hp
  have hdashE : lineMap dashLine E = E := by
    rw [lineMap_single _ _ hnlE]
    unfold dashLine
    rw [if_neg]
    rintro ⟨hp, -⟩
    rw [hEcons, show chars "- " = '-' :: [ ' ' ] from rfl,
      isPrefixOf_head_false '-' '<' _ _ (by decide)] at hp
    exact Bool.noConfusion hp
  have holE : lineMap olLine E = E := by
    rw [lineMap_single _ _ hnlE]
    unfold olLine
    rw [hEcons, takeWhile_head_false _ _ _ (by decide)]
    rw [← hEcons]
    simp
  have hwrapE : lineMap wrapLine E = chars "<p>" ++ E ++ chars "</p>" := by
    rw [lineMap_single _ _ hnlE]
    unfold wrapLine
    rw [if_pos]
    rw [hEcons]
    exact jsTrim_cons_ne_nil '<' _ (by decide)
  have hP : chars "<p>" ++ E ++ chars "</p>" =
      chars "<p><em>Last updated " ++ (d ++ chars "</em></p>") := by
    rw [hEdef, hu0def]
    simp only [List.append_assoc]
    rfl
  have hoccP : ∀ pat : Str, pat ≠ [] → occursB pat (chars "<p><em>Last updated ") = false →
      occursB pat d = false → occursB pat (chars "</em></p>") = false →
      (' ' ∈ pat.dropLast → False) →
      (∀ p ps, pat = p :: ps → p ∉ d) →
      occursB pat (chars "<p><em>Last updated " ++ (d ++ chars "</em></p>")) = false := by
    intro pat hne h1 h2 h3 hsp hhd
    cases pat with
    | nil => exact absurd rfl hne
    | cons p ps =>
      exact occursB_concat3' (p :: ps) (chars "<p><em>Last updated ") d
        (chars "</em></p>") hne h1 h2 h3
        (crossFree_of_getLast _ _ _ ' ' (by decide) hsp)
        (crossFree_of_head_not_mem (p :: ps) d (chars "</em></p>") p ps rfl
          (hhd p ps rfl))
  have hpOpenP : scanRw pOpenHTry
      (chars "<p><em>Last updated " ++ (d ++ chars "</em></p>")) =
      chars "<p><em>Last updated " ++ (d ++ chars "</em></p>") := by
    apply scanRw_inert_of_pref _ (chars "<p><h") _
      (fun t ht => pOpenHTry_no_pref t ht)
    exact hoccP _ (by decide) (by decide)
      (occursB_false_of_char_not_mem _ _ '<' (by decide) hltd) (by decide)
      (by decide) (fun p ps hp => by
        rw [show chars "<p><h" = '<' :: chars "p><h" from rfl] at hp
        injection hp with hp1 _
        rw [← hp1]
        exact hltd)
  have hpCloseP : scanRw hClosePTry
      (chars "<p><em>Last updated " ++ (d ++ chars "</em></p>")) =
      chars "<p><em>Last updated " ++ (d ++ chars "</em></p>") := by
    apply scanRw_inert_of_pref _ (chars "</h") _
      (fun t ht => hClosePTry_no_pref t ht)
    exact hoccP _ (by decide) (by decide)
      (occursB_false_of_char_not_mem _ _ '<' (by decide) hltd) (by decide)
      (by decide) (fun p ps hp => by
        rw [show chars "</h" = '<' :: chars "/h" from rfl] at hp
        injection hp with hp1 _
        rw [← hp1]
        exact hltd)
  have hcImg : replaceAllL (chars "<p><img") (chars "<img")
      (chars "<p><em>Last updated " ++ (d ++ chars "</em></p>")) =
      chars "<p><em>Last updated " ++ (d ++ chars "</em></p>") := by
    apply replaceAllL_eq_self
    exact hoccP _ (by decide) (by decide)
      (occursB_false_of_char_not_mem _ _ '<' (by decide) hltd) (by decide)
      (by decide) (fun p ps hp => by
        rw [show chars "<p><img" = '<' :: chars "p><img" from rfl] at hp
        injection hp with hp1 _
        rw [← hp1]
        exact hltd)
  have hcGtP : replaceAllL (chars "></p>") (chars ">")
      (chars "<p><em>Last updated " ++ (d ++ chars "</em></p>")) =
      chars "<p><em>Last updated " ++ (d ++ chars "</em>") := by
    rw [show chars "<p><em>Last updated " ++ (d ++ chars "</em></p>") =
        (chars "<p><em>Last updated " ++ (d ++ chars "</em")) ++ chars "></p>" ++ []
      from by simp only [List.append_assoc, List.append_nil]; rfl]
    rw [replaceAllL_single (chars "></p>") (chars ">")
      (chars "<p><em>Last updated " ++ (d ++ chars "</em")) [] (by decide)
      (occursB_concat3' (chars "></p>") (chars "<p><em>Last updated ") d
        (chars "</em") (by decide) (by decide)
        (occursB_false_of_char_not_mem _ _ '>' (by decide) hgtd) (by decide)
        (crossFree_of_getLast _ _ _ ' ' (by decide) (by decide))
        (crossFree_of_head_not_mem (chars "></p>") d (chars "</em") '>'
          (chars "</p>") (by rfl) hgtd))
      (by decide)
      (crossFree_of_getLast _ _ _ 'm'
        (getLast?_of_suffix_ch 'm' _
          (suffix_append_right _ _ _ (suffix_append_right _ _ _ (by decide))))
        (by decide))]
    simp only [List.append_assoc, List.append_nil]
    rfl
  have hoccP2 : ∀ pat : Str, pat ≠ [] →
      occursB pat (chars "<p><em>Last updated ") = false →
      occursB pat d = false → occursB pat (chars "</em>") = false →
      (' ' ∈ pat.dropLast → False) →
      (∀ p ps, pat = p :: ps → p ∉ d) →
      occursB pat (chars "<p><em>Last updated " ++ (d ++ chars "</em>")) = false := by
    intro pat hne h1 h2 h3 hsp hhd
    cases pat with
    | nil => exact absurd rfl hne
    | cons p ps =>
      exact occursB_concat3' (p :: ps) (chars "<p><em>Last updated ") d
        (chars "</em>") hne h1 h2 h3
        (crossFree_of_getLast _ _ _ ' ' (by decide) hsp)
        (crossFree_of_head_not_mem (p :: ps) d (chars "</em>") p ps rfl
          (hhd p ps rfl))
  have hocc2lt : ∀ pat : Str, ∀ ps : Str, pat = '<' :: ps →
      occursB pat (chars "<p><em>Last updated ") = false →
      occursB pat (chars "</em>") = false →
      (' ' ∈ pat.dropLast → False) →
      occursB pat (chars "<p><em>Last updated " ++ (d ++ chars "</em>")) = false := by
    intro pat ps hpat h1 h3 hsp
    refine hoccP2 pat (by rw [hpat]; exact List.cons_ne_nil _ _) h1
      (occursB_false_of_char_not_mem pat d '<' (by rw [hpat]; exact List.mem_cons_self _ _) hltd)
      h3 hsp (fun p ps' hp => by
        rw [hpat] at hp
        injection hp with hp1 _
        rw [← hp1]
        exact hltd)
  have hcPre1 : replaceAllL (chars "<p><pre>") (chars "<pre>")
      (chars "<p><em>Last updated " ++ (d ++ chars "</em>")) =
      chars "<p><em>Last updated " ++ (d ++ chars "</em>") :=
    replaceAllL_eq_self _ _ _
      (hocc2lt _ _ (by rfl) (by decide) (by decide) (by decide))
  have hcPre2 : replaceAllL (chars "</pre></p>") (chars "</pre>")
      (chars "<p><em>Last updated " ++ (d ++ chars "</em>")) =
      chars "<p><em>Last updated " ++ (d ++ chars "</em>") :=
    replaceAllL_eq_self _ _ _
      (hocc2lt _ _ (by rfl) (by decide) (by decide) (by decide))
  have hcBq1 : replaceAllL (chars "<p><blockquote-line>") (chars "<blockquote-line>")
      (chars "<p><em>Last updated " ++ (d ++ chars "</em>")) =
      chars "<p><em>Last updated " ++ (d ++ chars "</em>") :=
    replaceAllL_eq_self _ _ _
      (hocc2lt _ _ (by rfl) (by decide) (by decide) (by decide))
  have hcBq2 : replaceAllL (chars "</blockquote-line></p>") (chars "</blockquote-line>")
      (chars "<p><em>Last updated " ++ (d ++ chars "</em>")) =
      chars "<p><em>Last updated " ++ (d ++ chars "</em>") :=
    replaceAllL_eq_self _ _ _
      (hocc2lt _ _ (by rfl) (by decide) (by decide) (by decide))
  have hcLi1 : replaceAllL (chars "<p><li>") (chars "<li>")
      (chars "<p><em>Last updated " ++ (d ++ chars "</em>")) =
      chars "<p><em>Last updated " ++ (d ++ chars "</em>") :=
    replaceAllL_eq_self _ _ _
      (hocc2lt _ _ (by rfl) (by decide) (by decide) (by decide))
  have hcLi2 : replaceAllL (chars "</li></p>") (chars "</li>")
      (chars "<p><em>Last updated " ++ (d ++ chars "</em>")) =
      chars "<p><em>Last updated " ++ (d ++ chars "</em>") :=
    replaceAllL_eq_self _ _ _
      (hocc2lt _ _ (by rfl) (by decide) (by decide) (by decide))
  have hcPP : replaceAllL (chars "<p></p>") []
      (chars "<p><em>Last updated " ++ (d ++ chars "</em>")) =
      chars "<p><em>Last updated " ++ (d ++ chars "</em>") :=
    replaceAllL_eq_self _ _ _
      (hocc2lt _ _ (by rfl) (by decide) (by decide) (by decide))
  have hnlP2 : '\n' ∉ chars "<p><em>Last updated " ++ (d ++ chars "</em>") := by
    intro hm
    rcases List.mem_append.mp hm with hm | hm
    · exact absurd hm (by decide)
    · rcases List.mem_append.mp hm with hm | hm
      · exact hnld hm
      · exact absurd hm (by decide)
  have hsplitP2 : splitCh '\n' (chars "<p><em>Last updated " ++ (d ++ chars "</em>")) =
      [chars "<p><em>Last updated " ++ (d ++ chars "</em>")] :=
    splitCh_no_sep '\n' _ hnlP2
  have hbqF : bqStep [] (chars "<p><em>Last updated " ++ (d ++ chars "</em>")) =
      [chars "<p><em>Last updated " ++ (d ++ chars "</em>")] := by
    unfold bqStep
    rw [hocc2lt (chars "<blockquote-line>") _ (by rfl) (by decide) (by decide)
      (by decide)]
    simp
  have hliF : listStep [] (chars "<p><em>Last updated " ++ (d ++ chars "</em>")) =
      [chars "<p><em>Last updated " ++ (d ++ chars "</em>")] := by
    unfold listStep
    rw [hocc2lt (chars "<li>") _ (by rfl) (by decide) (by decide) (by decide)]
    simp
  have hcloseF : closeBqLine (chars "<p><em>Last updated " ++ (d ++ chars "</em>")) =
      chars "<p><em>Last updated " ++ (d ++ chars "</em>") := by
    unfold closeBqLine
    rw [if_neg]
    rintro ⟨hp, -⟩
    rw [show chars "<p><em>Last updated " ++ (d ++ chars "</em>") =
        '<' :: ('p' :: (chars "><em>Last updated " ++ (d ++ chars "</em>")))
      from rfl,
      show chars "<blockquote>" = '<' :: ('b' :: chars "lockquote>") from rfl,
      isPrefixOf_two_false '<' 'b' '<' 'p' _ _ (by decide)] at hp
    exact Bool.noConfusion hp
  have hfoldAll : joinCh '\n'
      (((((splitCh '\n' (chars "<p><em>Last updated " ++ (d ++ chars "</em>"))).foldl
        bqStep []).foldl listStep []).map closeBqLine)) =
      chars "<p><em>Last updated " ++ (d ++ chars "</em>") := by
    rw [hsplitP2]
    simp only [List.foldl_cons, List.foldl_nil]
    rw [hbqF]
    simp only [List.foldl_cons, List.foldl_nil]
    rw [hliF]
    simp only [List.map_cons, List.map_nil]
    rw [hcloseF]
    rfl
  unfold Md.parse
  simp only [hh1, hh2, hh3, hh4, himg, hfenceB, hicodeB, hlink, hstar2, huu,
    hstar1, hEcompute, hbqE, hdashE, holE, hwrapE, hP, hpOpenP, hpCloseP,
    hcImg, hcGtP, hcPre1, hcPre2, hcBq1, hcBq2, hcLi1, hcLi2, hfoldAll, hcPP,
    (show PSt.init.codeMap = ([] : List (Str × Str)) from rfl),
    (show PSt.init.icodeMap = ([] : List (Str × Str)) from rfl),
    (show PSt.init.htmlMap = ([] : List (Str × Str)) from rfl),
    restoreMap_nil]

/-- C5 counterexample: the claimed chain (metadata, else marker in the
body, else file mtime, else current time) does not match the builder — the
marker is sought in the *converted HTML* where the italics rule has already
destroyed a plain-text `_Last updated <date>_` marker, and the fallback is
`new Date(0)` (the epoch), never the file's mtime or the current time. -/
theorem c5_blog_date_cex :
    specResolveBlogDate none (chars "_Last updated Aug 21, 2025_") true =
      ResolvedDate.fromMarker (chars "Aug 21, 2025") ∧
    specResolveBlogDate none (chars "plain text") true = ResolvedDate.fromMtime ∧
    specResolveBlogDate none (chars "plain text") false = ResolvedDate.fromNow ∧
    codeResolveBlogDate envBlog none (chars "_Last updated Aug 21, 2025_") =
      ResolvedDate.epochDefault ∧
    codeResolveBlogDate envBlog none (chars "plain text") =
      ResolvedDate.epochDefault := by
  refine ⟨by decide, by decide, by decide, by decide, by decide⟩

/-- C5 (amended).  The catalog builder resolves a post's publish date as:
the explicit sidecar metadata date, else a date parsed from an
`_Last updated <date>_` marker found in the *converted HTML content* (a
plain-text marker is destroyed by the italics rule before the search, so it
never matches; a marker protected inside inline code survives and does
match), else `new Date(0)`; the file's modification time and the current
time are never consulted; and the returned list is ordered by descending
resolved publish date. -/
theorem c5_blog_date_amended :
    (∀ (env : MdEnv) (meta : Option Str) (body : Str),
      codeResolveBlogDate env meta body ≠ ResolvedDate.fromMtime ∧
      codeResolveBlogDate env meta body ≠ ResolvedDate.fromNow) ∧
    (∀ (env : MdEnv) (meta : Option Str) (body : Str) (v : Str),
      metaPublishedAt meta = some v →
      codeResolveBlogDate env meta body = ResolvedDate.fromMeta v) ∧
    (∀ d : Str,
      (∀ c ∈ d, c ≠ '_' ∧ c ≠ '\n' ∧ c ≠ '#' ∧ c ≠ '!' ∧ c ≠ '`' ∧ c ≠ '<' ∧
        c ≠ '>' ∧ c ≠ '*' ∧ c ≠ '[') →
      codeResolveBlogDate envBlog none (chars "_Last updated " ++ d ++ chars "_") =
        ResolvedDate.epochDefault) ∧
    (codeResolveBlogDate envBlog none
        (chars "x `_Last updated Aug 21, 2025_` y") =
      ResolvedDate.fromMarker (chars "Aug 21, 2025")) ∧
    (∀ (getTime : JSDate → Int) (fs : Str → Option Str) (ct ict ht : Nat → Str)
      (files : List BlogPostSrc),
      List.Sorted (fun a b => getTime b.publishedAt ≤ getTime a.publishedAt)
        (getBlogPosts getTime fs ct ict ht files)) := by
  refine ⟨?_, ?_, ?_, by decide, ?_⟩
  · intro env meta body
    unfold codeResolveBlogDate
    cases metaPublishedAt meta with
    | some v => exact ⟨(fun h => by cases h), (fun h => by cases h)⟩
    | none =>
      cases lastUpdatedCapture (Md.parse env body).1 with
      | some dd => exact ⟨(fun h => by cases h), (fun h => by cases h)⟩
      | none => exact ⟨(fun h => by cases h), (fun h => by cases h)⟩
  · intro env meta body v hv
    unfold codeResolveBlogDate
    rw [hv]
  · intro d hdc
    unfold codeResolveBlogDate
    rw [show metaPublishedAt none = none from rfl, marker_destroyed d hdc]
    rw [lastUpdatedCapture_none _ (by
      intro hm
      rcases List.mem_append.mp hm with hm | hm
      · exact absurd hm (by decide)
      · rcases List.mem_append.mp hm with hm | hm
        · exact (hdc _ hm).1 rfl
        · exact absurd hm (by decide))]
  · intro getTime fs ct ict ht files
    exact sortDesc_sorted _ _

theorem c5_blog_date_amended_witness :
    codeResolveBlogDate envBlog none
      (chars "_Last updated " ++ chars "Aug 21, 2025" ++ chars "_") =
      ResolvedDate.epochDefault :=
  c5_blog_date_amended.2.2.1 (chars "Aug 21, 2025") (by decide)
